import Mathlib

/-! Auto-provisioning demand detection: count generator and aggregator.

Shallow embedding of `pkg/uaem-common/autoprov-stats.go` (the sharded count
generator run by every edge-serving process) and of the region-level
aggregator's evaluation iteration.

Conventions of the embedding.

* A Go `map[K]*V` is an association list `List (K × V)`; `mapGet` is the lookup
  `m[k]`, `mapSet` the store `m[k] = v`.  Go leaves the iteration order of a
  map unspecified; a `range` loop is embedded as a traversal in list order.
* `uint64` and `uint32` values are natural numbers, with the wrap-around of
  the machine operations written out (`% 2 ^ 64`, `% 2 ^ 32`).
* The `send` callback is an output: every operation returns the list of
  messages it handed to `send`, in call order.
* Locks are not modelled: every operation is one atomic step.
-/

namespace AutoProv

/-! ## Go maps as association lists -/

/-- The lookup `v, found := m[k]`. -/
def mapGet {κ ν : Type} [DecidableEq κ] (k : κ) : List (κ × ν) → Option ν
  | [] => none
  | (k', v) :: rest => if k' = k then some v else mapGet k rest

/-- The store `m[k] = v`: overwrite the binding of `k`, or add one. -/
def mapSet {κ ν : Type} [DecidableEq κ] (k : κ) (v : ν) : List (κ × ν) → List (κ × ν)
  | [] => [(k, v)]
  | (k', v') :: rest => if k' = k then (k, v) :: rest else (k', v') :: mapSet k v rest

/-! ## Keys and messages (`edgeproto`) -/

/-- The identity of an application: `edgeproto.AppKey`. -/
structure AppKey where
  organization : String
  name : String
  version : String
deriving DecidableEq, Repr

/-- The identity of a zone: `edgeproto.ZoneKey`. -/
structure ZoneKey where
  organization : String
  name : String
deriving DecidableEq, Repr

/-- The map key of a shard: `edgeproto.AppZoneKeyPair`. -/
structure AppZoneKeyPair where
  appKey : AppKey
  zoneKey : ZoneKey
deriving DecidableEq, Repr

/-- One count of a message: `edgeproto.AutoProvCount`. -/
structure AutoProvCount where
  appKey : AppKey
  zoneKey : ZoneKey
  count : Nat
  processNow : Bool
deriving DecidableEq, Repr

/-- The message handed to `send`: `edgeproto.AutoProvCounts`.  `timestamp` is
`none` where the code leaves the field at its zero value. -/
structure AutoProvCountsMsg where
  dmeNodeName : String
  timestamp : Option Nat
  counts : List AutoProvCount
deriving DecidableEq, Repr

/-- The (app, zone) key a count belongs to. -/
def AutoProvCount.key (m : AutoProvCount) : AppZoneKeyPair := ⟨m.appKey, m.zoneKey⟩

/-! ## The count generator (`autoprov-stats.go`) -/

/-- The pair of `uint64` counters of one key: `AutoProvCounts` of `dmecommon`. -/
structure AutoProvCounts where
  count : Nat
  lastCount : Nat
deriving DecidableEq, Repr

/-- The two fields of `dmecommon.AutoProvPolicy` that `Increment` reads, both
compared as `uint32` there; the type is declared in another file of the
package. -/
structure AutoProvPolicy where
  DeployClientCount : Nat
  IntervalCount : Nat
deriving DecidableEq, Repr

/-- One shard: the map `appCloudletCounts`. -/
abbrev AutoProvStatsShard := List (AppZoneKeyPair × AutoProvCounts)

/-- The generator `AutoProvStats`.  `running` stands for `stop != nil`;
`nodeName` is `nodeKey.Name`. -/
structure AutoProvStats where
  shards : List AutoProvStatsShard
  numShards : Nat
  intervalSec : Rat
  offsetSec : Rat
  nodeName : String
  running : Bool
deriving DecidableEq, Repr

/-- Subtraction of two `uint64` values, modulo `2 ^ 64`. -/
def sub64 (a b : Nat) : Nat := (a % 2 ^ 64 + (2 ^ 64 - b % 2 ^ 64)) % 2 ^ 64

/-- The conversion `uint32(x)` of a `uint64`: the low 32 bits. -/
def toUint32 (x : Nat) : Nat := x % 2 ^ 32

/-- `InitAutoProvStats`: `numShards` empty shards, loop not started. -/
def InitAutoProvStats (intervalSec offsetSec : Rat) (numShards : Nat) (nodeName : String) :
    AutoProvStats :=
  { shards := List.replicate numShards []
    numShards := numShards
    intervalSec := intervalSec
    offsetSec := offsetSec
    nodeName := nodeName
    running := false }

/-- The test of the fast path in `Increment`:
`uint32(stats.count-stats.lastCount) >= policy.DeployClientCount && policy.IntervalCount <= 1`. -/
def fastPathCond (stats : AutoProvCounts) (policy : AutoProvPolicy) : Bool :=
  decide (policy.DeployClientCount ≤ toUint32 (sub64 stats.count stats.lastCount)) &&
    decide (policy.IntervalCount ≤ 1)

/-- `AutoProvStats.Increment`.  `GetShardIndex` stands for `util.GetShardIndex`,
a function of package `util` that is kept abstract here.  The result is `none`
when the index is outside `s.shards` (the indexing `s.shards[idx]` fails at
run time); otherwise it is the new state with the messages handed to `send`. -/
def Increment (GetShardIndex : AppZoneKeyPair → Nat → Nat) (s : AutoProvStats)
    (appKey : AppKey) (zoneKey : ZoneKey) (policy : AutoProvPolicy) :
    Option (AutoProvStats × List AutoProvCountsMsg) :=
  let key : AppZoneKeyPair := ⟨appKey, zoneKey⟩
  let idx := GetShardIndex key s.numShards
  match s.shards[idx]? with
  | none => none
  | some shard =>
    let stats : AutoProvCounts := (mapGet key shard).getD ⟨0, 0⟩
    let stats1 : AutoProvCounts := { stats with count := (stats.count + 1) % 2 ^ 64 }
    let s1 : AutoProvStats := { s with shards := s.shards.set idx (mapSet key stats1 shard) }
    if fastPathCond stats1 policy then
      some (s1, [{ dmeNodeName := s.nodeName
                   timestamp := none
                   counts := [{ appKey := appKey, zoneKey := zoneKey
                                count := stats1.count, processNow := true }] }])
    else
      some (s1, [])

/-- The inner loop of the timer branch of `RunNotify` over one shard:
`acc` is `sendCounts.Counts` so far. -/
def exportShard (acc : List AutoProvCount) :
    AutoProvStatsShard → AutoProvStatsShard × List AutoProvCount
  | [] => ([], acc)
  | (key, stats) :: rest =>
    if stats.count = stats.lastCount then
      let r := exportShard acc rest
      ((key, stats) :: r.1, r.2)
    else
      let apCount : AutoProvCount :=
        { appKey := key.appKey, zoneKey := key.zoneKey, count := stats.count, processNow := false }
      let r := exportShard (acc ++ [apCount]) rest
      ((key, { stats with lastCount := stats.count }) :: r.1, r.2)

/-- The outer loop of the timer branch of `RunNotify` over the shards. -/
def exportShards (acc : List AutoProvCount) :
    List AutoProvStatsShard → List AutoProvStatsShard × List AutoProvCount
  | [] => ([], acc)
  | shard :: rest =>
    let r := exportShard acc shard
    let r2 := exportShards r.2 rest
    (r.1 :: r2.1, r2.2)

/-- One periodic export pass: the timer branch of `RunNotify`, at time `now`.
Returns the new state, the batch `sendCounts.Counts`, and the messages handed
to `send`. -/
def exportPass (now : Nat) (s : AutoProvStats) :
    AutoProvStats × List AutoProvCount × List AutoProvCountsMsg :=
  let r := exportShards [] s.shards
  let sendCounts : AutoProvCountsMsg :=
    { dmeNodeName := s.nodeName, timestamp := some now, counts := r.2 }
  ({ s with shards := r.1 }, r.2, if 0 < r.2.length then [sendCounts] else [])

/-- The counters of `key` in the shard `GetShardIndex` assigns to it. -/
def getCounts (GetShardIndex : AppZoneKeyPair → Nat → Nat) (s : AutoProvStats)
    (key : AppZoneKeyPair) : Option AutoProvCounts :=
  (s.shards[GetShardIndex key s.numShards]?).bind (mapGet key)

/-- All entries of all shards, shard by shard. -/
def allEntries (s : AutoProvStats) : List (AppZoneKeyPair × AutoProvCounts) :=
  s.shards.flatten

/-- The counters of `key` in shard number `i`, if shard `i` binds `key`. -/
def entryAt (s : AutoProvStats) (i : Nat) (key : AppZoneKeyPair) : Option AutoProvCounts :=
  (s.shards[i]?).bind (mapGet key)

/-- The count a periodic export pass builds for an entry (`apCount`). -/
def apCountOf (e : AppZoneKeyPair × AutoProvCounts) : AutoProvCount :=
  { appKey := e.1.appKey, zoneKey := e.1.zoneKey, count := e.2.count, processNow := false }

/-- The entry has a non-zero delta: the test `stats.count == stats.lastCount`
of the export pass fails. -/
def changed (e : AppZoneKeyPair × AutoProvCounts) : Bool :=
  decide (e.2.count ≠ e.2.lastCount)

/-- A shard is well formed at index `i`: its keys are distinct (it is a map)
and each of them is assigned to shard `i`. -/
def ShardWF (GetShardIndex : AppZoneKeyPair → Nat → Nat) (numShards : Nat)
    (p : Nat × AutoProvStatsShard) : Prop :=
  (p.2.map Prod.fst).Nodup ∧ ∀ e ∈ p.2, GetShardIndex e.1 numShards = p.1

instance (G : AppZoneKeyPair → Nat → Nat) (n : Nat) (p : Nat × AutoProvStatsShard) :
    Decidable (ShardWF G n p) := by
  unfold ShardWF; infer_instance

/-- A generator state is well formed: there are `numShards` shards and each
is well formed at its index. -/
def WF (GetShardIndex : AppZoneKeyPair → Nat → Nat) (s : AutoProvStats) : Prop :=
  s.shards.length = s.numShards ∧ ∀ p ∈ s.shards.enum, ShardWF GetShardIndex s.numShards p

instance (G : AppZoneKeyPair → Nat → Nat) (s : AutoProvStats) : Decidable (WF G s) := by
  unfold WF; infer_instance

/-! ### Start, stop, settings, clearing -/

/-- What an operation does to the export loop (the goroutine `RunNotify`). -/
inductive LoopEvent where
  | stopped
  | started
deriving DecidableEq, Repr

/-- `AutoProvStats.Start`: nothing when the loop is already running
(`s.stop != nil`), otherwise the loop is started. -/
def Start (s : AutoProvStats) : AutoProvStats × List LoopEvent :=
  if s.running then (s, [])
  else ({ s with running := true }, [LoopEvent.started])

/-- `AutoProvStats.Stop`: the loop is signalled by `close(s.stop)`, awaited,
and `s.stop` set to `nil`.  The result is `none` when `s.stop` is `nil`: Go's
`close` of a nil channel fails at run time. -/
def Stop (s : AutoProvStats) : Option (AutoProvStats × List LoopEvent) :=
  if s.running then some ({ s with running := false }, [LoopEvent.stopped])
  else none

/-- `AutoProvStats.UpdateSettings`. -/
def UpdateSettings (intervalSec : Rat) (s : AutoProvStats) :
    Option (AutoProvStats × List LoopEvent) :=
  if s.intervalSec = intervalSec then some (s, [])
  else if s.running then
    match Stop s with
    | none => none
    | some (s1, ev1) =>
      let r := Start { s1 with intervalSec := intervalSec }
      some (r.1, ev1 ++ r.2)
  else
    some ({ s with intervalSec := intervalSec }, [])

/-- `AutoProvStats.Clear`.  `Matches m o` stands for `m.Matches(o)` of
`edgeproto.AppKey`, a generated method that is kept abstract here. -/
def Clear (Matches : AppKey → AppKey → Bool) (appKey : AppKey) (_policy : String)
    (s : AutoProvStats) : AutoProvStats :=
  { s with shards := s.shards.map (fun sh => sh.filter (fun e => !(Matches e.1.appKey appKey))) }

/-- `AutoProvStats.Prune`; the set `apps` is given by the list of its members. -/
def Prune (apps : List AppKey) (s : AutoProvStats) : AutoProvStats :=
  { s with shards := s.shards.map (fun sh => sh.filter (fun e => decide (e.1.appKey ∈ apps))) }

/-- The operations on a generator. -/
inductive GenOp where
  | increment (appKey : AppKey) (zoneKey : ZoneKey) (policy : AutoProvPolicy)
  | exportPass (now : Nat)
  | updateSettings (intervalSec : Rat)
  | clear (appKey : AppKey) (policy : String)
  | prune (apps : List AppKey)
  | start
  | stop

/-- One operation on a generator; `none` when the operation fails at run
time. -/
def applyOp (GetShardIndex : AppZoneKeyPair → Nat → Nat) (Matches : AppKey → AppKey → Bool)
    (op : GenOp) (s : AutoProvStats) : Option AutoProvStats :=
  match op with
  | GenOp.increment appKey zoneKey policy =>
    (Increment GetShardIndex s appKey zoneKey policy).map Prod.fst
  | GenOp.exportPass now => some (exportPass now s).1
  | GenOp.updateSettings v => (UpdateSettings v s).map Prod.fst
  | GenOp.clear appKey policy => some (Clear Matches appKey policy s)
  | GenOp.prune apps => some (Prune apps s)
  | GenOp.start => some (Start s).1
  | GenOp.stop => (Stop s).map Prod.fst

/-- A sequence of operations on a generator, in order. -/
def runOps (GetShardIndex : AppZoneKeyPair → Nat → Nat) (Matches : AppKey → AppKey → Bool) :
    List GenOp → AutoProvStats → Option AutoProvStats
  | [], s => some s
  | op :: rest, s =>
    match applyOp GetShardIndex Matches op s with
    | none => none
    | some s1 => runOps GetShardIndex Matches rest s1

/-- Modelled from the spec: `util.GetShardIndex`, whose source is not part of
this development; §4.1 "each (app, zone) key hashes deterministically to one
of N locked shards".  `hash` is the hash of the key. -/
def GetShardIndex (hash : AppZoneKeyPair → Nat) (key : AppZoneKeyPair) (numShards : Nat) :
    Nat :=
  hash key % numShards

/-- The cumulative count the generator holds for `key`, 0 when it holds none. -/
def countOf (GetShardIndex : AppZoneKeyPair → Nat → Nat) (s : AutoProvStats)
    (key : AppZoneKeyPair) : Nat :=
  match getCounts GetShardIndex s key with
  | none => 0
  | some c => c.count

/-- The operation deletes no entry: it is neither `Clear` nor `Prune`. -/
def GenOp.keepsEntries : GenOp → Bool
  | GenOp.clear _ _ => false
  | GenOp.prune _ => false
  | _ => true

/-- The number of `Increment`s of `key` among the operations. -/
def incrementsOf (key : AppZoneKeyPair) : List GenOp → Nat
  | [] => 0
  | GenOp.increment appKey zoneKey _ :: rest =>
    (if (⟨appKey, zoneKey⟩ : AppZoneKeyPair) = key then 1 else 0) + incrementsOf key rest
  | _ :: rest => incrementsOf key rest

/-! ## The aggregator (specification §4.2)

Of the aggregator only the test `pkg/autoprov/autoprov_test.go` is under
`src`; `runIter` and the state it works on are modelled from the
specification.  The state types take their field names from the test
(`allStats`, `policies`, `zones`, `zoneTrackers`, `deployClientCount`,
`deployIntervalCount`, `deployIntervalsMet`, `count`), the iteration `runIter`
follows the numbered steps of §4.2 of the specification, and where the test
observes the iteration (the values of `deployIntervalsMet` after each
`runIter`, the instance created after the last one) the model follows the
test. -/

/-- Modelled from the spec: the per-zone demand record of the aggregator's
state, missing with the aggregator's source; §3 `zones`: map ZoneKey to
`count` (lifetime total delta observed) and `lastCount` (value as of the
previous iteration). -/
structure apZoneStats where
  count : Nat
  lastCount : Nat
deriving DecidableEq, Repr

/-- Modelled from the spec: the per (app, policy, zone) tracker, missing with
the aggregator's source; §3 `zoneTrackers`: map ZoneKey to
`deployIntervalsMet`. -/
structure apZoneTracker where
  deployIntervalsMet : Nat
deriving DecidableEq, Repr

/-- Modelled from the spec: the `PolicyTracker` of §3, missing with the
aggregator's source: cached copies of the policy's thresholds and one zone
tracker per zone of the policy. -/
structure apPolicyTracker where
  deployClientCount : Nat
  deployIntervalCount : Nat
  zoneTrackers : List (ZoneKey × apZoneTracker)
deriving DecidableEq, Repr

/-- Modelled from the spec: the `AppDemandState` of §3 (`apAppStats` in the
test), missing with the aggregator's source. -/
structure apAppStats where
  zones : List (ZoneKey × apZoneStats)
  policies : List (String × apPolicyTracker)
deriving DecidableEq, Repr

/-- Modelled from the spec: the aggregator's tracking state (`allStats` in
the test), missing with the aggregator's source. -/
structure AutoProvAggr where
  allStats : List (AppKey × apAppStats)
deriving DecidableEq, Repr

/-- Modelled from the spec: what one iteration reads from its external
collaborators (§6), missing with the aggregator's source.  `getCount` is the
Metrics Store query `GetCount(appKey, zoneKey)`, `none` when the query fails. -/
structure IterEnv where
  getCount : AppKey → ZoneKey → Option Nat

/-- Modelled from the spec: a create request `CreateAppInst(appKey, zoneKey)`
to the Trigger Sink (§6), missing with the aggregator's source.  `policy`
records the policy whose tracker issued the request. -/
structure CreateReq where
  appKey : AppKey
  zoneKey : ZoneKey
  policy : String
deriving DecidableEq, Repr

/-- Modelled from the spec: the zones of an app that step 2 of §4.2 visits,
"every zone tracked by any of its policies", each once. -/
def trackedZones (st : apAppStats) : List ZoneKey :=
  (st.policies.flatMap (fun p => p.2.zoneTrackers.map Prod.fst)).dedup

/-- Modelled from the spec: the record `zones[zone]`, a fresh record of zeros
when there is none yet. -/
def zoneStatsOf (zones : List (ZoneKey × apZoneStats)) (z : ZoneKey) : apZoneStats :=
  (mapGet z zones).getD ⟨0, 0⟩

/-- Modelled from the spec: steps 1 and 2 of §4.2 for one (app, zone) whose
query returned `cnt`.  The init iteration "only establishes `lastCount`
baselines"; an evaluation iteration computes
`delta = count - zones[zone].lastCount`, updates `lastCount = count` and adds
`delta` to `zones[zone].count`. -/
def zoneStep (init : Bool) (cnt : Nat) (zs : apZoneStats) : apZoneStats :=
  if init then { zs with lastCount := cnt }
  else { count := zs.count + (cnt - zs.lastCount), lastCount := cnt }

/-- Modelled from the spec: steps 1 and 2 of §4.2 over the tracked zones of
one app; `q` is the Metrics Store query for that app.  Returns the updated
`zones` and the deltas computed (none in the init iteration).  A zone whose
query fails is skipped: its record is left alone and it gets no delta. -/
def computeDeltas (init : Bool) (q : ZoneKey → Option Nat) :
    List ZoneKey → List (ZoneKey × apZoneStats) → List (ZoneKey × Nat) →
    List (ZoneKey × apZoneStats) × List (ZoneKey × Nat)
  | [], zones, deltas => (zones, deltas)
  | z :: rest, zones, deltas =>
    match q z with
    | none => computeDeltas init q rest zones deltas
    | some cnt =>
      let zs := zoneStatsOf zones z
      computeDeltas init q rest (mapSet z (zoneStep init cnt zs) zones)
        (if init then deltas else mapSet z (cnt - zs.lastCount) deltas)

/-- Modelled from the spec: steps 3 and 4 of §4.2 for one zone tracker whose
zone has the delta `delta`, missing with the aggregator's source.  Step 3:
"if `delta >= policy.DeployClientCount`, increment `deployIntervalsMet`;
otherwise reset it to 0".  Step 4: "when `deployIntervalsMet ==
policy.DeployIntervalCount` [...] issue a create request to the Trigger Sink
and reset `deployIntervalsMet` to 0, requiring a fresh run of consecutive
intervals before any repeat trigger".  The test reads `deployIntervalsMet`
after every `runIter` and requires `ii+1` up to `DeployIntervalCount`, with
the instance created by the last iteration (`autoprov_test.go`, lines 253 to
276 and 322 to 331): the reset of step 4 is not visible after the iteration
that triggers.  Here it takes effect when the tracker is evaluated next: a
tracker that stands at the interval count starts again from 0, so that the
count stays within 0 and `deployIntervalCount` (§3) and a repeat trigger
needs a fresh run.  The create request is issued only by an iteration whose
delta meets the threshold.  Whether an instance is already live is not an
input: "the sink, not the Aggregator, is responsible for rejecting duplicate
creates against an already-live instance" (§6).  The boolean tells whether a
create request is issued. -/
def evalTracker (clientCount intervalCount delta : Nat) (tr : apZoneTracker) :
    apZoneTracker × Bool :=
  if clientCount ≤ delta then
    let start := if intervalCount ≤ tr.deployIntervalsMet then 0 else tr.deployIntervalsMet
    let met := min (start + 1) intervalCount
    (⟨met⟩, decide (met = intervalCount))
  else (⟨0⟩, false)

/-- Modelled from the spec: steps 3 and 4 for one entry of a policy's
`zoneTrackers`.  A zone without a delta (its query failed) is skipped:
"`deployIntervalsMet` is neither advanced nor reset". -/
def evalZone (clientCount intervalCount : Nat) (deltas : List (ZoneKey × Nat))
    (e : ZoneKey × apZoneTracker) : apZoneTracker × Bool :=
  match mapGet e.1 deltas with
  | none => (e.2, false)
  | some d => evalTracker clientCount intervalCount d e.2

/-- Modelled from the spec: steps 3 and 4 for one policy of an app: the
policy's tracker after the iteration. -/
def evalPolicy (deltas : List (ZoneKey × Nat)) (pt : apPolicyTracker) : apPolicyTracker :=
  { pt with zoneTrackers := pt.zoneTrackers.map (fun e =>
      (e.1, (evalZone pt.deployClientCount pt.deployIntervalCount deltas e).1)) }

/-- Modelled from the spec: the create requests that steps 3 and 4 issue for
one policy of an app. -/
def policyCreates (app : AppKey) (pname : String) (deltas : List (ZoneKey × Nat))
    (pt : apPolicyTracker) : List CreateReq :=
  pt.zoneTrackers.flatMap (fun e =>
    if (evalZone pt.deployClientCount pt.deployIntervalCount deltas e).2
    then [⟨app, e.1, pname⟩] else [])

/-- Modelled from the spec: one iteration of §4.2 for one tracked app. -/
def runIterApp (init : Bool) (env : IterEnv) (app : AppKey) (st : apAppStats) :
    apAppStats × List CreateReq :=
  let r := computeDeltas init (env.getCount app) (trackedZones st) st.zones []
  if init then ({ st with zones := r.1 }, [])
  else
    ({ zones := r.1
       policies := st.policies.map (fun p => (p.1, evalPolicy r.2 p.2)) },
     st.policies.flatMap (fun p => policyCreates app p.1 r.2 p.2))

/-- Modelled from the spec: `runIter(ctx, init)`, one iteration of the
aggregator (§4.2 steps 1 to 4) over every tracked app, missing with the
aggregator's source.  Returns the new state and the create requests issued to
the Trigger Sink. -/
def runIter (init : Bool) (env : IterEnv) (a : AutoProvAggr) : AutoProvAggr × List CreateReq :=
  ({ allStats := a.allStats.map (fun e => (e.1, (runIterApp init env e.1 e.2).1)) },
   a.allStats.flatMap (fun e => (runIterApp init env e.1 e.2).2))

/-- Consecutive evaluation iterations (`runIter` with `init = false`), one
per element of `envs`: the final state and the create requests of each
iteration. -/
def runIters : List IterEnv → AutoProvAggr → AutoProvAggr × List (List CreateReq)
  | [], a => (a, [])
  | env :: rest, a =>
    let r := runIter false env a
    let r2 := runIters rest r.1
    (r2.1, r.2 :: r2.2)

/-- The policy tracker of (app, policy). -/
def getPolicy (a : AutoProvAggr) (app : AppKey) (pname : String) : Option apPolicyTracker :=
  (mapGet app a.allStats).bind (fun st => mapGet pname st.policies)

/-- The zone tracker of (app, policy, zone). -/
def getTracker (a : AutoProvAggr) (app : AppKey) (pname : String) (z : ZoneKey) :
    Option apZoneTracker :=
  (getPolicy a app pname).bind (fun pt => mapGet z pt.zoneTrackers)

/-- The value `zones[zone].lastCount` of an app, 0 when there is no record. -/
def lastCountOf (a : AutoProvAggr) (app : AppKey) (z : ZoneKey) : Nat :=
  match mapGet app a.allStats with
  | none => 0
  | some st => (zoneStatsOf st.zones z).lastCount

/-- The zone's delta meets the threshold `clientCount` in each of the
iterations `envs`, the first of which starts from the baseline `lc`: every
query succeeds, and the count returned exceeds the previous one by at least
`clientCount`. -/
def qualifying (clientCount : Nat) (app : AppKey) (z : ZoneKey) : Nat → List IterEnv → Bool
  | _, [] => true
  | lc, env :: rest =>
    match env.getCount app z with
    | none => false
    | some c => decide (clientCount ≤ c - lc) && qualifying clientCount app z c rest

/-- The zone's delta stays below the threshold `clientCount` in each of the
iterations `envs`, the first of which starts from the baseline `lc`; an
iteration whose query fails has no delta. -/
def staysBelow (clientCount : Nat) (app : AppKey) (z : ZoneKey) : Nat → List IterEnv → Bool
  | _, [] => true
  | lc, env :: rest =>
    match env.getCount app z with
    | none => staysBelow clientCount app z lc rest
    | some c => decide (c - lc < clientCount) && staysBelow clientCount app z c rest

/-- The number of create requests for (app, zone) in a list of requests,
whatever policy issued them. -/
def createsFor (app : AppKey) (z : ZoneKey) (reqs : List CreateReq) : Nat :=
  reqs.countP (fun r => decide (r.appKey = app ∧ r.zoneKey = z))

/-- The maps of the aggregator's state have distinct keys. -/
def AggrWF (a : AutoProvAggr) : Prop :=
  (a.allStats.map Prod.fst).Nodup ∧
  ∀ e ∈ a.allStats, (e.2.policies.map Prod.fst).Nodup ∧
    ∀ p ∈ e.2.policies, (p.2.zoneTrackers.map Prod.fst).Nodup

instance (a : AutoProvAggr) : Decidable (AggrWF a) := by
  unfold AggrWF; infer_instance

/-- The value `zones[zone].count` of an app, 0 when there is no record. -/
def zoneCountOf (a : AutoProvAggr) (app : AppKey) (z : ZoneKey) : Nat :=
  match mapGet app a.allStats with
  | none => 0
  | some st => (zoneStatsOf st.zones z).count

/-- The zone is tracked by one of the app's policies. -/
def zoneTracked (a : AutoProvAggr) (app : AppKey) (z : ZoneKey) : Bool :=
  match mapGet app a.allStats with
  | none => false
  | some st => decide (z ∈ trackedZones st)

/-- The deltas step 2 observes for (app, zone) in the evaluation iterations
`envs`, the first of which starts from the baseline `lc`; an iteration whose
query fails observes none. -/
def observedDeltas (app : AppKey) (z : ZoneKey) : Nat → List IterEnv → List Nat
  | _, [] => []
  | lc, env :: rest =>
    match env.getCount app z with
    | none => observedDeltas app z lc rest
    | some c => (c - lc) :: observedDeltas app z c rest

/-- The Metrics Store answers for (app, zone) are non-decreasing over the
iterations `envs`, starting from the count `lc` (§6: the cumulative count is
monotonic). -/
def storeMonotone (app : AppKey) (z : ZoneKey) : Nat → List IterEnv → Bool
  | _, [] => true
  | lc, env :: rest =>
    match env.getCount app z with
    | none => storeMonotone app z lc rest
    | some c => decide (lc ≤ c) && storeMonotone app z c rest

/-! ### Reconciliation on configuration change (specification §4.2 step 5) -/

/-- Modelled from the spec: the policy definition `edgeproto.AutoProvPolicy`
(§3), whose declaration is not part of this development; the test reads
`Key.Name`, `DeployClientCount`, `DeployIntervalCount` and `Zones`. -/
structure edgeproto.AutoProvPolicy where
  name : String
  DeployClientCount : Nat
  DeployIntervalCount : Nat
  Zones : List ZoneKey
deriving DecidableEq, Repr

/-- Modelled from the spec: the application definition `edgeproto.App` (§3),
whose declaration is not part of this development: its key and the list of
policy names it uses. -/
structure edgeproto.App where
  key : AppKey
  AutoProvPolicies : List String
deriving DecidableEq, Repr

/-- The deletion `delete(m, k)`. -/
def mapErase {κ ν : Type} [DecidableEq κ] (k : κ) (l : List (κ × ν)) : List (κ × ν) :=
  l.filter (fun e => decide (e.1 ≠ k))

/-- Modelled from the spec: step 5 of §4.2 for the zone trackers of a policy,
missing with the aggregator's source: "recompute `zoneTrackers` to exactly
match the policy's current `Zones` (new zones start at `deployIntervalsMet=0`;
dropped zones are removed)"; a zone that stays keeps its tracker. -/
def reconcileZones (zones : List ZoneKey) (old : List (ZoneKey × apZoneTracker)) :
    List (ZoneKey × apZoneTracker) :=
  zones.dedup.map (fun z => (z, (mapGet z old).getD ⟨0⟩))

/-- Modelled from the spec: step 5 of §4.2 for one policy tracker, missing
with the aggregator's source: "on policy update, refresh the cached thresholds
and recompute `zoneTrackers`". -/
def refreshTracker (p : edgeproto.AutoProvPolicy) (pt : apPolicyTracker) : apPolicyTracker :=
  { deployClientCount := p.DeployClientCount
    deployIntervalCount := p.DeployIntervalCount
    zoneTrackers := reconcileZones p.Zones pt.zoneTrackers }

/-- Modelled from the spec: the reconciliation on a policy update (§4.2
step 5, the Cache Mirror callback "on AutoProvPolicy updated" of §6), missing
with the aggregator's source: the tracker of that policy is refreshed in every
app that has one. -/
def updatePolicy (p : edgeproto.AutoProvPolicy) (a : AutoProvAggr) : AutoProvAggr :=
  { allStats := a.allStats.map (fun e =>
      (e.1, { e.2 with policies := e.2.policies.map (fun q =>
        (q.1, if q.1 = p.name then refreshTracker p q.2 else q.2)) })) }

/-- Modelled from the spec: the lookup of a policy by name in the mirrored
policy cache, missing with the aggregator's source. -/
def findPolicy (cache : List edgeproto.AutoProvPolicy) (name : String) :
    Option edgeproto.AutoProvPolicy :=
  cache.find? (fun p => decide (p.name = name))

/-- Modelled from the spec: the tracker of a policy newly attached to an app:
the policy's thresholds, and its zones at `deployIntervalsMet = 0`. -/
def newTracker (p : edgeproto.AutoProvPolicy) : apPolicyTracker :=
  refreshTracker p ⟨0, 0, []⟩

/-- Modelled from the spec: the reconciliation on an app update (§4.2 step 5,
the Cache Mirror callback "on App updated" of §6), missing with the
aggregator's source.  "On App policy-list change, add/remove `PolicyTracker`
entries to match; if the list becomes empty, delete the entire
`AppDemandState`"; by the invariant of §3 the state exists only if "every
referenced policy exists".  A policy that stays keeps its tracker, and the
`zones` records are kept. -/
def updateApp (cache : List edgeproto.AutoProvPolicy) (app : edgeproto.App)
    (a : AutoProvAggr) : AutoProvAggr :=
  if app.AutoProvPolicies ≠ [] ∧ ∀ n ∈ app.AutoProvPolicies, (findPolicy cache n).isSome then
    let old : apAppStats := (mapGet app.key a.allStats).getD ⟨[], []⟩
    let policies := app.AutoProvPolicies.dedup.filterMap (fun n =>
      (findPolicy cache n).map (fun p => (n, (mapGet n old.policies).getD (newTracker p))))
    { allStats := mapSet app.key { zones := old.zones, policies := policies } a.allStats }
  else
    { allStats := mapErase app.key a.allStats }

/-! ### The callbacks of the Cache Mirror (specification §6) -/

/-- Modelled from the spec: the aggregator with the two mirrored caches it
reconciles against (§2 "Cache Mirror", §6), missing with the aggregator's
source: the app definitions by key, the policy definitions, and the tracking
state. -/
structure AggrSys where
  apps : List (AppKey × edgeproto.App)
  policies : List edgeproto.AutoProvPolicy
  aggr : AutoProvAggr

/-- Modelled from the spec: what reaches the aggregator, missing with the
aggregator's source: the Cache Mirror callbacks of §6 ("on App
updated/deleted, on AutoProvPolicy updated/deleted") and the iterations of
the evaluation loop, which run under the same lock (§5). -/
inductive CacheEvent where
  | appUpdated (app : edgeproto.App)
  | appDeleted (key : AppKey)
  | policyUpdated (p : edgeproto.AutoProvPolicy)
  | policyDeleted (name : String)
  | iteration (init : Bool) (env : IterEnv)

/-- Modelled from the spec: the app reconciliation of §4.2 step 5 for every
app of the mirrored cache, one after the other. -/
def reconcileApps (cache : List edgeproto.AutoProvPolicy) (apps : List edgeproto.App)
    (a : AutoProvAggr) : AutoProvAggr :=
  apps.foldl (fun acc app => updateApp cache app acc) a

/-- Modelled from the spec: one callback or iteration (§6: "each triggers the
reconciliation in §4.2 step 5").  An app update stores the app and reconciles
it; an app deletion drops the app and its state.  A policy update stores the
policy and refreshes its trackers, a policy deletion drops the policy ("the
same pruning applies when an App or a referenced Policy is deleted"); after
either, the apps of the cache are reconciled against the policies that exist
now, which is what keeps the invariant of §3 ("an `AppDemandState` exists if
and only if the App has at least one policy and every referenced policy
exists") when a policy arrives after an app that names it or is deleted
while an app names it. -/
def applyEvent : CacheEvent → AggrSys → AggrSys
  | CacheEvent.appUpdated app, s =>
    { s with apps := mapSet app.key app s.apps
             aggr := updateApp s.policies app s.aggr }
  | CacheEvent.appDeleted key, s =>
    { s with apps := mapErase key s.apps
             aggr := { allStats := mapErase key s.aggr.allStats } }
  | CacheEvent.policyUpdated p, s =>
    { s with policies := p :: s.policies.filter (fun q => decide (q.name ≠ p.name))
             aggr := reconcileApps (p :: s.policies.filter (fun q => decide (q.name ≠ p.name)))
               (s.apps.map Prod.snd) (updatePolicy p s.aggr) }
  | CacheEvent.policyDeleted name, s =>
    { s with policies := s.policies.filter (fun q => decide (q.name ≠ name))
             aggr := reconcileApps (s.policies.filter (fun q => decide (q.name ≠ name)))
               (s.apps.map Prod.snd) s.aggr }
  | CacheEvent.iteration init env, s =>
    { s with aggr := (runIter init env s.aggr).1 }

/-- A sequence of callbacks and iterations, in order. -/
def runEvents : List CacheEvent → AggrSys → AggrSys
  | [], s => s
  | ev :: rest, s => runEvents rest (applyEvent ev s)

/-- The aggregator at start: empty caches, no tracking state. -/
def initSys : AggrSys := ⟨[], [], ⟨[]⟩⟩

/-- The app can have state: it names at least one policy and every policy it
names exists in the policy cache (§3). -/
def trackable (cache : List edgeproto.AutoProvPolicy) (app : edgeproto.App) : Prop :=
  app.AutoProvPolicies ≠ [] ∧ ∀ n ∈ app.AutoProvPolicies, (findPolicy cache n).isSome = true

/-- The invariant of the aggregator with its caches: the app cache is a map by
the apps' keys, state exists exactly for the apps that can have it, and the
policy trackers of an app's state are those of the policies it names. -/
def SysInv (s : AggrSys) : Prop :=
  (s.apps.map Prod.fst).Nodup ∧ (∀ e ∈ s.apps, e.2.key = e.1) ∧
  (∀ k, (mapGet k s.aggr.allStats).isSome = true ↔
    ∃ app, mapGet k s.apps = some app ∧ trackable s.policies app) ∧
  (∀ k st app, mapGet k s.aggr.allStats = some st → mapGet k s.apps = some app →
    ∀ n, (mapGet n st.policies).isSome = true ↔ n ∈ app.AutoProvPolicies)

/-! ## The lock discipline of the export pass -/

/-- What the export task does with locks and the exporter in one pass:
`shard.mux.Lock()`, `shard.mux.Unlock()` on shard number `i`, and the call of
`send`. -/
inductive PassEvent where
  | lock (i : Nat)
  | unlock (i : Nat)
  | send (msg : AutoProvCountsMsg)
deriving DecidableEq, Repr

/-- The outer loop of the timer branch of `RunNotify` with its lock events:
shard number `i` is locked, traversed by the inner loop and unlocked, then the
next shard follows.  Returns the shards, `sendCounts.Counts` and the events
in order. -/
def exportShardsTrace (i : Nat) (acc : List AutoProvCount) :
    List AutoProvStatsShard → List AutoProvStatsShard × List AutoProvCount × List PassEvent
  | [] => ([], acc, [])
  | shard :: rest =>
    let r := exportShard acc shard
    let r2 := exportShardsTrace (i + 1) r.2 rest
    (r.1 :: r2.1, r2.2.1, PassEvent.lock i :: PassEvent.unlock i :: r2.2.2)

/-- One periodic export pass with its events: the loop over the shards, then
`if len(sendCounts.Counts) > 0 { s.send(ctx, &sendCounts) }`. -/
def exportPassTrace (now : Nat) (s : AutoProvStats) : AutoProvStats × List PassEvent :=
  let r := exportShardsTrace 0 [] s.shards
  let sendCounts : AutoProvCountsMsg :=
    { dmeNodeName := s.nodeName, timestamp := some now, counts := r.2.1 }
  ({ s with shards := r.1 },
   r.2.2 ++ (if 0 < r.2.1.length then [PassEvent.send sendCounts] else []))

/-- The shard locks held after the events `evs`, when `held` were held
before them. -/
def heldFrom (held : List Nat) : List PassEvent → List Nat
  | [] => held
  | PassEvent.lock i :: rest => heldFrom (i :: held) rest
  | PassEvent.unlock i :: rest => heldFrom (held.erase i) rest
  | PassEvent.send _ :: rest => heldFrom held rest

/-- No `Increment` of the run meets a count of `2 ^ 64 - 1`: the 64-bit
count does not overflow while the operations are applied one after the
other. -/
def noOverflowRun (GetShardIndex : AppZoneKeyPair → Nat → Nat)
    (Matches : AppKey → AppKey → Bool) : List GenOp → AutoProvStats → Bool
  | [], _ => true
  | op :: rest, s =>
    (match op with
     | GenOp.increment appKey zoneKey _ =>
       decide (countOf GetShardIndex s ⟨appKey, zoneKey⟩ + 1 < 2 ^ 64)
     | _ => true) &&
    (match applyOp GetShardIndex Matches op s with
     | none => true
     | some s1 => noOverflowRun GetShardIndex Matches rest s1)

/-- The operation leaves the counters of `key` alone: it is neither an export
pass, nor a `Clear` whose app key the key's app matches, nor a `Prune` whose
set lacks the key's app, nor an `Increment` of `key`. -/
def GenOp.leavesKey (Matches : AppKey → AppKey → Bool) (key : AppZoneKeyPair) : GenOp → Bool
  | GenOp.increment appKey zoneKey _ => decide ((⟨appKey, zoneKey⟩ : AppZoneKeyPair) ≠ key)
  | GenOp.exportPass _ => false
  | GenOp.clear appKey _ => !(Matches key.appKey appKey)
  | GenOp.prune apps => decide (key.appKey ∈ apps)
  | _ => true

/-! ## Access key verification (`pkg/cloudcommon/svcnode/accesskey_server.go`) -/

/-- The value of `UpgradeAccessKeyMethod`. -/
def UpgradeAccessKeyMethod : String := "/edgeproto.CloudletAccessKeyApi/UpgradeAccessKey"

/-- The value of `GetAccessDataMethod`. -/
def GetAccessDataMethod : String := "/edgeproto.CloudletAccessApi/GetAccessData"

/-- The key of a cloudlet: `edgeproto.CloudletKey`. -/
structure CloudletKey where
  organization : String
  name : String
deriving DecidableEq, Repr

/-- The fields of `edgeproto.Cloudlet` that `VerifyAccessKeySig` reads. -/
structure Cloudlet where
  EdgeboxOnly : Bool
  CrmAccessPublicKey : String
  SecondaryCrmAccessPublicKey : String
  CrmAccessKeyUpgradeRequired : Bool
  SecondaryCrmAccessKeyUpgradeRequired : Bool
deriving DecidableEq, Repr

/-- The result `AccessKeyVerified`. -/
structure AccessKeyVerified where
  Key : CloudletKey
  UpgradeRequired : Bool
deriving DecidableEq, Repr

/-- The errors of `VerifyAccessKeySig`, one per `return nil, ...` of the
function, in the order of the source. -/
inductive VerifyError where
  | noMetadata
  | keyDataNotFound
  | unmarshalFailed
  | cloudletNotFound
  | edgeboxNotAllowed
  | sigDecodeFailed
  | noPublicKey
  | sigVerifyFailed
  | upgradeRequired
  | vaultNotAllowed
  | vaultFormat
  | vaultLoginFailed
  | noValidAuth
deriving DecidableEq, Repr

/-- What `VerifyAccessKeySig` calls outside its file: the three metadata tags
of package `cloudcommon`, `json.Unmarshal` into a cloudlet key, the lookup
`cloudletCache.Get`, `base64.StdEncoding.DecodeString`, `LoadPubPEM`,
`ed25519.Verify`, and the Vault login with an id and a key. -/
structure AccessKeyDeps where
  AccessKeyData : String
  AccessKeySig : String
  VaultKeySig : String
  unmarshalKey : String → Option CloudletKey
  cloudletGet : CloudletKey → Option Cloudlet
  base64Decode : String → Option (List Nat)
  LoadPubPEM : String → Option (List Nat)
  ed25519Verify : List Nat → String → List Nat → Bool
  vaultLogin : String → String → Bool

/-- `AccessKeyServer.verifyPublicKey`: `true` when it returns no error. -/
def verifyPublicKey (d : AccessKeyDeps) (pubKeyStr message : String) (sig : List Nat) : Bool :=
  match d.LoadPubPEM pubKeyStr with
  | none => false
  | some pubKey => d.ed25519Verify pubKey message sig

/-- The metadata entry `md[tag]` when it is found and non-empty. -/
def mdLookup (md : List (String × List String)) (tag : String) : Option (String × List String) :=
  match mapGet tag md with
  | some (x :: rest) => some (x, rest)
  | _ => none

/-- The branch of `VerifyAccessKeySig` for an access key signature
(`if found && len(sigb64) > 0`): `sigb64` is the signature of the metadata,
`data0` the signed cloudlet key. -/
def accessKeyAuth (d : AccessKeyDeps) (cloudlet : Cloudlet) (key : CloudletKey)
    (data0 sigb64 method : String) : Except VerifyError AccessKeyVerified :=
  match d.base64Decode sigb64 with
  | none => Except.error VerifyError.sigDecodeFailed
  | some sig =>
    if cloudlet.CrmAccessPublicKey = "" ∧ cloudlet.SecondaryCrmAccessPublicKey = "" then
      Except.error VerifyError.noPublicKey
    else
      let ok1 := verifyPublicKey d cloudlet.CrmAccessPublicKey data0 sig
      let trySecondary := !ok1 && decide (cloudlet.SecondaryCrmAccessPublicKey ≠ "")
      let ok :=
        if trySecondary then verifyPublicKey d cloudlet.SecondaryCrmAccessPublicKey data0 sig
        else ok1
      let upgradeRequired :=
        if trySecondary then cloudlet.SecondaryCrmAccessKeyUpgradeRequired
        else cloudlet.CrmAccessKeyUpgradeRequired
      if !ok then Except.error VerifyError.sigVerifyFailed
      else if upgradeRequired && decide (method ≠ UpgradeAccessKeyMethod) then
        Except.error VerifyError.upgradeRequired
      else Except.ok { Key := key, UpgradeRequired := upgradeRequired }

/-- The branch of `VerifyAccessKeySig` for a Vault signature
(`if found && len(vaultSig) > 0`). -/
def vaultAuth (d : AccessKeyDeps) (key : CloudletKey) (vaultSig method : String) :
    Except VerifyError AccessKeyVerified :=
  if method ≠ UpgradeAccessKeyMethod then Except.error VerifyError.vaultNotAllowed
  else
    match vaultSig.splitOn "," with
    | [id, key1] =>
      if d.vaultLogin id key1 then Except.ok { Key := key, UpgradeRequired := true }
      else Except.error VerifyError.vaultLoginFailed
    | _ => Except.error VerifyError.vaultFormat

/-- `AccessKeyServer.VerifyAccessKeySig`.  `md` is the result of
`metadata.FromIncomingContext(ctx)`, `none` when there is no metadata. -/
def VerifyAccessKeySig (d : AccessKeyDeps) (md : Option (List (String × List String)))
    (method : String) : Except VerifyError AccessKeyVerified :=
  match md with
  | none => Except.error VerifyError.noMetadata
  | some md =>
    match mdLookup md d.AccessKeyData with
    | none => Except.error VerifyError.keyDataNotFound
    | some (data0, _) =>
      match d.unmarshalKey data0 with
      | none => Except.error VerifyError.unmarshalFailed
      | some key =>
        match d.cloudletGet key with
        | none => Except.error VerifyError.cloudletNotFound
        | some cloudlet =>
          if cloudlet.EdgeboxOnly && decide (method = GetAccessDataMethod) then
            Except.error VerifyError.edgeboxNotAllowed
          else
            match mdLookup md d.AccessKeySig with
            | some (sigb64, _) => accessKeyAuth d cloudlet key data0 sigb64 method
            | none =>
              match mdLookup md d.VaultKeySig with
              | some (vaultSig, _) => vaultAuth d key vaultSig method
              | none => Except.error VerifyError.noValidAuth

/-! ## Deployment manifests and download timeouts (`pkg/cloudcommon/deployment.go`) -/

/-- The value of `DeploymentTypeVM`. -/
def DeploymentTypeVM : String := "vm"

/-- The value of `DeploymentTypeKubernetes`. -/
def DeploymentTypeKubernetes : String := "kubernetes"

/-- The test `strings.HasPrefix(s, pre)`. -/
def HasPrefix (s pre : String) : Bool := pre.data.isPrefixOf s.data

/-- `IsValidDeploymentManifest`: `none` is the result `nil`, `some msg` an
error.  `kubernetesCheck` stands for the whole branch of the Kubernetes
deployment type (decoding of the manifest, port and resource checks), which
works on Kubernetes objects and is kept abstract here. -/
def IsValidDeploymentManifest {Ports Resources : Type}
    (kubernetesCheck : String → Ports → Resources → Option String)
    (deploymentType command manifest : String) (ports : Ports) (kr : Resources) :
    Option String :=
  if deploymentType = DeploymentTypeVM then
    if command ≠ "" then
      some "both deploymentmanifest and command cannot be used together for VM based deployment"
    else if HasPrefix manifest "#cloud-config" then none
    else some "only cloud-init script support, must start with '#cloud-config'"
  else if deploymentType = DeploymentTypeKubernetes then
    kubernetesCheck manifest ports kr
  else none

/-- The duration `time.Minute`, in nanoseconds. -/
def Minute : Int := 60 * 1000000000

/-- Rounding of a rational to the nearest integer, ties to the even one: the
rounding of the last place of a `float64` result (IEEE 754 round to nearest,
ties to even). -/
def roundHalfEven (x : Rat) : Int :=
  let f := Int.floor x
  if x - f < 1 / 2 then f
  else if 1 / 2 < x - f then f + 1
  else if f % 2 = 0 then f else f + 1

/-- The `float64` nearest to the rational `x`, ties to even: the result of a
`float64` operation whose exact result is `x`, and of the conversion
`float64(n)` of an integer.  A `float64` has 53 significant bits: with
`2 ^ e <= |x| < 2 ^ (e + 1)` the value is a multiple of `2 ^ (e - 52)`.  The
range of the exponent (overflow, subnormal numbers) is not part of the
definition: the values `GetTimeout` rounds are 0 or between `2 ^ (-33)` and
`2 ^ 63` in magnitude. -/
def roundF64 (x : Rat) : Rat :=
  if x = 0 then 0
  else
    let e := Int.log 2 |x|
    (roundHalfEven (x / (2 : Rat) ^ (e - 52)) : Rat) * (2 : Rat) ^ (e - 52)

/-- The value of an `int64` computation whose exact result is `x`: Go wraps
around on overflow (`time.Duration` is an `int64`). -/
def wrap64 (x : Int) : Int := (x + 2 ^ 63) % 2 ^ 64 - 2 ^ 63

/-- `GetTimeout`, the result in nanoseconds, for `cLen` an `int` (64 bits).
`float64(cLen)`, the division by `1024.0 * 1024.0 * 1024.0` and the division
by `5.0` are rounded to `float64`; `math.Ceil` and the conversion `int(...)`
are exact on the values that occur; the two multiplications of
`time.Duration(timeoutUnit) * 10 * time.Minute` are `int64` multiplications. -/
def GetTimeout (cLen : Int) : Int :=
  let fileSizeInGB : Rat := roundF64 (roundF64 (cLen : Rat) / (1024 * 1024 * 1024))
  let timeoutUnit : Int := Int.ceil (roundF64 (fileSizeInGB / 5))
  if fileSizeInGB > 5 then wrap64 (wrap64 (timeoutUnit * 10) * Minute)
  else 15 * Minute

/-! ## Lemmas on maps -/

theorem mapGet_mapSet_self {κ ν : Type} [DecidableEq κ] (k : κ) (v : ν) (l : List (κ × ν)) :
    mapGet k (mapSet k v l) = some v := by
  induction l with
  | nil => simp [mapSet, mapGet]
  | cons e rest ih =>
    obtain ⟨k', v'⟩ := e
    by_cases h : k' = k
    · simp [mapSet, mapGet, h]
    · simp [mapSet, mapGet, h, ih]

theorem mapGet_mapSet_ne {κ ν : Type} [DecidableEq κ] {k k' : κ} (v : ν) (l : List (κ × ν))
    (h : k' ≠ k) : mapGet k' (mapSet k v l) = mapGet k' l := by
  induction l with
  | nil => simp [mapSet, mapGet, Ne.symm h]
  | cons e rest ih =>
    obtain ⟨k1, v1⟩ := e
    by_cases h1 : k1 = k
    · subst h1
      simp [mapSet, mapGet, Ne.symm h]
    · by_cases h2 : k1 = k'
      · subst h2
        simp [mapSet, mapGet, h1]
      · simp [mapSet, mapGet, h1, h2, ih]

theorem mapGet_map_val {κ ν μ : Type} [DecidableEq κ] (k : κ) (f : κ × ν → μ)
    (l : List (κ × ν)) :
    mapGet k (l.map (fun e => (e.1, f e))) = (mapGet k l).map (fun v => f (k, v)) := by
  induction l with
  | nil => simp [mapGet]
  | cons e rest ih =>
    obtain ⟨k', v'⟩ := e
    by_cases h : k' = k
    · subst h; simp [mapGet]
    · simp [mapGet, h, ih]

theorem mapGet_some_mem {κ ν : Type} [DecidableEq κ] {k : κ} {v : ν} {l : List (κ × ν)}
    (h : mapGet k l = some v) : (k, v) ∈ l := by
  induction l with
  | nil => simp [mapGet] at h
  | cons e rest ih =>
    obtain ⟨k', v'⟩ := e
    by_cases hk : k' = k
    · subst hk
      simp [mapGet] at h
      simp [h]
    · simp [mapGet, hk] at h
      exact List.mem_cons_of_mem _ (ih h)

theorem mapGet_of_mem_nodup {κ ν : Type} [DecidableEq κ] {k : κ} {v : ν} {l : List (κ × ν)}
    (hnd : (l.map Prod.fst).Nodup) (h : (k, v) ∈ l) : mapGet k l = some v := by
  induction l with
  | nil => simp at h
  | cons e rest ih =>
    obtain ⟨k', v'⟩ := e
    simp only [List.map_cons, List.nodup_cons, List.mem_map, not_exists, not_and] at hnd
    rcases List.mem_cons.1 h with h1 | h1
    · injection h1 with hk hv
      subst hk; subst hv
      simp [mapGet]
    · have hne : k' ≠ k := fun hk => hnd.1 (k, v) h1 hk.symm
      simp [mapGet, hne, ih hnd.2 h1]

/-! ## The periodic export pass -/

theorem exportShard_fst (acc : List AutoProvCount) (sh : AutoProvStatsShard) :
    (exportShard acc sh).1 = sh.map (fun e => (e.1, (⟨e.2.count, e.2.count⟩ : AutoProvCounts))) := by
  induction sh generalizing acc with
  | nil => rfl
  | cons e rest ih =>
    obtain ⟨key, ⟨c, lc⟩⟩ := e
    by_cases h : c = lc
    · subst h
      simp [exportShard, ih]
    · simp [exportShard, h, ih]

theorem exportShard_snd (acc : List AutoProvCount) (sh : AutoProvStatsShard) :
    (exportShard acc sh).2 = acc ++ (sh.filter changed).map apCountOf := by
  induction sh generalizing acc with
  | nil => simp [exportShard]
  | cons e rest ih =>
    obtain ⟨key, ⟨c, lc⟩⟩ := e
    by_cases h : c = lc
    · subst h
      simp [exportShard, ih, changed]
    · simp [exportShard, h, ih, changed, apCountOf]

theorem exportShards_fst (acc : List AutoProvCount) (shards : List AutoProvStatsShard) :
    (exportShards acc shards).1 =
      shards.map (fun sh => sh.map (fun e => (e.1, (⟨e.2.count, e.2.count⟩ : AutoProvCounts)))) := by
  induction shards generalizing acc with
  | nil => rfl
  | cons sh rest ih => simp [exportShards, exportShard_fst, ih]

theorem exportShards_snd (acc : List AutoProvCount) (shards : List AutoProvStatsShard) :
    (exportShards acc shards).2 = acc ++ (shards.flatten.filter changed).map apCountOf := by
  induction shards generalizing acc with
  | nil => simp [exportShards]
  | cons sh rest ih => simp [exportShards, exportShard_snd, ih]

theorem exportPass_shards (now : Nat) (s : AutoProvStats) :
    (exportPass now s).1.shards =
      s.shards.map (fun sh => sh.map (fun e => (e.1, (⟨e.2.count, e.2.count⟩ : AutoProvCounts)))) := by
  simp [exportPass, exportShards_fst]

theorem exportPass_batch (now : Nat) (s : AutoProvStats) :
    (exportPass now s).2.1 = ((allEntries s).filter changed).map apCountOf := by
  simp [exportPass, exportShards_snd, allEntries]

/-- C1. One periodic export pass leaves every entry of every shard with
`lastCount` equal to `count`, and leaves the shards, their keys and every
entry's `count` as they were. -/
theorem exportPass_lastCount_eq_count (now : Nat) (s : AutoProvStats) :
    (∀ e ∈ allEntries (exportPass now s).1, e.2.lastCount = e.2.count) ∧
    (exportPass now s).1.shards.map (fun sh => sh.map (fun e => (e.1, e.2.count))) =
      s.shards.map (fun sh => sh.map (fun e => (e.1, e.2.count))) := by
  constructor
  · intro e he
    simp only [allEntries, exportPass_shards, List.mem_flatten, List.mem_map] at he
    obtain ⟨sh', ⟨sh, _, rfl⟩, he⟩ := he
    simp only [List.mem_map] at he
    obtain ⟨e0, _, rfl⟩ := he
    rfl
  · rw [exportPass_shards]
    simp [List.map_map, Function.comp_def]

/-- C2. The batch built by one periodic export pass is, entry by entry, the
list of the entries whose `count` differs from their `lastCount` before the
pass, one count per such entry and none for an entry whose `count` equals its
`lastCount`; so for every key the batch holds as many counts as there are
entries of that key with a differing `count`.  `send` is called once, with
that batch, when the batch is non-empty, and not at all when it is empty. -/
theorem exportPass_batch_nonzero_only (now : Nat) (s : AutoProvStats) :
    (exportPass now s).2.1 = ((allEntries s).filter changed).map apCountOf ∧
    (∀ k : AppZoneKeyPair, (exportPass now s).2.1.countP (fun m => decide (m.key = k)) =
      (allEntries s).countP (fun e => decide (e.1 = k) && changed e)) ∧
    (exportPass now s).2.2 =
      (if (exportPass now s).2.1 = [] then []
       else [{ dmeNodeName := s.nodeName, timestamp := some now,
               counts := (exportPass now s).2.1 }]) := by
  refine ⟨exportPass_batch now s, ?_, ?_⟩
  · intro k
    rw [exportPass_batch, List.countP_map, List.countP_filter]
    apply List.countP_congr
    intro e _
    simp [apCountOf, AutoProvCount.key]
  · cases hb : (exportPass now s).2.1 with
    | nil =>
      simp only [exportPass] at hb ⊢
      simp [hb]
    | cons m rest =>
      simp only [exportPass] at hb ⊢
      simp [hb]

/-! ## `Increment` -/

theorem Increment_eq (G : AppZoneKeyPair → Nat → Nat) (s : AutoProvStats)
    (appKey : AppKey) (zoneKey : ZoneKey) (policy : AutoProvPolicy)
    (h : G ⟨appKey, zoneKey⟩ s.numShards < s.shards.length) :
    ∃ shard c1 msgs, s.shards[G ⟨appKey, zoneKey⟩ s.numShards]? = some shard ∧
      c1 = (⟨(((mapGet ⟨appKey, zoneKey⟩ shard).getD ⟨0, 0⟩).count + 1) % 2 ^ 64,
            ((mapGet ⟨appKey, zoneKey⟩ shard).getD ⟨0, 0⟩).lastCount⟩ : AutoProvCounts) ∧
      msgs = (if fastPathCond c1 policy then
                [({ dmeNodeName := s.nodeName, timestamp := none
                    counts := [{ appKey := appKey, zoneKey := zoneKey
                                 count := c1.count, processNow := true }] } : AutoProvCountsMsg)]
              else []) ∧
      Increment G s appKey zoneKey policy =
        some ({ s with shards := (s.shards.set (G ⟨appKey, zoneKey⟩ s.numShards)
                  (mapSet ⟨appKey, zoneKey⟩ c1 shard)) }, msgs) := by
  have hs : s.shards[G ⟨appKey, zoneKey⟩ s.numShards]? =
      some (s.shards[G ⟨appKey, zoneKey⟩ s.numShards]) := List.getElem?_eq_getElem h
  refine ⟨s.shards[G ⟨appKey, zoneKey⟩ s.numShards], _, _, hs, rfl, rfl, ?_⟩
  unfold Increment
  simp only [hs]
  split <;> simp_all

theorem entryAt_set_self (s : AutoProvStats) (i : Nat) (sh : AutoProvStatsShard)
    (k : AppZoneKeyPair) (h : i < s.shards.length) :
    entryAt { s with shards := s.shards.set i sh } i k = mapGet k sh := by
  simp [entryAt, List.getElem?_set, h]

theorem entryAt_set_ne (s : AutoProvStats) (i j : Nat) (sh : AutoProvStatsShard)
    (k : AppZoneKeyPair) (h : i ≠ j) :
    entryAt { s with shards := s.shards.set i sh } j k = entryAt s j k := by
  simp [entryAt, List.getElem?_set, h]

/-- C3. At the failing input (one shard, the key's counters at
`count = 2 ^ 32 - 1`, `lastCount = 0`; policy with `DeployClientCount = 1`,
`IntervalCount = 1`) `Increment` sends nothing, although the interval count
is at most 1 and the full 64-bit difference `count - lastCount` after the
increment, `2 ^ 32`, is at least `DeployClientCount`: the test is made on the
low 32 bits of the difference, which are 0. -/
theorem Increment_fastPath_truncates :
    Increment (fun _ _ => 0)
        { shards := [[(⟨⟨"org", "app", "1.0"⟩, ⟨"op", "zone"⟩⟩, ⟨2 ^ 32 - 1, 0⟩)]]
          numShards := 1, intervalSec := 300, offsetSec := 0, nodeName := "dme", running := true }
        ⟨"org", "app", "1.0"⟩ ⟨"op", "zone"⟩ ⟨1, 1⟩ =
      some ({ shards := [[(⟨⟨"org", "app", "1.0"⟩, ⟨"op", "zone"⟩⟩, ⟨2 ^ 32, 0⟩)]]
              numShards := 1, intervalSec := 300, offsetSec := 0, nodeName := "dme",
              running := true }, []) ∧
    (1 ≤ sub64 (2 ^ 32) 0 ∧ 1 ≤ 1) ∧ toUint32 (sub64 (2 ^ 32) 0) = 0 := by
  refine ⟨?_, ?_, ?_⟩
  · simp [Increment, mapGet, mapSet, fastPathCond, toUint32, sub64]
  · simp [sub64]
  · simp [toUint32, sub64]

/-- C4. `Increment` (when the key's shard index is within the shards, as it
must be for the call to complete) leaves the `lastCount` of every entry that
existed before unchanged, whatever messages it sent. -/
theorem Increment_lastCount_unchanged (G : AppZoneKeyPair → Nat → Nat) (s : AutoProvStats)
    (appKey : AppKey) (zoneKey : ZoneKey) (policy : AutoProvPolicy)
    (h : G ⟨appKey, zoneKey⟩ s.numShards < s.shards.length) :
    ∃ s1 msgs, Increment G s appKey zoneKey policy = some (s1, msgs) ∧
      ∀ i k c, entryAt s i k = some c →
        ∃ c1, entryAt s1 i k = some c1 ∧ c1.lastCount = c.lastCount := by
  obtain ⟨shard, c1, msgs, hs, hc1, _, hinc⟩ := Increment_eq G s appKey zoneKey policy h
  refine ⟨_, msgs, hinc, ?_⟩
  intro i k c hc
  by_cases hi : G ⟨appKey, zoneKey⟩ s.numShards = i
  · subst hi
    rw [entryAt_set_self _ _ _ _ h]
    have hc0 : mapGet k shard = some c := by simpa [entryAt, hs] using hc
    by_cases hk : k = ⟨appKey, zoneKey⟩
    · subst hk
      refine ⟨c1, mapGet_mapSet_self _ _ _, ?_⟩
      simp [hc1, hc0]
    · exact ⟨c, by rw [mapGet_mapSet_ne _ _ hk]; exact hc0, rfl⟩
  · exact ⟨c, by rw [entryAt_set_ne _ _ _ _ _ hi]; exact hc, rfl⟩

theorem Increment_lastCount_unchanged_witness :
    ∃ s1 msgs, Increment (fun _ _ => 0)
        { shards := [[(⟨⟨"org", "app", "1.0"⟩, ⟨"op", "zone"⟩⟩, ⟨7, 4⟩)]]
          numShards := 1, intervalSec := 300, offsetSec := 0, nodeName := "dme", running := true }
        ⟨"org", "app", "1.0"⟩ ⟨"op", "zone"⟩ ⟨3, 1⟩ = some (s1, msgs) ∧
      ∀ i k c, entryAt
        { shards := [[(⟨⟨"org", "app", "1.0"⟩, ⟨"op", "zone"⟩⟩, ⟨7, 4⟩)]]
          numShards := 1, intervalSec := 300, offsetSec := 0, nodeName := "dme", running := true }
        i k = some c → ∃ c1, entryAt s1 i k = some c1 ∧ c1.lastCount = c.lastCount :=
  Increment_lastCount_unchanged (fun _ _ => 0) _ _ _ _ (by decide)

theorem getCounts_eq_entryAt (G : AppZoneKeyPair → Nat → Nat) (s : AutoProvStats)
    (k : AppZoneKeyPair) : getCounts G s k = entryAt s (G k s.numShards) k := rfl

theorem getCounts_exportPass_of_mem (G : AppZoneKeyPair → Nat → Nat) (s : AutoProvStats)
    (hWF : WF G s) (now : Nat) (e : AppZoneKeyPair × AutoProvCounts) (he : e ∈ allEntries s) :
    getCounts G (exportPass now s).1 e.1 = some ⟨e.2.count, e.2.count⟩ := by
  simp only [allEntries, List.mem_flatten] at he
  obtain ⟨sh, hsh, hesh⟩ := he
  obtain ⟨i, hi⟩ := List.mem_iff_getElem?.1 hsh
  have hwf := hWF.2 (i, sh) (List.mk_mem_enum_iff_getElem?.2 hi)
  have hidx : G e.1 s.numShards = i := hwf.2 e hesh
  have hget : mapGet e.1 sh = some e.2 := mapGet_of_mem_nodup hwf.1 hesh
  have hnum : (exportPass now s).1.numShards = s.numShards := rfl
  rw [getCounts_eq_entryAt, hnum, hidx, entryAt, exportPass_shards, List.getElem?_map, hi]
  simp only [Option.map_some', Option.some_bind]
  rw [mapGet_map_val e.1 (fun e => (⟨e.2.count, e.2.count⟩ : AutoProvCounts)) sh, hget]
  rfl

/-- C5. In a well-formed generator state, every count of every message sent
carries the current `count` of its key: the message `Increment` sends on the
fast path carries the key's `count` in the state `Increment` leaves, and every
count of the batch a periodic export pass sends carries the `count` its key
has in the state the pass leaves (a pass does not change any `count`). -/
theorem messages_carry_cumulative_count (G : AppZoneKeyPair → Nat → Nat) (s : AutoProvStats)
    (hWF : WF G s) (appKey : AppKey) (zoneKey : ZoneKey) (policy : AutoProvPolicy) (now : Nat)
    (h : G ⟨appKey, zoneKey⟩ s.numShards < s.numShards) :
    (∃ s1 msgs, Increment G s appKey zoneKey policy = some (s1, msgs) ∧
      ∀ msg ∈ msgs, ∀ m ∈ msg.counts,
        ∃ c, getCounts G s1 m.key = some c ∧ m.count = c.count) ∧
    (∀ msg ∈ (exportPass now s).2.2, ∀ m ∈ msg.counts,
        ∃ c, getCounts G (exportPass now s).1 m.key = some c ∧ m.count = c.count) := by
  have hlen : G ⟨appKey, zoneKey⟩ s.numShards < s.shards.length := by rw [hWF.1]; exact h
  constructor
  · obtain ⟨shard, c1, msgs, _, _, hmsgs, hinc⟩ := Increment_eq G s appKey zoneKey policy hlen
    refine ⟨_, msgs, hinc, ?_⟩
    intro msg hmsg m hm
    rw [hmsgs] at hmsg
    split at hmsg
    · simp only [List.mem_singleton] at hmsg
      subst hmsg
      simp only [List.mem_singleton] at hm
      subst hm
      refine ⟨c1, ?_, rfl⟩
      rw [getCounts_eq_entryAt]
      show entryAt _ (G ⟨appKey, zoneKey⟩ s.numShards) ⟨appKey, zoneKey⟩ = some c1
      rw [entryAt_set_self _ _ _ _ hlen, mapGet_mapSet_self]
    · simp at hmsg
  · intro msg hmsg m hm
    have hb : m ∈ (exportPass now s).2.1 := by
      simp only [exportPass] at hmsg ⊢
      split at hmsg
      · simp only [List.mem_singleton] at hmsg
        subst hmsg
        exact hm
      · simp at hmsg
    rw [exportPass_batch, List.mem_map] at hb
    obtain ⟨e, he, rfl⟩ := hb
    have he1 : e ∈ allEntries s := (List.mem_filter.1 he).1
    exact ⟨_, getCounts_exportPass_of_mem G s hWF now e he1, rfl⟩

theorem messages_carry_cumulative_count_witness :
    WF (fun _ _ => 0)
      { shards := [[(⟨⟨"org", "app", "1.0"⟩, ⟨"op", "zone"⟩⟩, ⟨7, 4⟩)]]
        numShards := 1, intervalSec := 300, offsetSec := 0, nodeName := "dme", running := true } ∧
    ((∃ s1 msgs, Increment (fun _ _ => 0)
        { shards := [[(⟨⟨"org", "app", "1.0"⟩, ⟨"op", "zone"⟩⟩, ⟨7, 4⟩)]]
          numShards := 1, intervalSec := 300, offsetSec := 0, nodeName := "dme", running := true }
        ⟨"org", "app", "1.0"⟩ ⟨"op", "zone"⟩ ⟨3, 1⟩ = some (s1, msgs) ∧
      ∀ msg ∈ msgs, ∀ m ∈ msg.counts,
        ∃ c, getCounts (fun _ _ => 0) s1 m.key = some c ∧ m.count = c.count) ∧
    (∀ msg ∈ (exportPass 12
        { shards := [[(⟨⟨"org", "app", "1.0"⟩, ⟨"op", "zone"⟩⟩, ⟨7, 4⟩)]]
          numShards := 1, intervalSec := 300, offsetSec := 0, nodeName := "dme",
          running := true }).2.2, ∀ m ∈ msg.counts,
        ∃ c, getCounts (fun _ _ => 0) (exportPass 12
          { shards := [[(⟨⟨"org", "app", "1.0"⟩, ⟨"op", "zone"⟩⟩, ⟨7, 4⟩)]]
            numShards := 1, intervalSec := 300, offsetSec := 0, nodeName := "dme",
            running := true }).1 m.key = some c ∧ m.count = c.count)) :=
  ⟨by decide, messages_carry_cumulative_count (fun _ _ => 0) _ (by decide)
    ⟨"org", "app", "1.0"⟩ ⟨"op", "zone"⟩ ⟨3, 1⟩ 12 (by decide)⟩

/-- C6 as stated fails: with the single entry `count = 5`, `lastCount = 3`
the batch of the export pass is the one count 5, which is not the delta
`5 - 3 = 2` of any entry. -/
theorem exportPass_value_not_delta :
    ¬ (∀ m ∈ (exportPass 12
          { shards := [[(⟨⟨"org", "app", "1.0"⟩, ⟨"op", "zone"⟩⟩, ⟨5, 3⟩)]]
            numShards := 1, intervalSec := 300, offsetSec := 0, nodeName := "dme",
            running := true }).2.1,
        ∃ e ∈ allEntries
          { shards := [[(⟨⟨"org", "app", "1.0"⟩, ⟨"op", "zone"⟩⟩, ⟨5, 3⟩)]]
            numShards := 1, intervalSec := 300, offsetSec := 0, nodeName := "dme",
            running := true },
          e.1 = m.key ∧ m.count = sub64 e.2.count e.2.lastCount) := by
  simp [exportPass, exportShards, exportShard, allEntries, sub64, AutoProvCount.key]

/-- C6, amended: every count of the batch of a periodic export pass belongs
to an entry whose `count` differed from its `lastCount` before the pass, and
the value it carries is that entry's cumulative `count`, the value the pass
stores as the entry's new `lastCount`. -/
theorem exportPass_value_is_count (now : Nat) (s : AutoProvStats) :
    ∀ m ∈ (exportPass now s).2.1, ∃ e ∈ allEntries s,
      e.1 = m.key ∧ e.2.count ≠ e.2.lastCount ∧ m.count = e.2.count ∧
      (e.1, (⟨m.count, m.count⟩ : AutoProvCounts)) ∈ allEntries (exportPass now s).1 := by
  intro m hm
  rw [exportPass_batch, List.mem_map] at hm
  obtain ⟨e, he, rfl⟩ := hm
  obtain ⟨he1, he2⟩ := List.mem_filter.1 he
  refine ⟨e, he1, rfl, by simpa [changed] using he2, rfl, ?_⟩
  simp only [allEntries, List.mem_flatten] at he1 ⊢
  obtain ⟨sh, hsh, hesh⟩ := he1
  refine ⟨sh.map (fun e => (e.1, (⟨e.2.count, e.2.count⟩ : AutoProvCounts))), ?_, ?_⟩
  · rw [exportPass_shards]
    exact List.mem_map.2 ⟨sh, hsh, rfl⟩
  · exact List.mem_map.2 ⟨e, hesh, rfl⟩

theorem exportPass_value_is_count_witness :
    ∃ e ∈ allEntries
        { shards := [[(⟨⟨"org", "app", "1.0"⟩, ⟨"op", "zone"⟩⟩, ⟨5, 3⟩)]]
          numShards := 1, intervalSec := 300, offsetSec := 0, nodeName := "dme", running := true },
      e.1 = AutoProvCount.key ⟨⟨"org", "app", "1.0"⟩, ⟨"op", "zone"⟩, 5, false⟩ ∧
      e.2.count ≠ e.2.lastCount ∧ 5 = e.2.count ∧
      (e.1, (⟨5, 5⟩ : AutoProvCounts)) ∈ allEntries (exportPass 12
        { shards := [[(⟨⟨"org", "app", "1.0"⟩, ⟨"op", "zone"⟩⟩, ⟨5, 3⟩)]]
          numShards := 1, intervalSec := 300, offsetSec := 0, nodeName := "dme",
          running := true }).1 :=
  exportPass_value_is_count 12 _ ⟨⟨"org", "app", "1.0"⟩, ⟨"op", "zone"⟩, 5, false⟩ (by decide)

/-- C7 as stated fails: from `count = 2 ^ 64 - 1` the increment wraps, and
the key's `count` after `Increment` is 0, not `2 ^ 64`. -/
theorem Increment_count_wraps :
    ¬ (∃ s1 msgs c1, Increment (fun _ _ => 0)
          { shards := [[(⟨⟨"org", "app", "1.0"⟩, ⟨"op", "zone"⟩⟩, ⟨2 ^ 64 - 1, 2 ^ 64 - 1⟩)]]
            numShards := 1, intervalSec := 300, offsetSec := 0, nodeName := "dme",
            running := true }
          ⟨"org", "app", "1.0"⟩ ⟨"op", "zone"⟩ ⟨3, 1⟩ = some (s1, msgs) ∧
        entryAt s1 0 ⟨⟨"org", "app", "1.0"⟩, ⟨"op", "zone"⟩⟩ = some c1 ∧
        c1.count = (2 ^ 64 - 1) + 1) := by
  rintro ⟨s1, msgs, c1, hinc, hent, hc⟩
  simp [Increment, mapGet, mapSet, fastPathCond, toUint32, sub64] at hinc
  obtain ⟨rfl, _⟩ := hinc
  simp [entryAt, mapGet] at hent
  rw [← hent] at hc
  simp at hc

/-- C7, amended: `Increment` (when the key's shard index is within the
shards) raises the key's `count` by 1 modulo `2 ^ 64`, hence by exactly 1
unless the count was `2 ^ 64 - 1`, keeping the key's `lastCount`; an absent
key gets an entry with `count = 1` and `lastCount = 0`; the binding of every
other key in every shard is unchanged. -/
theorem Increment_count_succ (G : AppZoneKeyPair → Nat → Nat) (s : AutoProvStats)
    (appKey : AppKey) (zoneKey : ZoneKey) (policy : AutoProvPolicy)
    (h : G ⟨appKey, zoneKey⟩ s.numShards < s.shards.length) :
    ∃ s1 msgs, Increment G s appKey zoneKey policy = some (s1, msgs) ∧
      (∀ c, getCounts G s ⟨appKey, zoneKey⟩ = some c →
        getCounts G s1 ⟨appKey, zoneKey⟩ = some ⟨(c.count + 1) % 2 ^ 64, c.lastCount⟩ ∧
        (c.count + 1 < 2 ^ 64 →
          getCounts G s1 ⟨appKey, zoneKey⟩ = some ⟨c.count + 1, c.lastCount⟩)) ∧
      (getCounts G s ⟨appKey, zoneKey⟩ = none →
        getCounts G s1 ⟨appKey, zoneKey⟩ = some ⟨1, 0⟩) ∧
      (∀ i k, ¬ (i = G ⟨appKey, zoneKey⟩ s.numShards ∧ k = ⟨appKey, zoneKey⟩) →
        entryAt s1 i k = entryAt s i k) := by
  obtain ⟨shard, c1, msgs, hs, hc1, _, hinc⟩ := Increment_eq G s appKey zoneKey policy h
  have hnew : getCounts G { s with shards := (s.shards.set (G ⟨appKey, zoneKey⟩ s.numShards)
      (mapSet ⟨appKey, zoneKey⟩ c1 shard)) } ⟨appKey, zoneKey⟩ = some c1 := by
    rw [getCounts_eq_entryAt]
    show entryAt _ (G ⟨appKey, zoneKey⟩ s.numShards) ⟨appKey, zoneKey⟩ = some c1
    rw [entryAt_set_self _ _ _ _ h, mapGet_mapSet_self]
  have hold : getCounts G s ⟨appKey, zoneKey⟩ = mapGet ⟨appKey, zoneKey⟩ shard := by
    simp [getCounts, hs]
  refine ⟨_, msgs, hinc, ?_, ?_, ?_⟩
  · intro c hc
    rw [hold] at hc
    have h1 : c1 = ⟨(c.count + 1) % 2 ^ 64, c.lastCount⟩ := by simp [hc1, hc]
    refine ⟨by rw [hnew, h1], fun hlt => ?_⟩
    rw [hnew, h1, Nat.mod_eq_of_lt hlt]
  · intro hc
    rw [hold] at hc
    have h1 : c1 = ⟨1, 0⟩ := by simp [hc1, hc]
    rw [hnew, h1]
  · intro i k hik
    by_cases hi : G ⟨appKey, zoneKey⟩ s.numShards = i
    · subst hi
      have hk : k ≠ ⟨appKey, zoneKey⟩ := fun hk => hik ⟨rfl, hk⟩
      rw [entryAt_set_self _ _ _ _ h, mapGet_mapSet_ne _ _ hk]
      simp [entryAt, hs]
    · exact entryAt_set_ne _ _ _ _ _ hi

theorem Increment_count_succ_witness :
    ∃ s1 msgs, Increment (fun _ _ => 0)
        { shards := [[(⟨⟨"org", "app", "1.0"⟩, ⟨"op", "zone"⟩⟩, ⟨7, 4⟩)]]
          numShards := 1, intervalSec := 300, offsetSec := 0, nodeName := "dme", running := true }
        ⟨"org", "app", "1.0"⟩ ⟨"op", "zone"⟩ ⟨3, 1⟩ = some (s1, msgs) ∧
      getCounts (fun _ _ => 0) s1 ⟨⟨"org", "app", "1.0"⟩, ⟨"op", "zone"⟩⟩ = some ⟨8, 4⟩ := by
  obtain ⟨s1, msgs, hinc, hold, _, _⟩ := Increment_count_succ (fun _ _ => 0)
    { shards := [[(⟨⟨"org", "app", "1.0"⟩, ⟨"op", "zone"⟩⟩, ⟨7, 4⟩)]]
      numShards := 1, intervalSec := 300, offsetSec := 0, nodeName := "dme", running := true }
    ⟨"org", "app", "1.0"⟩ ⟨"op", "zone"⟩ ⟨3, 1⟩ (by decide)
  exact ⟨s1, msgs, hinc, (hold ⟨7, 4⟩ (by decide)).2 (by decide)⟩

/-! ## The aggregator's iteration -/

theorem computeDeltas_skip (init : Bool) (q : ZoneKey → Option Nat) (z : ZoneKey)
    (zs : List ZoneKey) (zones : List (ZoneKey × apZoneStats)) (deltas : List (ZoneKey × Nat))
    (h : z ∉ zs ∨ q z = none) :
    mapGet z (computeDeltas init q zs zones deltas).1 = mapGet z zones ∧
    mapGet z (computeDeltas init q zs zones deltas).2 = mapGet z deltas := by
  induction zs generalizing zones deltas with
  | nil => exact ⟨rfl, rfl⟩
  | cons z0 rest ih =>
    have hrest : z ∉ rest ∨ q z = none := by
      rcases h with h | h
      · exact Or.inl (fun hm => h (List.mem_cons_of_mem _ hm))
      · exact Or.inr h
    cases hq : q z0 with
    | none =>
      simp only [computeDeltas, hq]
      exact ih zones deltas hrest
    | some cnt =>
      have hne : z ≠ z0 := by
        rintro rfl
        rcases h with h | h
        · exact h (List.mem_cons_self _ _)
        · rw [hq] at h; cases h
      simp only [computeDeltas, hq]
      obtain ⟨h1, h2⟩ := ih (mapSet z0 (zoneStep init cnt (zoneStatsOf zones z0)) zones)
        (if init then deltas else mapSet z0 (cnt - (zoneStatsOf zones z0).lastCount) deltas) hrest
      refine ⟨by rw [h1, mapGet_mapSet_ne _ _ hne], ?_⟩
      rw [h2]
      cases init
      · simp [mapGet_mapSet_ne _ _ hne]
      · simp

theorem computeDeltas_hit (init : Bool) (q : ZoneKey → Option Nat) (z : ZoneKey) (cnt : Nat)
    (zs : List ZoneKey) (zones : List (ZoneKey × apZoneStats)) (deltas : List (ZoneKey × Nat))
    (hnd : zs.Nodup) (hz : z ∈ zs) (hq : q z = some cnt) :
    mapGet z (computeDeltas init q zs zones deltas).1 =
      some (zoneStep init cnt (zoneStatsOf zones z)) ∧
    (init = false → mapGet z (computeDeltas init q zs zones deltas).2 =
      some (cnt - (zoneStatsOf zones z).lastCount)) := by
  induction zs generalizing zones deltas with
  | nil => simp at hz
  | cons z0 rest ih =>
    obtain ⟨hnotin, hndrest⟩ := List.nodup_cons.1 hnd
    by_cases hzz : z = z0
    · subst hzz
      simp only [computeDeltas, hq]
      obtain ⟨h1, h2⟩ := computeDeltas_skip init q z rest
        (mapSet z (zoneStep init cnt (zoneStatsOf zones z)) zones)
        (if init then deltas else mapSet z (cnt - (zoneStatsOf zones z).lastCount) deltas)
        (Or.inl hnotin)
      refine ⟨by rw [h1, mapGet_mapSet_self], fun hinit => ?_⟩
      rw [h2, hinit]
      simp [mapGet_mapSet_self]
    · have hzrest : z ∈ rest := by
        rcases List.mem_cons.1 hz with h | h
        · exact absurd h hzz
        · exact h
      cases hq0 : q z0 with
      | none =>
        simp only [computeDeltas, hq0]
        exact ih zones deltas hndrest hzrest
      | some c0 =>
        simp only [computeDeltas, hq0]
        have hsame : zoneStatsOf (mapSet z0 (zoneStep init c0 (zoneStatsOf zones z0)) zones) z =
            zoneStatsOf zones z := by
          simp [zoneStatsOf, mapGet_mapSet_ne _ _ hzz]
        have := ih (mapSet z0 (zoneStep init c0 (zoneStatsOf zones z0)) zones)
          (if init then deltas else mapSet z0 (c0 - (zoneStatsOf zones z0).lastCount) deltas)
          hndrest hzrest
        rw [hsame] at this
        exact this

theorem mem_trackedZones {st : apAppStats} {pname : String} {pt : apPolicyTracker}
    {z : ZoneKey} {tr : apZoneTracker} (hp : mapGet pname st.policies = some pt)
    (ht : mapGet z pt.zoneTrackers = some tr) : z ∈ trackedZones st := by
  unfold trackedZones
  rw [List.mem_dedup, List.mem_flatMap]
  refine ⟨(pname, pt), mapGet_some_mem hp, ?_⟩
  exact List.mem_map.2 ⟨(z, tr), mapGet_some_mem ht, rfl⟩

theorem mapGet_runIter (init : Bool) (env : IterEnv) (a : AutoProvAggr) (app : AppKey) :
    mapGet app (runIter init env a).1.allStats =
      (mapGet app a.allStats).map (fun st => (runIterApp init env app st).1) := by
  simp only [runIter]
  exact mapGet_map_val app (fun e => (runIterApp init env e.1 e.2).1) a.allStats

theorem mapGet_evalPolicy (deltas : List (ZoneKey × Nat)) (pt : apPolicyTracker) (z : ZoneKey) :
    mapGet z (evalPolicy deltas pt).zoneTrackers =
      (mapGet z pt.zoneTrackers).map (fun tr =>
        (evalZone pt.deployClientCount pt.deployIntervalCount deltas (z, tr)).1) := by
  simp only [evalPolicy]
  exact mapGet_map_val z
    (fun e => (evalZone pt.deployClientCount pt.deployIntervalCount deltas e).1)
    pt.zoneTrackers

/-- The policy tracker of (app, policy) after one evaluation iteration. -/
theorem getPolicy_runIter (env : IterEnv) (a : AutoProvAggr) (app : AppKey) (pname : String) :
    getPolicy (runIter false env a).1 app pname =
      (mapGet app a.allStats).bind (fun st => (mapGet pname st.policies).map
        (evalPolicy (computeDeltas false (env.getCount app) (trackedZones st) st.zones []).2)) := by
  unfold getPolicy
  rw [mapGet_runIter]
  cases mapGet app a.allStats with
  | none => rfl
  | some st =>
    simp only [Option.map_some', Option.some_bind, runIterApp, Bool.false_eq_true, if_false]
    exact mapGet_map_val pname (fun p => evalPolicy _ p.2) st.policies

/-- One evaluation iteration, seen from one tracked (app, policy, zone) whose
query succeeded with `c`: the thresholds are kept, the tracker is the result
of steps 3 and 4 on the delta `c - lastCount`, and `lastCount` becomes `c`. -/
theorem runIter_tracker (env : IterEnv) (a : AutoProvAggr) (app : AppKey) (pname : String)
    (z : ZoneKey) (pt : apPolicyTracker) (tr : apZoneTracker) (c : Nat)
    (hp : getPolicy a app pname = some pt) (ht : mapGet z pt.zoneTrackers = some tr)
    (hc : env.getCount app z = some c) :
    ∃ pt1, getPolicy (runIter false env a).1 app pname = some pt1 ∧
      pt1.deployClientCount = pt.deployClientCount ∧
      pt1.deployIntervalCount = pt.deployIntervalCount ∧
      mapGet z pt1.zoneTrackers = some (evalTracker pt.deployClientCount pt.deployIntervalCount
        (c - lastCountOf a app z) tr).1 ∧
      lastCountOf (runIter false env a).1 app z = c := by
  unfold getPolicy at hp
  cases hst : mapGet app a.allStats with
  | none => simp [hst] at hp
  | some st =>
    rw [hst] at hp
    simp only [Option.some_bind] at hp
    obtain ⟨hz1, hz2⟩ := computeDeltas_hit false (env.getCount app) z c (trackedZones st)
      st.zones [] (List.nodup_dedup _) (mem_trackedZones hp ht) hc
    have hlc : lastCountOf a app z = (zoneStatsOf st.zones z).lastCount := by
      simp [lastCountOf, hst]
    refine ⟨evalPolicy (computeDeltas false (env.getCount app) (trackedZones st) st.zones []).2
      pt, ?_, rfl, rfl, ?_, ?_⟩
    · rw [getPolicy_runIter, hst]
      simp only [Option.some_bind, hp, Option.map_some']
    · rw [mapGet_evalPolicy, ht]
      simp only [Option.map_some', evalZone, hz2 rfl, hlc]
    · unfold lastCountOf
      rw [mapGet_runIter, hst]
      simp only [Option.map_some', runIterApp, Bool.false_eq_true, if_false, zoneStatsOf, hz1,
        Option.getD_some]
      simp [zoneStep]

theorem getTracker_of_policy {a : AutoProvAggr} {app : AppKey} {pname : String}
    {pt : apPolicyTracker} (z : ZoneKey) (hp : getPolicy a app pname = some pt) :
    getTracker a app pname z = mapGet z pt.zoneTrackers := by
  simp [getTracker, hp]

theorem runIters_append (xs ys : List IterEnv) (a : AutoProvAggr) :
    (runIters (xs ++ ys) a).1 = (runIters ys (runIters xs a).1).1 ∧
    (runIters (xs ++ ys) a).2 = (runIters xs a).2 ++ (runIters ys (runIters xs a).1).2 := by
  induction xs generalizing a with
  | nil => exact ⟨rfl, rfl⟩
  | cons x rest ih =>
    obtain ⟨h1, h2⟩ := ih (runIter false x a).1
    exact ⟨by simp [runIters, h1], by simp [runIters, h2]⟩

/-- Steps 3 and 4 on a qualifying delta: the count goes on from where the
current run stands, which is 0 for a tracker at the interval count. -/
theorem evalTracker_meets (C K d m : Nat) (hge : C ≤ d) :
    evalTracker C K d ⟨m⟩ =
      (⟨min ((if K ≤ m then 0 else m) + 1) K⟩,
        decide (min ((if K ≤ m then 0 else m) + 1) K = K)) := by
  simp [evalTracker, hge]

theorem evalTracker_step (C K d m : Nat) (hge : C ≤ d) (hlt : m < K) :
    evalTracker C K d ⟨m⟩ = (⟨m + 1⟩, decide (m + 1 = K)) := by
  have h1 : ¬ (K ≤ m) := by omega
  have h2 : min (m + 1) K = m + 1 := Nat.min_eq_left (by omega)
  rw [evalTracker_meets C K d m hge, if_neg h1, h2]

theorem evalTracker_restart (C K d m : Nat) (hge : C ≤ d) (hK : 1 ≤ K)
    (hm : m = 0 ∨ K ≤ m) :
    evalTracker C K d ⟨m⟩ = (⟨1⟩, decide (1 = K)) := by
  have h0 : (if K ≤ m then 0 else m) = 0 := by
    rcases hm with h | h
    · subst h; simp
    · rw [if_pos h]
  have h2 : min (0 + 1) K = 1 := Nat.min_eq_left (by omega)
  rw [evalTracker_meets C K d m hge, h0, h2]

theorem evalTracker_below (C K d : Nat) (tr : apZoneTracker) (hlt : d < C) :
    evalTracker C K d tr = (⟨0⟩, false) := by
  have h : ¬ (C ≤ d) := by omega
  simp [evalTracker, h]

/-- Steps 3 and 4 keep `deployIntervalsMet` within 0 and the interval count,
and issue a create request only on a delta that meets the threshold, and
only when they leave `deployIntervalsMet` at the interval count. -/
theorem evalTracker_bounds (C K d : Nat) (tr : apZoneTracker) :
    (evalTracker C K d tr).1.deployIntervalsMet ≤ K ∧
    ((evalTracker C K d tr).2 = true →
      C ≤ d ∧ (evalTracker C K d tr).1.deployIntervalsMet = K) := by
  obtain ⟨m⟩ := tr
  by_cases hge : C ≤ d
  · rw [evalTracker_meets C K d m hge]
    simp only [decide_eq_true_eq]
    exact ⟨Nat.min_le_right _ _, fun h => ⟨hge, h⟩⟩
  · rw [evalTracker_below C K d ⟨m⟩ (by omega)]
    simp

/-- While the threshold `K` is not passed, each qualifying iteration raises
`deployIntervalsMet` by one; the iterations that follow still qualify from
the baseline the run leaves. -/
theorem runIters_progress (app : AppKey) (pname : String) (z : ZoneKey) (C K : Nat)
    (rest : List IterEnv) (envs : List IterEnv) :
    ∀ (a : AutoProvAggr) (pt : apPolicyTracker) (m : Nat),
      getPolicy a app pname = some pt → pt.deployClientCount = C →
      pt.deployIntervalCount = K → mapGet z pt.zoneTrackers = some ⟨m⟩ →
      qualifying C app z (lastCountOf a app z) (envs ++ rest) = true →
      m + envs.length ≤ K →
      ∃ pt1, getPolicy (runIters envs a).1 app pname = some pt1 ∧
        pt1.deployClientCount = C ∧ pt1.deployIntervalCount = K ∧
        mapGet z pt1.zoneTrackers = some ⟨m + envs.length⟩ ∧
        qualifying C app z (lastCountOf (runIters envs a).1 app z) rest = true := by
  induction envs with
  | nil =>
    intro a pt m hp hC hK ht hq _
    exact ⟨pt, hp, hC, hK, by simpa using ht, by simpa using hq⟩
  | cons env envs ih =>
    intro a pt m hp hC hK ht hq hlt
    simp only [List.cons_append, qualifying] at hq
    cases hc : env.getCount app z with
    | none => simp [hc] at hq
    | some c =>
      simp only [hc, Bool.and_eq_true, decide_eq_true_eq] at hq
      obtain ⟨hge, hq2⟩ := hq
      obtain ⟨pt1, hp1, hC1, hK1, ht1, hlc1⟩ := runIter_tracker env a app pname z pt ⟨m⟩ c hp ht hc
      simp only [List.length_cons] at hlt
      have ht1' : mapGet z pt1.zoneTrackers = some ⟨m + 1⟩ := by
        rw [ht1, hC, hK, evalTracker_step C K _ m hge (by omega)]
      rw [← hlc1] at hq2
      obtain ⟨pt2, hp2, hC2, hK2, ht2, hq3⟩ := ih (runIter false env a).1 pt1 (m + 1) hp1
        (hC1.trans hC) (hK1.trans hK) ht1' hq2 (by omega)
      refine ⟨pt2, hp2, hC2, hK2, ?_, hq3⟩
      rw [ht2]
      simp only [List.length_cons]
      congr 2
      omega

/-- A run of qualifying iterations from the start of a run (the tracker at 0,
or at the interval count after a trigger): after `n >= 1` iterations, not
more than `K`, `deployIntervalsMet` is `n`. -/
theorem runIters_fresh (app : AppKey) (pname : String) (z : ZoneKey) (C K : Nat)
    (rest : List IterEnv) (envs : List IterEnv) (a : AutoProvAggr) (pt : apPolicyTracker)
    (m : Nat) (hp : getPolicy a app pname = some pt) (hC : pt.deployClientCount = C)
    (hK : pt.deployIntervalCount = K) (ht : mapGet z pt.zoneTrackers = some ⟨m⟩)
    (hm : m = 0 ∨ K ≤ m)
    (hq : qualifying C app z (lastCountOf a app z) (envs ++ rest) = true)
    (hpos : 1 ≤ envs.length) (hlen : envs.length ≤ K) :
    ∃ pt1, getPolicy (runIters envs a).1 app pname = some pt1 ∧
      pt1.deployClientCount = C ∧ pt1.deployIntervalCount = K ∧
      mapGet z pt1.zoneTrackers = some ⟨envs.length⟩ ∧
      qualifying C app z (lastCountOf (runIters envs a).1 app z) rest = true := by
  cases envs with
  | nil => simp at hpos
  | cons env envs =>
    simp only [List.cons_append, qualifying] at hq
    cases hc : env.getCount app z with
    | none => simp [hc] at hq
    | some c =>
      simp only [hc, Bool.and_eq_true, decide_eq_true_eq] at hq
      obtain ⟨hge, hq2⟩ := hq
      obtain ⟨pt1, hp1, hC1, hK1, ht1, hlc1⟩ := runIter_tracker env a app pname z pt ⟨m⟩ c hp ht hc
      simp only [List.length_cons] at hlen
      have ht1' : mapGet z pt1.zoneTrackers = some ⟨1⟩ := by
        rw [ht1, hC, hK, evalTracker_restart C K _ m hge (by omega) hm]
      rw [← hlc1] at hq2
      obtain ⟨pt2, hp2, hC2, hK2, ht2, hq3⟩ := runIters_progress app pname z C K rest envs
        (runIter false env a).1 pt1 1 hp1 (hC1.trans hC) (hK1.trans hK) ht1' hq2 (by omega)
      refine ⟨pt2, hp2, hC2, hK2, ?_, hq3⟩
      rw [ht2]
      simp only [List.length_cons]
      congr 2
      omega

/-- C8. For a tracked (app, policy, zone) at the start of a run
(`deployIntervalsMet` at 0, or at the interval count after a trigger) and a
policy with `DeployIntervalCount = K`: over `K` consecutive evaluation
iterations whose zone delta meets `DeployClientCount`, `deployIntervalsMet`
equals `i` after the `i`-th of them, for every `1 <= i <= K`. -/
theorem deployIntervalsMet_counts_up (a : AutoProvAggr) (app : AppKey) (pname : String)
    (z : ZoneKey) (pt : apPolicyTracker) (m : Nat) (envs : List IterEnv)
    (hp : getPolicy a app pname = some pt)
    (hK : pt.deployIntervalCount = envs.length)
    (ht : mapGet z pt.zoneTrackers = some ⟨m⟩)
    (hm : m = 0 ∨ pt.deployIntervalCount ≤ m)
    (hq : qualifying pt.deployClientCount app z (lastCountOf a app z) envs = true) :
    ∀ i, 1 ≤ i → i ≤ pt.deployIntervalCount →
      getTracker (runIters (envs.take i) a).1 app pname z = some ⟨i⟩ := by
  intro i h1 hi
  have hsplit : envs = envs.take i ++ envs.drop i := (List.take_append_drop i envs).symm
  rw [hsplit] at hq
  have hlen : (envs.take i).length = i := by
    rw [List.length_take]
    omega
  obtain ⟨pt1, hp1, _, _, ht1, _⟩ := runIters_fresh app pname z pt.deployClientCount
    pt.deployIntervalCount (envs.drop i) (envs.take i) a pt m hp rfl rfl ht hm hq
    (by omega) (by omega)
  rw [getTracker_of_policy z hp1, ht1, hlen]

theorem deployIntervalsMet_counts_up_witness :
    getTracker (runIters (List.take 2 [⟨fun _ _ => some 5⟩, ⟨fun _ _ => some 10⟩])
        { allStats := [(⟨"org", "app", "1.0"⟩,
            { zones := [(⟨"op", "zone"⟩, ⟨0, 0⟩)]
              policies := [("policy", ⟨3, 2, [(⟨"op", "zone"⟩, ⟨0⟩)]⟩)] })] }).1
        ⟨"org", "app", "1.0"⟩ "policy" ⟨"op", "zone"⟩ = some ⟨2⟩ :=
  deployIntervalsMet_counts_up
    { allStats := [(⟨"org", "app", "1.0"⟩,
        { zones := [(⟨"op", "zone"⟩, ⟨0, 0⟩)]
          policies := [("policy", ⟨3, 2, [(⟨"op", "zone"⟩, ⟨0⟩)]⟩)] })] }
    ⟨"org", "app", "1.0"⟩ "policy" ⟨"op", "zone"⟩ ⟨3, 2, [(⟨"op", "zone"⟩, ⟨0⟩)]⟩ 0
    [⟨fun _ _ => some 5⟩, ⟨fun _ _ => some 10⟩]
    (by decide) (by decide) (by decide) (by decide) (by decide) 2 (by decide) (by decide)

/-- C9. For a tracked (app, policy, zone) and an evaluation iteration whose
query for the zone succeeds with a delta below the policy's
`DeployClientCount`, `deployIntervalsMet` is 0 after the iteration, whatever
it was before. -/
theorem runIter_resets_below_threshold (env : IterEnv) (a : AutoProvAggr) (app : AppKey)
    (pname : String) (z : ZoneKey) (pt : apPolicyTracker) (tr : apZoneTracker) (c : Nat)
    (hp : getPolicy a app pname = some pt) (ht : getTracker a app pname z = some tr)
    (hc : env.getCount app z = some c)
    (hlt : c - lastCountOf a app z < pt.deployClientCount) :
    getTracker (runIter false env a).1 app pname z = some ⟨0⟩ := by
  rw [getTracker_of_policy z hp] at ht
  obtain ⟨pt1, hp1, _, _, ht1, _⟩ := runIter_tracker env a app pname z pt tr c hp ht hc
  rw [getTracker_of_policy z hp1, ht1, evalTracker_below _ _ _ tr hlt]

theorem runIter_resets_below_threshold_witness :
    getTracker (runIter false ⟨fun _ _ => some 12⟩
        { allStats := [(⟨"org", "app", "1.0"⟩,
            { zones := [(⟨"op", "zone"⟩, ⟨10, 10⟩)]
              policies := [("policy", ⟨3, 4, [(⟨"op", "zone"⟩, ⟨2⟩)]⟩)] })] }).1
        ⟨"org", "app", "1.0"⟩ "policy" ⟨"op", "zone"⟩ = some ⟨0⟩ :=
  runIter_resets_below_threshold ⟨fun _ _ => some 12⟩
    { allStats := [(⟨"org", "app", "1.0"⟩,
        { zones := [(⟨"op", "zone"⟩, ⟨10, 10⟩)]
          policies := [("policy", ⟨3, 4, [(⟨"op", "zone"⟩, ⟨2⟩)]⟩)] })] }
    ⟨"org", "app", "1.0"⟩ "policy" ⟨"op", "zone"⟩ ⟨3, 4, [(⟨"op", "zone"⟩, ⟨2⟩)]⟩ ⟨2⟩ 12
    (by decide) (by decide) (by decide) (by decide)

/-! ## Create requests -/

theorem count_flatMap_key {κ ν β : Type} [DecidableEq κ] [DecidableEq β]
    (f : κ × ν → List β) (b : β) (k : κ) (v : ν) (l : List (κ × ν))
    (hnd : (l.map Prod.fst).Nodup) (hget : mapGet k l = some v)
    (hf : ∀ e ∈ l, e.1 ≠ k → b ∉ f e) :
    (l.flatMap f).count b = (f (k, v)).count b := by
  induction l with
  | nil => simp [mapGet] at hget
  | cons e rest ih =>
    obtain ⟨k', v'⟩ := e
    simp only [List.map_cons, List.nodup_cons, List.mem_map, not_exists, not_and] at hnd
    simp only [List.flatMap_cons, List.count_append]
    by_cases hk : k' = k
    · subst hk
      simp only [mapGet, if_true, Option.some.injEq] at hget
      subst hget
      have hzero : (rest.flatMap f).count b = 0 := by
        rw [List.count_eq_zero, List.mem_flatMap]
        rintro ⟨e, he, hb⟩
        exact hf e (List.mem_cons_of_mem _ he) (fun h => hnd.1 e he h) hb
      rw [hzero, Nat.add_zero]
    · simp only [mapGet, hk, if_false] at hget
      have hzero : (f (k', v')).count b = 0 :=
        List.count_eq_zero.2 (hf (k', v') (List.mem_cons_self _ _) hk)
      rw [hzero, Nat.zero_add]
      exact ih hnd.2 hget (fun e he => hf e (List.mem_cons_of_mem _ he))

theorem AggrWF_runIter (init : Bool) (env : IterEnv) (a : AutoProvAggr) (h : AggrWF a) :
    AggrWF (runIter init env a).1 := by
  obtain ⟨h1, h2⟩ := h
  refine ⟨?_, ?_⟩
  · simpa [runIter, List.map_map, Function.comp_def] using h1
  · intro e he
    simp only [runIter, List.mem_map] at he
    obtain ⟨e0, he0, rfl⟩ := he
    obtain ⟨h3, h4⟩ := h2 e0 he0
    cases init
    · refine ⟨?_, ?_⟩
      · simpa [runIterApp, List.map_map, Function.comp_def] using h3
      · intro p hp
        simp only [runIterApp, Bool.false_eq_true, if_false, List.mem_map] at hp
        obtain ⟨p0, hp0, rfl⟩ := hp
        simpa [evalPolicy, List.map_map, Function.comp_def] using h4 p0 hp0
    · exact ⟨by simpa [runIterApp] using h3, fun p hp => h4 p (by simpa [runIterApp] using hp)⟩

/-- One evaluation iteration, seen from one tracked (app, policy, zone),
whatever the query returns: the number of create requests the policy issues
for the zone. -/
theorem runIter_zone (env : IterEnv) (a : AutoProvAggr) (app : AppKey) (pname : String)
    (z : ZoneKey) (st : apAppStats) (pt : apPolicyTracker) (tr : apZoneTracker)
    (hWF : AggrWF a)
    (hst : mapGet app a.allStats = some st) (hp : mapGet pname st.policies = some pt)
    (ht : mapGet z pt.zoneTrackers = some tr) :
    (runIter false env a).2.count ⟨app, z, pname⟩ =
      if (evalZone pt.deployClientCount pt.deployIntervalCount
            (computeDeltas false (env.getCount app) (trackedZones st) st.zones []).2
            (z, tr)).2 then 1 else 0 := by
  obtain ⟨hnd1, hrest⟩ := hWF
  obtain ⟨hnd2, hrest2⟩ := hrest (app, st) (mapGet_some_mem hst)
  have hnd3 := hrest2 (pname, pt) (mapGet_some_mem hp)
  have step1 : (runIter false env a).2.count ⟨app, z, pname⟩ =
      (runIterApp false env app st).2.count ⟨app, z, pname⟩ := by
    simp only [runIter]
    refine count_flatMap_key (fun e => (runIterApp false env e.1 e.2).2) _ app st _ hnd1 hst ?_
    intro e _ hne hmem
    simp only [runIterApp, Bool.false_eq_true, if_false, List.mem_flatMap, policyCreates] at hmem
    obtain ⟨p, _, t, _, hmem⟩ := hmem
    split at hmem
    · simp only [List.mem_singleton, CreateReq.mk.injEq] at hmem
      exact hne hmem.1.symm
    · simp at hmem
  have step2 : (runIterApp false env app st).2.count ⟨app, z, pname⟩ =
      (policyCreates app pname
        (computeDeltas false (env.getCount app) (trackedZones st) st.zones []).2
        pt).count ⟨app, z, pname⟩ := by
    simp only [runIterApp, Bool.false_eq_true, if_false]
    refine count_flatMap_key (fun p => policyCreates app p.1 _ p.2) _
      pname pt _ hnd2 hp ?_
    intro p _ hne hmem
    simp only [policyCreates, List.mem_flatMap] at hmem
    obtain ⟨t, _, hmem⟩ := hmem
    split at hmem
    · simp only [List.mem_singleton, CreateReq.mk.injEq] at hmem
      exact hne hmem.2.2.symm
    · simp at hmem
  have step3 : (policyCreates app pname
        (computeDeltas false (env.getCount app) (trackedZones st) st.zones []).2
        pt).count ⟨app, z, pname⟩ =
      (if (evalZone pt.deployClientCount pt.deployIntervalCount
            (computeDeltas false (env.getCount app) (trackedZones st) st.zones []).2
            (z, tr)).2
       then [(⟨app, z, pname⟩ : CreateReq)] else []).count ⟨app, z, pname⟩ := by
    simp only [policyCreates]
    refine count_flatMap_key (fun e => if (evalZone pt.deployClientCount pt.deployIntervalCount
        _ e).2 then [(⟨app, e.1, pname⟩ : CreateReq)] else []) _
      z tr _ hnd3 ht ?_
    intro e _ hne hmem
    dsimp only at hmem
    split at hmem
    · simp only [List.mem_singleton, CreateReq.mk.injEq] at hmem
      exact hne hmem.2.1.symm
    · simp at hmem
  rw [step1, step2, step3]
  split <;> simp

/-- The number of create requests one evaluation iteration issues for a
tracked (app, zone) on behalf of a policy, when the query succeeds: one when
steps 3 and 4 trigger on that tracker, none otherwise. -/
theorem runIter_creates_count (env : IterEnv) (a : AutoProvAggr) (app : AppKey)
    (pname : String) (z : ZoneKey) (pt : apPolicyTracker) (tr : apZoneTracker) (c : Nat)
    (hWF : AggrWF a) (hp : getPolicy a app pname = some pt)
    (ht : mapGet z pt.zoneTrackers = some tr) (hc : env.getCount app z = some c) :
    (runIter false env a).2.count ⟨app, z, pname⟩ =
      if (evalTracker pt.deployClientCount pt.deployIntervalCount
        (c - lastCountOf a app z) tr).2 then 1 else 0 := by
  unfold getPolicy at hp
  cases hst : mapGet app a.allStats with
  | none => simp [hst] at hp
  | some st =>
    rw [hst] at hp
    simp only [Option.some_bind] at hp
    obtain ⟨_, hz2⟩ := computeDeltas_hit false (env.getCount app) z c (trackedZones st)
      st.zones [] (List.nodup_dedup _) (mem_trackedZones hp ht) hc
    have hlc : lastCountOf a app z = (zoneStatsOf st.zones z).lastCount := by
      simp [lastCountOf, hst]
    rw [runIter_zone env a app pname z st pt tr hWF hst hp ht]
    simp only [evalZone, hz2 rfl, hlc]

theorem runIters_cons_snd (env : IterEnv) (rest : List IterEnv) (a : AutoProvAggr) :
    (runIters (env :: rest) a).2 =
      (runIter false env a).2 :: (runIters rest (runIter false env a).1).2 := rfl

/-- A run of qualifying iterations that brings the count of the current run
from where it stands to exactly `K`: the policy issues no create request for
the zone in any iteration but the last, and one in the last. -/
theorem runIters_creates (app : AppKey) (pname : String) (z : ZoneKey) (C K : Nat)
    (envs : List IterEnv) :
    ∀ (a : AutoProvAggr) (pt : apPolicyTracker) (m : Nat),
      AggrWF a → getPolicy a app pname = some pt → pt.deployClientCount = C →
      pt.deployIntervalCount = K → mapGet z pt.zoneTrackers = some ⟨m⟩ →
      qualifying C app z (lastCountOf a app z) envs = true →
      (if K ≤ m then 0 else m) + envs.length = K → 1 ≤ envs.length →
      (runIters envs a).2.map (List.count ⟨app, z, pname⟩) =
        List.replicate (envs.length - 1) 0 ++ [1] := by
  induction envs with
  | nil =>
    intro a pt m _ _ _ _ _ _ _ hpos
    simp at hpos
  | cons env rest ih =>
    intro a pt m hWF hp hC hK ht hq hlen _
    simp only [qualifying] at hq
    cases hc : env.getCount app z with
    | none => simp [hc] at hq
    | some c =>
      simp only [hc, Bool.and_eq_true, decide_eq_true_eq] at hq
      obtain ⟨hge, hq2⟩ := hq
      have hcount := runIter_creates_count env a app pname z pt ⟨m⟩ c hWF hp ht hc
      obtain ⟨pt1, hp1, hC1, hK1, ht1, hlc1⟩ := runIter_tracker env a app pname z pt ⟨m⟩ c hp ht hc
      rw [hC, hK, evalTracker_meets C K _ m hge] at hcount ht1
      simp only [List.length_cons] at hlen
      cases rest with
      | nil =>
        simp only [List.length_nil] at hlen
        have hmin : min ((if K ≤ m then 0 else m) + 1) K = K := by omega
        simp [runIters, hcount, hmin]
      | cons env2 rest2 =>
        simp only [List.length_cons] at hlen
        have hmin : min ((if K ≤ m then 0 else m) + 1) K = (if K ≤ m then 0 else m) + 1 :=
          Nat.min_eq_left (by omega)
        have hne : ¬ ((if K ≤ m then 0 else m) + 1 = K) := by omega
        rw [hmin] at hcount ht1
        have hzero : (runIter false env a).2.count ⟨app, z, pname⟩ = 0 := by
          rw [hcount]
          simp [hne]
        rw [← hlc1] at hq2
        have hih := ih (runIter false env a).1 pt1 ((if K ≤ m then 0 else m) + 1)
          (AggrWF_runIter false env a hWF) hp1
          (hC1.trans hC) (hK1.trans hK) ht1 hq2
          (by
            have h2 : ¬ (K ≤ (if K ≤ m then 0 else m) + 1) := by omega
            rw [if_neg h2]
            simp only [List.length_cons]
            omega)
          (by simp)
        rw [runIters_cons_snd, List.map_cons, hzero, hih]
        simp [List.replicate_succ]

/-- A count by predicate is the count of the one element the predicate can
hold for. -/
theorem countP_eq_count {β : Type} [DecidableEq β] (P : β → Bool) (b : β) (l : List β)
    (hb : P b = true) (h : ∀ r ∈ l, P r = true → r = b) : l.countP P = l.count b := by
  induction l with
  | nil => rfl
  | cons x rest ih =>
    have ih2 := ih (fun r hr => h r (List.mem_cons_of_mem _ hr))
    by_cases hx : P x = true
    · have := h x (List.mem_cons_self _ _) hx
      subst this
      rw [List.countP_cons_of_pos _ _ hx, List.count_cons_self, ih2]
    · have hne : x ≠ b := fun e => hx (e ▸ hb)
      rw [List.countP_cons_of_neg _ _ hx, List.count_cons_of_ne hne.symm, ih2]

/-- The create requests of one evaluation iteration: each comes from a
tracker of a policy of an app on which steps 3 and 4 trigger. -/
theorem mem_runIter_creates {env : IterEnv} {a : AutoProvAggr} {r : CreateReq}
    (h : r ∈ (runIter false env a).2) :
    ∃ st pt tr, (r.appKey, st) ∈ a.allStats ∧ (r.policy, pt) ∈ st.policies ∧
      (r.zoneKey, tr) ∈ pt.zoneTrackers ∧
      (evalZone pt.deployClientCount pt.deployIntervalCount
        (computeDeltas false (env.getCount r.appKey) (trackedZones st) st.zones []).2
        (r.zoneKey, tr)).2 = true := by
  simp only [runIter, List.mem_flatMap, runIterApp, Bool.false_eq_true, if_false,
    policyCreates] at h
  obtain ⟨e, he, p, hp, t, ht, hmem⟩ := h
  split at hmem
  · rename_i htrig
    simp only [List.mem_singleton] at hmem
    subst hmem
    exact ⟨e.2, p.2, t.2, he, hp, ht, htrig⟩
  · simp at hmem

/-- When the delta of a zone is below the threshold of every other policy of
the app that tracks the zone, the create requests of the iteration for (app,
zone) are those of the one policy. -/
theorem createsFor_runIter (env : IterEnv) (a : AutoProvAggr) (app : AppKey) (pname : String)
    (z : ZoneKey) (c : Nat) (hWF : AggrWF a) (hc : env.getCount app z = some c)
    (hothers : ∀ q ptq, getPolicy a app q = some ptq → q ≠ pname →
      (mapGet z ptq.zoneTrackers).isSome = true →
      c - lastCountOf a app z < ptq.deployClientCount) :
    createsFor app z (runIter false env a).2 =
      (runIter false env a).2.count ⟨app, z, pname⟩ := by
  unfold createsFor
  refine countP_eq_count _ (⟨app, z, pname⟩ : CreateReq) _ (by simp) ?_
  intro r hr hP
  simp only [decide_eq_true_eq] at hP
  obtain ⟨st, pt, tr, hst, hp, ht, htrig⟩ := mem_runIter_creates hr
  obtain ⟨rapp, rz, rp⟩ := r
  simp only at hP hst hp ht htrig
  obtain ⟨rfl, rfl⟩ := hP
  obtain ⟨hnd1, hrest⟩ := hWF
  obtain ⟨hnd2, hrest2⟩ := hrest (rapp, st) hst
  have hnd3 := hrest2 (rp, pt) hp
  have hst' : mapGet rapp a.allStats = some st := mapGet_of_mem_nodup hnd1 hst
  have hp' : mapGet rp st.policies = some pt := mapGet_of_mem_nodup hnd2 hp
  have ht' : mapGet rz pt.zoneTrackers = some tr := mapGet_of_mem_nodup hnd3 ht
  by_cases hq : rp = pname
  · rw [hq]
  · exfalso
    have hgp : getPolicy a rapp rp = some pt := by
      simp [getPolicy, hst', hp']
    have hlt := hothers rp pt hgp hq (by simp [ht'])
    obtain ⟨_, hz2⟩ := computeDeltas_hit false (env.getCount rapp) rz c (trackedZones st)
      st.zones [] (List.nodup_dedup _) (mem_trackedZones hp' ht') hc
    have hlc : lastCountOf a rapp rz = (zoneStatsOf st.zones rz).lastCount := by
      simp [lastCountOf, hst']
    rw [hlc] at hlt
    simp only [evalZone, hz2 rfl, evalTracker_below _ _ _ tr hlt] at htrig
    cases htrig

/-- Over a run in which the zone's delta stays below the threshold of every
other policy of the app that tracks the zone, the create requests for (app,
zone) are in each iteration those of the one policy. -/
theorem runIters_createsFor (app : AppKey) (pname : String) (z : ZoneKey) (C : Nat)
    (envs : List IterEnv) :
    ∀ (a : AutoProvAggr), AggrWF a →
      qualifying C app z (lastCountOf a app z) envs = true →
      (∀ q ptq, getPolicy a app q = some ptq → q ≠ pname →
        (mapGet z ptq.zoneTrackers).isSome = true →
        staysBelow ptq.deployClientCount app z (lastCountOf a app z) envs = true) →
      (∃ pt tr, getPolicy a app pname = some pt ∧ mapGet z pt.zoneTrackers = some tr) →
      (runIters envs a).2.map (createsFor app z) =
        (runIters envs a).2.map (List.count ⟨app, z, pname⟩) := by
  induction envs with
  | nil => intro a _ _ _ _; rfl
  | cons env rest ih =>
    intro a hWF hq hothers htracked
    simp only [qualifying] at hq
    cases hc : env.getCount app z with
    | none => simp [hc] at hq
    | some c =>
      simp only [hc, Bool.and_eq_true, decide_eq_true_eq] at hq
      obtain ⟨_, hq2⟩ := hq
      obtain ⟨pt, tr, hp, ht⟩ := htracked
      obtain ⟨pt1, hp1, _, _, ht1, hlc1⟩ := runIter_tracker env a app pname z pt tr c hp ht hc
      have hhead := createsFor_runIter env a app pname z c hWF hc (by
        intro q ptq hgq hne hsome
        have := hothers q ptq hgq hne hsome
        simp only [staysBelow, hc, Bool.and_eq_true, decide_eq_true_eq] at this
        exact this.1)
      rw [← hlc1] at hq2
      have hih := ih (runIter false env a).1 (AggrWF_runIter false env a hWF) hq2 (by
        intro q ptq1 hgq1 hne hsome
        rw [getPolicy_runIter] at hgq1
        cases hst : mapGet app a.allStats with
        | none => simp [hst] at hgq1
        | some st =>
          rw [hst] at hgq1
          simp only [Option.some_bind, Option.map_eq_some'] at hgq1
          obtain ⟨ptq, hgq, rfl⟩ := hgq1
          have hgq' : getPolicy a app q = some ptq := by simp [getPolicy, hst, hgq]
          have hsome' : (mapGet z ptq.zoneTrackers).isSome = true := by
            rw [mapGet_evalPolicy] at hsome
            simpa using hsome
          have := hothers q ptq hgq' hne hsome'
          simp only [staysBelow, hc, Bool.and_eq_true, decide_eq_true_eq] at this
          rw [hlc1]
          exact this.2) ⟨pt1, _, hp1, ht1⟩
      rw [runIters_cons_snd, List.map_cons, List.map_cons, hhead, hih]

/-- C10. For a tracked (app, policy, zone) at the start of a run
(`deployIntervalsMet` at 0, or at the interval count after a trigger), a
policy with `DeployIntervalCount = K >= 1`, and `K` consecutive evaluation
iterations whose zone delta meets the policy's `DeployClientCount` and stays
below the threshold of every other policy of the app that tracks the zone:
the numbers of create requests the aggregator issues for (app, zone) in the
`K` iterations are `0, ..., 0, 1`: none before the `K`-th iteration, exactly
one in the `K`-th. -/
theorem one_create_on_Kth_iteration (a : AutoProvAggr) (app : AppKey) (pname : String)
    (z : ZoneKey) (pt : apPolicyTracker) (m : Nat) (envs : List IterEnv)
    (hWF : AggrWF a) (hp : getPolicy a app pname = some pt)
    (hK : pt.deployIntervalCount = envs.length) (hpos : 1 ≤ pt.deployIntervalCount)
    (ht : mapGet z pt.zoneTrackers = some ⟨m⟩)
    (hm : m = 0 ∨ pt.deployIntervalCount ≤ m)
    (hq : qualifying pt.deployClientCount app z (lastCountOf a app z) envs = true)
    (hothers : ∀ q ptq, getPolicy a app q = some ptq → q ≠ pname →
      (mapGet z ptq.zoneTrackers).isSome = true →
      staysBelow ptq.deployClientCount app z (lastCountOf a app z) envs = true) :
    (runIters envs a).2.map (createsFor app z) =
      List.replicate (pt.deployIntervalCount - 1) 0 ++ [1] := by
  rw [runIters_createsFor app pname z pt.deployClientCount envs a hWF hq hothers
    ⟨pt, _, hp, ht⟩, hK]
  refine runIters_creates app pname z pt.deployClientCount pt.deployIntervalCount envs a pt m
    hWF hp rfl rfl ht hq ?_ (by omega)
  have h0 : (if pt.deployIntervalCount ≤ m then 0 else m) = 0 := by
    rcases hm with h | h
    · subst h; simp
    · rw [if_pos h]
  rw [h0, hK]
  omega

theorem one_create_on_Kth_iteration_witness :
    (runIters [⟨fun _ _ => some 5⟩, ⟨fun _ _ => some 10⟩]
        { allStats := [(⟨"org", "app", "1.0"⟩,
            { zones := [(⟨"op", "zone"⟩, ⟨0, 0⟩)]
              policies := [("policy", ⟨3, 2, [(⟨"op", "zone"⟩, ⟨0⟩)]⟩),
                           ("policy2", ⟨8, 5, [(⟨"op", "zone"⟩, ⟨0⟩)]⟩)] })] }).2.map
      (createsFor ⟨"org", "app", "1.0"⟩ ⟨"op", "zone"⟩) =
      List.replicate (2 - 1) 0 ++ [1] :=
  one_create_on_Kth_iteration
    { allStats := [(⟨"org", "app", "1.0"⟩,
        { zones := [(⟨"op", "zone"⟩, ⟨0, 0⟩)]
          policies := [("policy", ⟨3, 2, [(⟨"op", "zone"⟩, ⟨0⟩)]⟩),
                       ("policy2", ⟨8, 5, [(⟨"op", "zone"⟩, ⟨0⟩)]⟩)] })] }
    ⟨"org", "app", "1.0"⟩ "policy" ⟨"op", "zone"⟩ ⟨3, 2, [(⟨"op", "zone"⟩, ⟨0⟩)]⟩ 0
    [⟨fun _ _ => some 5⟩, ⟨fun _ _ => some 10⟩]
    (by decide) (by decide) (by decide) (by decide) (by decide) (by decide) (by decide)
    (by
      intro q ptq hq hne _
      simp only [getPolicy, mapGet, if_true, Option.some_bind] at hq
      split at hq
      · exact absurd (by assumption) hne.symm
      · split at hq
        · simp only [Option.some.injEq] at hq
          subst hq
          decide
        · cases hq)

/-! ## The trigger and the restart of the count -/

theorem evalZone_bounds (C K : Nat) (D : List (ZoneKey × Nat)) (z : ZoneKey) (m : Nat) :
    (if K ≤ (evalZone C K D (z, ⟨m⟩)).1.deployIntervalsMet then 0
      else (evalZone C K D (z, ⟨m⟩)).1.deployIntervalsMet) ≤ (if K ≤ m then 0 else m) + 1 ∧
    ((if K ≤ m then 0 else m) + 1 < K → (evalZone C K D (z, ⟨m⟩)).2 = false) := by
  unfold evalZone
  cases mapGet z D with
  | none => exact ⟨Nat.le_succ _, fun _ => rfl⟩
  | some d =>
    simp only
    by_cases hge : C ≤ d
    · rw [evalTracker_meets C K d m hge]
      simp only [decide_eq_false_iff_not]
      constructor
      · split_ifs <;> omega
      · intro hlt
        omega
    · rw [evalTracker_below C K d ⟨m⟩ (by omega)]
      simp

/-- One evaluation iteration of any kind raises the count of the current run
by at most one, keeps the thresholds, and issues no create request for the
tracker while that count plus one is below the interval count. -/
theorem runIter_step_any (env : IterEnv) (a : AutoProvAggr) (app : AppKey) (pname : String)
    (z : ZoneKey) (pt : apPolicyTracker) (m : Nat)
    (hWF : AggrWF a) (hp : getPolicy a app pname = some pt)
    (ht : mapGet z pt.zoneTrackers = some ⟨m⟩) :
    ∃ pt1 m1, getPolicy (runIter false env a).1 app pname = some pt1 ∧
      pt1.deployClientCount = pt.deployClientCount ∧
      pt1.deployIntervalCount = pt.deployIntervalCount ∧
      mapGet z pt1.zoneTrackers = some ⟨m1⟩ ∧
      (if pt.deployIntervalCount ≤ m1 then 0 else m1) ≤
        (if pt.deployIntervalCount ≤ m then 0 else m) + 1 ∧
      ((if pt.deployIntervalCount ≤ m then 0 else m) + 1 < pt.deployIntervalCount →
        (runIter false env a).2.count ⟨app, z, pname⟩ = 0) := by
  have hp0 := hp
  unfold getPolicy at hp
  cases hst : mapGet app a.allStats with
  | none => simp [hst] at hp
  | some st =>
    rw [hst] at hp
    simp only [Option.some_bind] at hp
    have h2 := runIter_zone env a app pname z st pt ⟨m⟩ hWF hst hp ht
    have h1 : getPolicy (runIter false env a).1 app pname =
        some (evalPolicy (computeDeltas false (env.getCount app) (trackedZones st) st.zones []).2
          pt) := by
      rw [getPolicy_runIter, hst]
      simp only [Option.some_bind, hp, Option.map_some']
    have htr : mapGet z (evalPolicy
        (computeDeltas false (env.getCount app) (trackedZones st) st.zones []).2
        pt).zoneTrackers =
        some (evalZone pt.deployClientCount pt.deployIntervalCount
          (computeDeltas false (env.getCount app) (trackedZones st) st.zones []).2
          (z, ⟨m⟩)).1 := by
      rw [mapGet_evalPolicy, ht]
      rfl
    obtain ⟨hb1, hb2⟩ := evalZone_bounds pt.deployClientCount pt.deployIntervalCount
      (computeDeltas false (env.getCount app) (trackedZones st) st.zones []).2 z m
    refine ⟨_, _, h1, rfl, rfl, htr, hb1, ?_⟩
    intro hlt
    rw [h2, hb2 hlt]
    simp

/-- Fewer iterations than it takes the count of the current run to reach the
interval count issue no create request for the tracker, whatever the
iterations are. -/
theorem runIters_no_create (app : AppKey) (pname : String) (z : ZoneKey) (K : Nat)
    (envs : List IterEnv) :
    ∀ (a : AutoProvAggr) (pt : apPolicyTracker) (m : Nat),
      AggrWF a → getPolicy a app pname = some pt → pt.deployIntervalCount = K →
      mapGet z pt.zoneTrackers = some ⟨m⟩ → (if K ≤ m then 0 else m) + envs.length < K →
      (runIters envs a).2.map (List.count ⟨app, z, pname⟩) = List.replicate envs.length 0 := by
  induction envs with
  | nil => intro a pt m _ _ _ _ _; rfl
  | cons env rest ih =>
    intro a pt m hWF hp hK ht hlen
    simp only [List.length_cons] at hlen
    obtain ⟨pt1, m1, hp1, _, hK1, ht1, hm1, hzero⟩ :=
      runIter_step_any env a app pname z pt m hWF hp ht
    rw [hK] at hm1 hzero
    have hz := hzero (by omega)
    have hih := ih (runIter false env a).1 pt1 m1 (AggrWF_runIter false env a hWF) hp1
      (hK1.trans hK) ht1 (by omega)
    rw [runIters_cons_snd, List.map_cons, hz, hih]
    simp [List.replicate_succ]

/-- C11 as stated fails: with `DeployIntervalCount = 2`, `DeployClientCount = 3`,
`deployIntervalsMet` at 1 and a delta of 5, the iteration brings
`deployIntervalsMet` to 2 and issues the create request, and after it
`deployIntervalsMet` is 2, as the test of the aggregator requires after the
iteration that creates the instance, not 0. -/
theorem trigger_leaves_count_at_K :
    (runIter false ⟨fun _ _ => some 15⟩
        { allStats := [(⟨"org", "app", "1.0"⟩,
            { zones := [(⟨"op", "zone"⟩, ⟨10, 10⟩)]
              policies := [("policy", ⟨3, 2, [(⟨"op", "zone"⟩, ⟨1⟩)]⟩)] })] }).2 =
      [⟨⟨"org", "app", "1.0"⟩, ⟨"op", "zone"⟩, "policy"⟩] ∧
    getTracker (runIter false ⟨fun _ _ => some 15⟩
        { allStats := [(⟨"org", "app", "1.0"⟩,
            { zones := [(⟨"op", "zone"⟩, ⟨10, 10⟩)]
              policies := [("policy", ⟨3, 2, [(⟨"op", "zone"⟩, ⟨1⟩)]⟩)] })] }).1
      ⟨"org", "app", "1.0"⟩ "policy" ⟨"op", "zone"⟩ = some ⟨2⟩ ∧
    getTracker (runIter false ⟨fun _ _ => some 15⟩
        { allStats := [(⟨"org", "app", "1.0"⟩,
            { zones := [(⟨"op", "zone"⟩, ⟨10, 10⟩)]
              policies := [("policy", ⟨3, 2, [(⟨"op", "zone"⟩, ⟨1⟩)]⟩)] })] }).1
      ⟨"org", "app", "1.0"⟩ "policy" ⟨"op", "zone"⟩ ≠ some ⟨0⟩ := by
  decide

/-- C11, amended.  When an evaluation iteration brings the `deployIntervalsMet`
of a tracked (app, policy, zone) to the policy's `DeployIntervalCount`, the
iteration issues one create request for the tracker and `deployIntervalsMet`
reads `DeployIntervalCount` after it.  The count starts again with the next
iteration: a qualifying one leaves it at 1; no run of fewer than
`DeployIntervalCount` iterations issues a create request for the tracker, and
a run of `DeployIntervalCount` consecutive qualifying iterations issues the
next one, in its last iteration. -/
theorem trigger_issues_create_and_restarts (env : IterEnv) (a : AutoProvAggr) (app : AppKey)
    (pname : String) (z : ZoneKey) (pt : apPolicyTracker) (m c : Nat)
    (hWF : AggrWF a) (hp : getPolicy a app pname = some pt)
    (ht : mapGet z pt.zoneTrackers = some ⟨m⟩) (hc : env.getCount app z = some c)
    (hge : pt.deployClientCount ≤ c - lastCountOf a app z)
    (hK : m + 1 = pt.deployIntervalCount) :
    (runIter false env a).2.count ⟨app, z, pname⟩ = 1 ∧
    getTracker (runIter false env a).1 app pname z = some ⟨pt.deployIntervalCount⟩ ∧
    (∀ (env2 : IterEnv) (c2 : Nat), env2.getCount app z = some c2 →
      pt.deployClientCount ≤ c2 - c →
      getTracker (runIter false env2 (runIter false env a).1).1 app pname z = some ⟨1⟩) ∧
    (∀ envs : List IterEnv, envs.length < pt.deployIntervalCount →
      (runIters envs (runIter false env a).1).2.map (List.count ⟨app, z, pname⟩) =
        List.replicate envs.length 0) ∧
    (∀ envs : List IterEnv, envs.length = pt.deployIntervalCount →
      qualifying pt.deployClientCount app z c envs = true →
      (runIters envs (runIter false env a).1).2.map (List.count ⟨app, z, pname⟩) =
        List.replicate (pt.deployIntervalCount - 1) 0 ++ [1]) := by
  have hcount := runIter_creates_count env a app pname z pt ⟨m⟩ c hWF hp ht hc
  obtain ⟨pt1, hp1, hC1, hK1, ht1, hlc1⟩ := runIter_tracker env a app pname z pt ⟨m⟩ c hp ht hc
  have hev : evalTracker pt.deployClientCount pt.deployIntervalCount
      (c - lastCountOf a app z) ⟨m⟩ = (⟨pt.deployIntervalCount⟩, true) := by
    rw [evalTracker_step _ _ _ m hge (by omega), hK]
    simp
  rw [hev] at hcount ht1
  have hWF1 := AggrWF_runIter false env a hWF
  have h0 : (if pt.deployIntervalCount ≤ pt.deployIntervalCount then 0
      else pt.deployIntervalCount) = 0 := if_pos (Nat.le_refl _)
  refine ⟨by simpa using hcount, ?_, ?_, ?_, ?_⟩
  · rw [getTracker_of_policy z hp1, ht1]
  · intro env2 c2 hc2 hge2
    obtain ⟨pt2, hp2, _, _, ht2, _⟩ := runIter_tracker env2 (runIter false env a).1 app pname z
      pt1 ⟨pt.deployIntervalCount⟩ c2 hp1 ht1 hc2
    rw [getTracker_of_policy z hp2, ht2, hC1, hK1, hlc1,
      evalTracker_restart _ _ _ _ hge2 (by omega) (Or.inr (Nat.le_refl _))]
  · intro envs hlen
    exact runIters_no_create app pname z pt.deployIntervalCount envs _ pt1 _ hWF1 hp1 hK1 ht1
      (by rw [h0]; omega)
  · intro envs hlen hq
    have := runIters_creates app pname z pt.deployClientCount pt.deployIntervalCount envs
      (runIter false env a).1 pt1 _ hWF1 hp1 hC1 hK1 ht1 (by rw [hlc1]; exact hq)
      (by rw [h0]; omega) (by omega)
    rw [this, hlen]

theorem trigger_issues_create_and_restarts_witness :
    (runIter false ⟨fun _ _ => some 15⟩
        { allStats := [(⟨"org", "app", "1.0"⟩,
            { zones := [(⟨"op", "zone"⟩, ⟨10, 10⟩)]
              policies := [("policy", ⟨3, 2, [(⟨"op", "zone"⟩, ⟨1⟩)]⟩)] })] }).2.count
      ⟨⟨"org", "app", "1.0"⟩, ⟨"op", "zone"⟩, "policy"⟩ = 1 ∧
    getTracker (runIter false ⟨fun _ _ => some 15⟩
        { allStats := [(⟨"org", "app", "1.0"⟩,
            { zones := [(⟨"op", "zone"⟩, ⟨10, 10⟩)]
              policies := [("policy", ⟨3, 2, [(⟨"op", "zone"⟩, ⟨1⟩)]⟩)] })] }).1
      ⟨"org", "app", "1.0"⟩ "policy" ⟨"op", "zone"⟩ = some ⟨2⟩ ∧
    (runIters [⟨fun _ _ => some 20⟩, ⟨fun _ _ => some 25⟩]
        (runIter false ⟨fun _ _ => some 15⟩
          { allStats := [(⟨"org", "app", "1.0"⟩,
              { zones := [(⟨"op", "zone"⟩, ⟨10, 10⟩)]
                policies := [("policy", ⟨3, 2, [(⟨"op", "zone"⟩, ⟨1⟩)]⟩)] })] }).1).2.map
      (List.count ⟨⟨"org", "app", "1.0"⟩, ⟨"op", "zone"⟩, "policy"⟩) =
      List.replicate (2 - 1) 0 ++ [1] :=
  have h := trigger_issues_create_and_restarts ⟨fun _ _ => some 15⟩
    { allStats := [(⟨"org", "app", "1.0"⟩,
        { zones := [(⟨"op", "zone"⟩, ⟨10, 10⟩)]
          policies := [("policy", ⟨3, 2, [(⟨"op", "zone"⟩, ⟨1⟩)]⟩)] })] }
    ⟨"org", "app", "1.0"⟩ "policy" ⟨"op", "zone"⟩ ⟨3, 2, [(⟨"op", "zone"⟩, ⟨1⟩)]⟩ 1 15
    (by decide) (by decide) (by decide) (by decide) (by decide) (by decide)
  ⟨h.1, h.2.1, h.2.2.2.2 [⟨fun _ _ => some 20⟩, ⟨fun _ _ => some 25⟩] (by decide) (by decide)⟩

/-! ## Independence of policies -/

/-- C12. Two policies A and B of one app both track zone `z`; an evaluation
iteration's delta for `z` meets A's `deployClientCount` but not B's.  Then A's
`deployIntervalsMet` is what steps 3 and 4 compute for a qualifying delta
(one more than before while it was below A's interval count, also when that
makes A trigger), B's is 0, and B's value is what steps 3 and 4 compute from
B's own thresholds and tracker and the delta: it is the same in every other
state `a2` in which B's tracker and the zone's `lastCount` are the same,
whatever policy A is there. -/
theorem policies_track_independently (env : IterEnv) (a : AutoProvAggr) (app : AppKey)
    (pA pB : String) (z : ZoneKey) (ptA ptB : apPolicyTracker) (trA trB : apZoneTracker)
    (c : Nat)
    (hA : getPolicy a app pA = some ptA) (hB : getPolicy a app pB = some ptB)
    (htA : mapGet z ptA.zoneTrackers = some trA) (htB : mapGet z ptB.zoneTrackers = some trB)
    (hc : env.getCount app z = some c)
    (hmeetA : ptA.deployClientCount ≤ c - lastCountOf a app z)
    (hbelowB : c - lastCountOf a app z < ptB.deployClientCount) :
    getTracker (runIter false env a).1 app pA z =
      some ⟨min ((if ptA.deployIntervalCount ≤ trA.deployIntervalsMet then 0
        else trA.deployIntervalsMet) + 1) ptA.deployIntervalCount⟩ ∧
    (trA.deployIntervalsMet < ptA.deployIntervalCount →
      getTracker (runIter false env a).1 app pA z = some ⟨trA.deployIntervalsMet + 1⟩) ∧
    getTracker (runIter false env a).1 app pB z = some ⟨0⟩ ∧
    getTracker (runIter false env a).1 app pB z =
      some (evalTracker ptB.deployClientCount ptB.deployIntervalCount
        (c - lastCountOf a app z) trB).1 ∧
    (∀ a2 : AutoProvAggr, getPolicy a2 app pB = some ptB →
      lastCountOf a2 app z = lastCountOf a app z →
      getTracker (runIter false env a2).1 app pB z =
        getTracker (runIter false env a).1 app pB z) := by
  obtain ⟨ptA1, hpA1, _, _, htA1, _⟩ := runIter_tracker env a app pA z ptA trA c hA htA hc
  obtain ⟨ptB1, hpB1, _, _, htB1, _⟩ := runIter_tracker env a app pB z ptB trB c hB htB hc
  obtain ⟨mA⟩ := trA
  refine ⟨?_, ?_, ?_, ?_, ?_⟩
  · rw [getTracker_of_policy z hpA1, htA1, evalTracker_meets _ _ _ mA hmeetA]
  · intro hlt
    rw [getTracker_of_policy z hpA1, htA1, evalTracker_step _ _ _ mA hmeetA hlt]
  · rw [getTracker_of_policy z hpB1, htB1, evalTracker_below _ _ _ trB hbelowB]
  · rw [getTracker_of_policy z hpB1, htB1]
  · intro a2 hB2 hlc
    obtain ⟨ptB2, hpB2, _, _, htB2, _⟩ := runIter_tracker env a2 app pB z ptB trB c hB2 htB hc
    rw [getTracker_of_policy z hpB2, htB2, getTracker_of_policy z hpB1, htB1, hlc]

theorem policies_track_independently_witness :
    getTracker (runIter false ⟨fun _ _ => some 15⟩
        { allStats := [(⟨"org", "app", "1.0"⟩,
            { zones := [(⟨"op", "zone"⟩, ⟨10, 10⟩)]
              policies := [("A", ⟨3, 2, [(⟨"op", "zone"⟩, ⟨1⟩)]⟩),
                           ("B", ⟨8, 9, [(⟨"op", "zone"⟩, ⟨2⟩)]⟩)] })] }).1
      ⟨"org", "app", "1.0"⟩ "A" ⟨"op", "zone"⟩ = some ⟨1 + 1⟩ ∧
    getTracker (runIter false ⟨fun _ _ => some 15⟩
        { allStats := [(⟨"org", "app", "1.0"⟩,
            { zones := [(⟨"op", "zone"⟩, ⟨10, 10⟩)]
              policies := [("A", ⟨3, 2, [(⟨"op", "zone"⟩, ⟨1⟩)]⟩),
                           ("B", ⟨8, 9, [(⟨"op", "zone"⟩, ⟨2⟩)]⟩)] })] }).1
      ⟨"org", "app", "1.0"⟩ "B" ⟨"op", "zone"⟩ = some ⟨0⟩ :=
  have h := policies_track_independently ⟨fun _ _ => some 15⟩
    { allStats := [(⟨"org", "app", "1.0"⟩,
        { zones := [(⟨"op", "zone"⟩, ⟨10, 10⟩)]
          policies := [("A", ⟨3, 2, [(⟨"op", "zone"⟩, ⟨1⟩)]⟩),
                       ("B", ⟨8, 9, [(⟨"op", "zone"⟩, ⟨2⟩)]⟩)] })] }
    ⟨"org", "app", "1.0"⟩ "A" "B" ⟨"op", "zone"⟩ ⟨3, 2, [(⟨"op", "zone"⟩, ⟨1⟩)]⟩
    ⟨8, 9, [(⟨"op", "zone"⟩, ⟨2⟩)]⟩ ⟨1⟩ ⟨2⟩ 15
    (by decide) (by decide) (by decide) (by decide) (by decide) (by decide) (by decide)
  ⟨h.2.1 (by decide), h.2.2.1⟩

/-! ## The zone records: baseline and lifetime total -/

theorem trackedZones_runIterApp (init : Bool) (env : IterEnv) (app : AppKey) (st : apAppStats) :
    trackedZones (runIterApp init env app st).1 = trackedZones st := by
  cases init
  · simp only [trackedZones, runIterApp, Bool.false_eq_true, if_false, List.flatMap_map,
      evalPolicy, List.map_map, Function.comp_def]
  · simp [trackedZones, runIterApp]

theorem zoneTracked_runIter (init : Bool) (env : IterEnv) (a : AutoProvAggr) (app : AppKey)
    (z : ZoneKey) : zoneTracked (runIter init env a).1 app z = zoneTracked a app z := by
  unfold zoneTracked
  rw [mapGet_runIter]
  cases mapGet app a.allStats with
  | none => rfl
  | some st => simp [trackedZones_runIterApp]

theorem zones_runIterApp (init : Bool) (env : IterEnv) (app : AppKey) (st : apAppStats) :
    (runIterApp init env app st).1.zones =
      (computeDeltas init (env.getCount app) (trackedZones st) st.zones []).1 := by
  cases init <;> simp [runIterApp]

/-- The zone record of a tracked (app, zone) after one iteration: steps 1 and
2 when the query succeeds, the record as it was when the query fails. -/
theorem runIter_zoneStats (init : Bool) (env : IterEnv) (a : AutoProvAggr) (app : AppKey)
    (z : ZoneKey) (st : apAppStats) (hst : mapGet app a.allStats = some st)
    (hz : z ∈ trackedZones st) :
    ∃ st1, mapGet app (runIter init env a).1.allStats = some st1 ∧
      zoneStatsOf st1.zones z =
        (match env.getCount app z with
         | none => zoneStatsOf st.zones z
         | some c => zoneStep init c (zoneStatsOf st.zones z)) := by
  refine ⟨(runIterApp init env app st).1, by rw [mapGet_runIter, hst]; rfl, ?_⟩
  rw [zones_runIterApp]
  cases hc : env.getCount app z with
  | none =>
    have := (computeDeltas_skip init (env.getCount app) z (trackedZones st) st.zones []
      (Or.inr hc)).1
    simp only [zoneStatsOf, this]
  | some c =>
    have := (computeDeltas_hit init (env.getCount app) z c (trackedZones st) st.zones []
      (List.nodup_dedup _) hz hc).1
    simp only [zoneStatsOf, this, Option.getD_some]

theorem zoneTracked_iff {a : AutoProvAggr} {app : AppKey} {z : ZoneKey}
    (h : zoneTracked a app z = true) :
    ∃ st, mapGet app a.allStats = some st ∧ z ∈ trackedZones st := by
  unfold zoneTracked at h
  cases hst : mapGet app a.allStats with
  | none => simp [hst] at h
  | some st => exact ⟨st, rfl, by simpa [hst] using h⟩

/-- Over a run of evaluation iterations the lifetime total of a tracked zone
grows by the sum of the deltas observed; if the store's answers do not
decrease, the sum is the increase of `lastCount`. -/
theorem runIters_zoneCount (app : AppKey) (z : ZoneKey) (envs : List IterEnv) :
    ∀ a : AutoProvAggr, zoneTracked a app z = true →
      zoneCountOf (runIters envs a).1 app z =
        zoneCountOf a app z + (observedDeltas app z (lastCountOf a app z) envs).sum ∧
      (storeMonotone app z (lastCountOf a app z) envs = true →
        lastCountOf (runIters envs a).1 app z =
          lastCountOf a app z + (observedDeltas app z (lastCountOf a app z) envs).sum) := by
  induction envs with
  | nil => intro a _; simp [runIters, observedDeltas]
  | cons env rest ih =>
    intro a htr
    obtain ⟨st, hst, hz⟩ := zoneTracked_iff htr
    obtain ⟨st1, hst1, hzs⟩ := runIter_zoneStats false env a app z st hst hz
    have htr1 : zoneTracked (runIter false env a).1 app z = true := by
      rw [zoneTracked_runIter]; exact htr
    obtain ⟨ih1, ih2⟩ := ih (runIter false env a).1 htr1
    have hcnt0 : zoneCountOf a app z = (zoneStatsOf st.zones z).count := by
      simp [zoneCountOf, hst]
    have hlc0 : lastCountOf a app z = (zoneStatsOf st.zones z).lastCount := by
      simp [lastCountOf, hst]
    have hcnt1 : zoneCountOf (runIter false env a).1 app z = (zoneStatsOf st1.zones z).count := by
      simp [zoneCountOf, hst1]
    have hlc1 : lastCountOf (runIter false env a).1 app z =
        (zoneStatsOf st1.zones z).lastCount := by
      simp [lastCountOf, hst1]
    have hrun : (runIters (env :: rest) a).1 = (runIters rest (runIter false env a).1).1 := rfl
    rw [hrun]
    cases hc : env.getCount app z with
    | none =>
      rw [hc] at hzs
      simp only at hzs
      simp only [observedDeltas, storeMonotone, hc]
      rw [hcnt1, hzs, ← hcnt0] at ih1
      rw [hlc1, hzs, ← hlc0] at ih1 ih2
      exact ⟨ih1, ih2⟩
    | some c =>
      rw [hc] at hzs
      simp only at hzs
      have hl : (zoneStatsOf st1.zones z).lastCount = c := by rw [hzs]; simp [zoneStep]
      have hk : (zoneStatsOf st1.zones z).count =
          zoneCountOf a app z + (c - lastCountOf a app z) := by
        rw [hzs, hcnt0, hlc0]; simp [zoneStep]
      simp only [observedDeltas, storeMonotone, hc, List.sum_cons, Bool.and_eq_true,
        decide_eq_true_eq]
      rw [hlc1, hl] at ih1 ih2
      rw [hcnt1, hk] at ih1
      refine ⟨by rw [ih1]; omega, fun hmono => ?_⟩
      rw [ih2 hmono.2]
      have := hmono.1
      omega

/-- C13. For a tracked (app, zone) whose record starts at `count = 0`, after
the init iteration (which takes the baseline `c0`) and any sequence of
evaluation iterations, `zones[zone].count` is the sum of the deltas observed
for the zone in those iterations; when the Metrics Store's answers do not
decrease, that is the latest cumulative count (`lastCount`) minus the init
baseline.  No create request or policy enters the statement. -/
theorem zone_count_is_sum_of_deltas (a : AutoProvAggr) (app : AppKey) (z : ZoneKey)
    (env0 : IterEnv) (c0 : Nat) (envs : List IterEnv)
    (htr : zoneTracked a app z = true) (hfresh : zoneCountOf a app z = 0)
    (hinit : env0.getCount app z = some c0) :
    zoneCountOf (runIters envs (runIter true env0 a).1).1 app z =
      (observedDeltas app z c0 envs).sum ∧
    (storeMonotone app z c0 envs = true →
      zoneCountOf (runIters envs (runIter true env0 a).1).1 app z =
        lastCountOf (runIters envs (runIter true env0 a).1).1 app z - c0) := by
  obtain ⟨st, hst, hz⟩ := zoneTracked_iff htr
  obtain ⟨st1, hst1, hzs⟩ := runIter_zoneStats true env0 a app z st hst hz
  rw [hinit] at hzs
  simp only at hzs
  have htr1 : zoneTracked (runIter true env0 a).1 app z = true := by
    rw [zoneTracked_runIter]; exact htr
  have hlc1 : lastCountOf (runIter true env0 a).1 app z = c0 := by
    simp [lastCountOf, hst1, hzs, zoneStep]
  have hcnt1 : zoneCountOf (runIter true env0 a).1 app z = 0 := by
    have h0 : (zoneStatsOf st.zones z).count = 0 := by
      rw [← hfresh]; simp [zoneCountOf, hst]
    simp [zoneCountOf, hst1, hzs, zoneStep, h0]
  obtain ⟨h1, h2⟩ := runIters_zoneCount app z envs (runIter true env0 a).1 htr1
  rw [hlc1, hcnt1, Nat.zero_add] at h1
  rw [hlc1] at h2
  refine ⟨h1, fun hmono => ?_⟩
  rw [h1, h2 hmono]
  omega

theorem zone_count_is_sum_of_deltas_witness :
    zoneCountOf (runIters [⟨fun _ _ => some 105⟩,
          ⟨fun _ _ => none⟩, ⟨fun _ _ => some 112⟩]
        (runIter true ⟨fun _ _ => some 100⟩
          { allStats := [(⟨"org", "app", "1.0"⟩,
              { zones := []
                policies := [("policy", ⟨3, 2, [(⟨"op", "zone"⟩, ⟨0⟩)]⟩)] })] }).1).1
      ⟨"org", "app", "1.0"⟩ ⟨"op", "zone"⟩ =
      (observedDeltas ⟨"org", "app", "1.0"⟩ ⟨"op", "zone"⟩ 100
        [⟨fun _ _ => some 105⟩, ⟨fun _ _ => none⟩,
          ⟨fun _ _ => some 112⟩]).sum :=
  (zone_count_is_sum_of_deltas
    { allStats := [(⟨"org", "app", "1.0"⟩,
        { zones := []
          policies := [("policy", ⟨3, 2, [(⟨"op", "zone"⟩, ⟨0⟩)]⟩)] })] }
    ⟨"org", "app", "1.0"⟩ ⟨"op", "zone"⟩ ⟨fun _ _ => some 100⟩ 100
    [⟨fun _ _ => some 105⟩, ⟨fun _ _ => none⟩,
      ⟨fun _ _ => some 112⟩]
    (by decide) (by decide) (by decide)).1

theorem zoneStats_untracked (init : Bool) (env : IterEnv) (app : AppKey) (z : ZoneKey)
    (st : apAppStats) (hz : z ∉ trackedZones st) :
    zoneStatsOf (runIterApp init env app st).1.zones z = zoneStatsOf st.zones z := by
  rw [zones_runIterApp]
  have := (computeDeltas_skip init (env.getCount app) z (trackedZones st) st.zones []
    (Or.inl hz)).1
  simp only [zoneStatsOf, this]

/-- C17. The init iteration (`runIter` with `init = true`) issues no create
request, leaves the policy trackers of every app (thresholds and every
`deployIntervalsMet`) as they were, adds nothing to any `zones[zone].count`,
sets the `lastCount` of every tracked (app, zone) whose query succeeds to the
count the Metrics Store returned, however large, and leaves every other
`lastCount` alone. -/
theorem init_iteration_only_sets_baseline (env : IterEnv) (a : AutoProvAggr) :
    (runIter true env a).2 = [] ∧
    (runIter true env a).1.allStats.map (fun e => (e.1, e.2.policies)) =
      a.allStats.map (fun e => (e.1, e.2.policies)) ∧
    (∀ app z, zoneCountOf (runIter true env a).1 app z = zoneCountOf a app z) ∧
    (∀ app z c, zoneTracked a app z = true → env.getCount app z = some c →
      lastCountOf (runIter true env a).1 app z = c) ∧
    (∀ app z, zoneTracked a app z = false ∨ env.getCount app z = none →
      lastCountOf (runIter true env a).1 app z = lastCountOf a app z) := by
  have hstats : ∀ app z st, mapGet app a.allStats = some st →
      zoneStatsOf (runIterApp true env app st).1.zones z =
        (if z ∈ trackedZones st then
          (match env.getCount app z with
           | none => zoneStatsOf st.zones z
           | some c => zoneStep true c (zoneStatsOf st.zones z))
         else zoneStatsOf st.zones z) := by
    intro app z st hst
    by_cases hz : z ∈ trackedZones st
    · obtain ⟨st1, hst1, hzs⟩ := runIter_zoneStats true env a app z st hst hz
      rw [mapGet_runIter, hst] at hst1
      simp only [Option.map_some', Option.some.injEq] at hst1
      rw [if_pos hz, hst1, hzs]
    · rw [if_neg hz]
      exact zoneStats_untracked true env app z st hz
  refine ⟨?_, ?_, ?_, ?_, ?_⟩
  · simp [runIter, runIterApp]
  · simp [runIter, runIterApp, List.map_map, Function.comp_def]
  · intro app z
    unfold zoneCountOf
    rw [mapGet_runIter]
    cases hst : mapGet app a.allStats with
    | none => rfl
    | some st =>
      simp only [Option.map_some', hstats app z st hst]
      split
      · cases env.getCount app z <;> simp [zoneStep]
      · rfl
  · intro app z c htr hc
    obtain ⟨st, hst, hz⟩ := zoneTracked_iff htr
    unfold lastCountOf
    rw [mapGet_runIter, hst]
    simp only [Option.map_some', hstats app z st hst, if_pos hz, hc, zoneStep, if_true]
  · intro app z h
    unfold lastCountOf
    rw [mapGet_runIter]
    cases hst : mapGet app a.allStats with
    | none => rfl
    | some st =>
      simp only [Option.map_some', hstats app z st hst]
      split
      · rename_i hz
        rcases h with h | h
        · simp [zoneTracked, hst, hz] at h
        · simp [h]
      · rfl

/-! ## Reconciliation on configuration change -/

theorem mapGet_map_key {κ ν : Type} [DecidableEq κ] (k : κ) (f : κ → ν) (l : List κ) :
    mapGet k (l.map (fun x => (x, f x))) = if k ∈ l then some (f k) else none := by
  induction l with
  | nil => simp [mapGet]
  | cons x rest ih =>
    by_cases h : x = k
    · subst h; simp [mapGet]
    · have h2 : ¬ (k = x) := fun e => h e.symm
      simp [mapGet, h, h2, ih]

theorem mapGet_reconcileZones (zones : List ZoneKey) (old : List (ZoneKey × apZoneTracker))
    (z : ZoneKey) :
    mapGet z (reconcileZones zones old) =
      if z ∈ zones then some ((mapGet z old).getD ⟨0⟩) else none := by
  unfold reconcileZones
  rw [mapGet_map_key z (fun z => (mapGet z old).getD ⟨0⟩) zones.dedup]
  simp [List.mem_dedup]

theorem keys_reconcileZones (zones : List ZoneKey) (old : List (ZoneKey × apZoneTracker)) :
    (reconcileZones zones old).map Prod.fst = zones.dedup := by
  simp [reconcileZones, List.map_map, Function.comp_def]

theorem getPolicy_updatePolicy (p : edgeproto.AutoProvPolicy) (a : AutoProvAggr)
    (app : AppKey) (q : String) :
    getPolicy (updatePolicy p a) app q =
      (getPolicy a app q).map (fun pt => if q = p.name then refreshTracker p pt else pt) := by
  unfold getPolicy updatePolicy
  simp only
  rw [mapGet_map_val app (fun e => ({ e.2 with policies := e.2.policies.map (fun q =>
        (q.1, if q.1 = p.name then refreshTracker p q.2 else q.2)) } : apAppStats)) a.allStats]
  cases mapGet app a.allStats with
  | none => rfl
  | some st =>
    simp only [Option.map_some', Option.some_bind]
    exact mapGet_map_val q (fun q => if q.1 = p.name then refreshTracker p q.2 else q.2)
      st.policies

/-- C14. After the reconciliation of a policy update, in every app that
tracks the policy the keys of the policy's `zoneTrackers` are distinct and
are exactly the policy's current `Zones`: a zone that was not tracked before
has a tracker at `deployIntervalsMet = 0`, a zone that was tracked and stays
keeps its tracker, and a zone that is not among `Zones` has none. -/
theorem updatePolicy_zoneTrackers (p : edgeproto.AutoProvPolicy) (a : AutoProvAggr)
    (app : AppKey) (pt : apPolicyTracker) (hp : getPolicy a app p.name = some pt) :
    ∃ pt1, getPolicy (updatePolicy p a) app p.name = some pt1 ∧
      (pt1.zoneTrackers.map Prod.fst).Nodup ∧
      (∀ z, z ∈ pt1.zoneTrackers.map Prod.fst ↔ z ∈ p.Zones) ∧
      (∀ z ∈ p.Zones, (pt1.zoneTrackers.map Prod.fst).count z = 1) ∧
      (∀ z ∈ p.Zones, mapGet z pt.zoneTrackers = none →
        mapGet z pt1.zoneTrackers = some ⟨0⟩) ∧
      (∀ z ∈ p.Zones, ∀ tr, mapGet z pt.zoneTrackers = some tr →
        mapGet z pt1.zoneTrackers = some tr) ∧
      (∀ z, z ∉ p.Zones → mapGet z pt1.zoneTrackers = none) := by
  refine ⟨refreshTracker p pt, ?_, ?_, ?_, ?_, ?_, ?_, ?_⟩
  · rw [getPolicy_updatePolicy, hp]; simp
  · simp only [refreshTracker, keys_reconcileZones]
    exact List.nodup_dedup _
  · intro z
    simp only [refreshTracker, keys_reconcileZones, List.mem_dedup]
  · intro z hz
    simp only [refreshTracker, keys_reconcileZones]
    exact List.count_eq_one_of_mem (List.nodup_dedup _) (List.mem_dedup.2 hz)
  · intro z hz hnone
    simp [refreshTracker, mapGet_reconcileZones, hz, hnone]
  · intro z hz tr hsome
    simp [refreshTracker, mapGet_reconcileZones, hz, hsome]
  · intro z hz
    simp [refreshTracker, mapGet_reconcileZones, hz]

theorem updatePolicy_zoneTrackers_witness :
    ∃ pt1, getPolicy (updatePolicy ⟨"policy", 6, 4, [⟨"op", "zone"⟩, ⟨"foo", "blah"⟩]⟩
        { allStats := [(⟨"org", "app", "1.0"⟩,
            { zones := [(⟨"op", "zone"⟩, ⟨10, 10⟩)]
              policies := [("policy", ⟨3, 2, [(⟨"op", "zone"⟩, ⟨1⟩)]⟩)] })] })
        ⟨"org", "app", "1.0"⟩ "policy" = some pt1 ∧
      mapGet ⟨"op", "zone"⟩ pt1.zoneTrackers = some ⟨1⟩ ∧
      mapGet ⟨"foo", "blah"⟩ pt1.zoneTrackers = some ⟨0⟩ := by
  obtain ⟨pt1, h1, _, _, _, hnew, hkept, _⟩ := updatePolicy_zoneTrackers
    ⟨"policy", 6, 4, [⟨"op", "zone"⟩, ⟨"foo", "blah"⟩]⟩
    { allStats := [(⟨"org", "app", "1.0"⟩,
        { zones := [(⟨"op", "zone"⟩, ⟨10, 10⟩)]
          policies := [("policy", ⟨3, 2, [(⟨"op", "zone"⟩, ⟨1⟩)]⟩)] })] }
    ⟨"org", "app", "1.0"⟩ ⟨3, 2, [(⟨"op", "zone"⟩, ⟨1⟩)]⟩ (by decide)
  exact ⟨pt1, h1, hkept ⟨"op", "zone"⟩ (by decide) ⟨1⟩ (by decide),
    hnew ⟨"foo", "blah"⟩ (by decide) (by decide)⟩

/-- C15. After the reconciliation of a policy update, the tracker of that
policy in every app that has one holds the policy's new `DeployClientCount`
and `DeployIntervalCount`, and the zones that stay in the policy keep their
`deployIntervalsMet`; the trackers of every other policy, the set of tracked
apps and every zone record are as they were. -/
theorem updatePolicy_thresholds (p : edgeproto.AutoProvPolicy) (a : AutoProvAggr) :
    (∀ app pt, getPolicy a app p.name = some pt →
      ∃ pt1, getPolicy (updatePolicy p a) app p.name = some pt1 ∧
        pt1.deployClientCount = p.DeployClientCount ∧
        pt1.deployIntervalCount = p.DeployIntervalCount ∧
        ∀ z ∈ p.Zones, ∀ tr, mapGet z pt.zoneTrackers = some tr →
          mapGet z pt1.zoneTrackers = some tr) ∧
    (∀ app q, q ≠ p.name → getPolicy (updatePolicy p a) app q = getPolicy a app q) ∧
    (updatePolicy p a).allStats.map (fun e => (e.1, e.2.zones)) =
      a.allStats.map (fun e => (e.1, e.2.zones)) := by
  refine ⟨?_, ?_, ?_⟩
  · intro app pt hp
    refine ⟨refreshTracker p pt, by rw [getPolicy_updatePolicy, hp]; simp, rfl, rfl, ?_⟩
    intro z hz tr hsome
    simp [refreshTracker, mapGet_reconcileZones, hz, hsome]
  · intro app q hq
    rw [getPolicy_updatePolicy]
    cases getPolicy a app q <;> simp [hq]
  · simp [updatePolicy, List.map_map, Function.comp_def]

theorem mapGet_mapErase_self {κ ν : Type} [DecidableEq κ] (k : κ) (l : List (κ × ν)) :
    mapGet k (mapErase k l) = none := by
  induction l with
  | nil => rfl
  | cons e rest ih =>
    obtain ⟨k', v'⟩ := e
    by_cases h : k' = k
    · simpa [mapErase, h] using ih
    · have : mapGet k (mapErase k rest) = none := ih
      simp [mapErase, h, mapGet] at this ⊢
      exact this

theorem mapGet_mapErase_ne {κ ν : Type} [DecidableEq κ] {k k' : κ} (l : List (κ × ν))
    (h : k' ≠ k) : mapGet k' (mapErase k l) = mapGet k' l := by
  unfold mapErase
  induction l with
  | nil => rfl
  | cons e rest ih =>
    obtain ⟨k1, v1⟩ := e
    by_cases h1 : k1 = k
    · subst h1
      have h2 : ¬ (k1 = k') := fun e => h e.symm
      rw [List.filter_cons_of_neg (by simp)]
      simp only [mapGet, h2, if_false]
      exact ih
    · rw [List.filter_cons_of_pos (by simp [h1])]
      by_cases h2 : k1 = k'
      · simp [mapGet, h2]
      · simp only [mapGet, h2, if_false]
        exact ih

theorem mapGet_filterMap_key {κ ν μ : Type} [DecidableEq κ] (k : κ) (f : κ → Option μ)
    (g : κ → μ → ν) (l : List κ) :
    mapGet k (l.filterMap (fun x => (f x).map (fun v => (x, g x v)))) =
      if k ∈ l then (f k).map (g k) else none := by
  induction l with
  | nil => simp [mapGet]
  | cons x rest ih =>
    by_cases h : x = k
    · subst h
      cases hf : f x with
      | none =>
        simp only [List.filterMap_cons, hf, Option.map_none', List.mem_cons, true_or, if_true]
        rw [ih]
        split <;> simp [hf]
      | some v => simp [List.filterMap_cons, hf, mapGet]
    · have h2 : ¬ (k = x) := fun e => h e.symm
      cases hf : f x with
      | none => simp [List.filterMap_cons, hf, h2, ih]
      | some v => simp [List.filterMap_cons, hf, mapGet, h, h2, ih]

theorem keys_filterMap_nodup {κ ν μ : Type} (f : κ → Option μ) (g : κ → μ → ν) (l : List κ)
    (h : l.Nodup) :
    ((l.filterMap (fun x => (f x).map (fun v => (x, g x v)))).map Prod.fst).Nodup := by
  have hsub : List.Sublist ((l.filterMap (fun x => (f x).map (fun v => (x, g x v)))).map
      Prod.fst) l := by
    induction l with
    | nil => simp
    | cons x rest ih =>
      cases hf : f x with
      | none =>
        simp only [List.filterMap_cons, hf, Option.map_none']
        exact List.Sublist.cons _ (ih (List.nodup_cons.1 h).2)
      | some v =>
        simp only [List.filterMap_cons, hf, Option.map_some', List.map_cons]
        exact List.Sublist.cons₂ _ (ih (List.nodup_cons.1 h).2)
  exact hsub.nodup h

/-- After the reconciliation of an app update, the aggregator holds
state for the app if and only if the app's policy list is non-empty and every
policy it names exists in the policy cache; when it holds state, the
`PolicyTracker` entries are those of exactly the listed policies, one each,
a policy that was tracked before keeping its tracker; an empty policy list
leaves no state for the app; the state of every other app is untouched. -/
theorem updateApp_state_iff (cache : List edgeproto.AutoProvPolicy) (app : edgeproto.App)
    (a : AutoProvAggr) :
    ((mapGet app.key (updateApp cache app a).allStats).isSome = true ↔
      (app.AutoProvPolicies ≠ [] ∧
        ∀ n ∈ app.AutoProvPolicies, (findPolicy cache n).isSome = true)) ∧
    (∀ st, mapGet app.key (updateApp cache app a).allStats = some st →
      (st.policies.map Prod.fst).Nodup ∧
      (∀ n, (mapGet n st.policies).isSome = true ↔ n ∈ app.AutoProvPolicies) ∧
      (∀ n ∈ app.AutoProvPolicies, ∀ st0 pt, mapGet app.key a.allStats = some st0 →
        mapGet n st0.policies = some pt → mapGet n st.policies = some pt)) ∧
    (app.AutoProvPolicies = [] → mapGet app.key (updateApp cache app a).allStats = none) ∧
    (∀ k, k ≠ app.key →
      mapGet k (updateApp cache app a).allStats = mapGet k a.allStats) := by
  by_cases hcond : app.AutoProvPolicies ≠ [] ∧
      ∀ n ∈ app.AutoProvPolicies, (findPolicy cache n).isSome = true
  · have hget : mapGet app.key (updateApp cache app a).allStats =
        some { zones := ((mapGet app.key a.allStats).getD ⟨[], []⟩).zones
               policies := app.AutoProvPolicies.dedup.filterMap (fun n =>
                 (findPolicy cache n).map (fun p =>
                   (n, (mapGet n ((mapGet app.key a.allStats).getD ⟨[], []⟩).policies).getD
                     (newTracker p)))) } := by
      rw [updateApp, if_pos hcond]
      exact mapGet_mapSet_self _ _ _
    have hpol : ∀ n, mapGet n (app.AutoProvPolicies.dedup.filterMap (fun n =>
          (findPolicy cache n).map (fun p =>
            (n, (mapGet n ((mapGet app.key a.allStats).getD ⟨[], []⟩).policies).getD
              (newTracker p))))) =
        if n ∈ app.AutoProvPolicies then
          (findPolicy cache n).map (fun p =>
            (mapGet n ((mapGet app.key a.allStats).getD ⟨[], []⟩).policies).getD (newTracker p))
        else none := by
      intro n
      rw [mapGet_filterMap_key n (findPolicy cache) (fun n p =>
        (mapGet n ((mapGet app.key a.allStats).getD ⟨[], []⟩).policies).getD (newTracker p))]
      simp [List.mem_dedup]
    refine ⟨?_, ?_, ?_, ?_⟩
    · rw [hget]
      simp only [Option.isSome_some, true_iff]
      exact hcond
    · intro st hst
      rw [hget] at hst
      simp only [Option.some.injEq] at hst
      subst hst
      refine ⟨keys_filterMap_nodup _ _ _ (List.nodup_dedup _), ?_, ?_⟩
      · intro n
        simp only
        rw [hpol n]
        by_cases hn : n ∈ app.AutoProvPolicies
        · have := hcond.2 n hn
          cases hf : findPolicy cache n with
          | none => simp [hf] at this
          | some p => simp [hn]
        · simp [hn]
      · intro n hn st0 pt hst0 hpt
        simp only
        rw [hpol n, if_pos hn]
        have := hcond.2 n hn
        cases hf : findPolicy cache n with
        | none => simp [hf] at this
        | some p => simp [hst0, hpt]
    · intro hempty
      exact absurd hempty hcond.1
    · intro k hk
      rw [updateApp, if_pos hcond]
      exact mapGet_mapSet_ne _ _ hk
  · have hget : mapGet app.key (updateApp cache app a).allStats = none := by
      rw [updateApp, if_neg hcond]
      exact mapGet_mapErase_self _ _
    refine ⟨?_, ?_, ?_, ?_⟩
    · rw [hget]
      simp only [Option.isSome_none, Bool.false_eq_true, false_iff]
      exact hcond
    · intro st hst
      rw [hget] at hst
      cases hst
    · intro _
      exact hget
    · intro k hk
      rw [updateApp, if_neg hcond]
      exact mapGet_mapErase_ne _ hk

/-! ## Settings, and the operations that keep the entries -/

/-- C20. `UpdateSettings v` completes in every generator state, leaves the
shards (every entry's `count` and `lastCount`) unchanged, and sets the
interval to `v`.  The export loop is stopped and started again exactly when
`v` differs from the current interval and the loop was running; otherwise
the loop is not touched.  When `v` equals the current interval the whole
state is unchanged. -/
theorem UpdateSettings_spec (v : Rat) (s : AutoProvStats) :
    ∃ s1 ev, UpdateSettings v s = some (s1, ev) ∧
      s1.shards = s.shards ∧ s1.numShards = s.numShards ∧ s1.running = s.running ∧
      s1.offsetSec = s.offsetSec ∧ s1.nodeName = s.nodeName ∧ s1.intervalSec = v ∧
      ev = (if v ≠ s.intervalSec ∧ s.running = true
            then [LoopEvent.stopped, LoopEvent.started] else []) ∧
      (v = s.intervalSec → s1 = s) := by
  by_cases hv : s.intervalSec = v
  · refine ⟨s, [], by simp [UpdateSettings, hv], rfl, rfl, rfl, rfl, rfl, hv, ?_, fun _ => rfl⟩
    simp [hv.symm]
  · have hv2 : ¬ (v = s.intervalSec) := fun e => hv e.symm
    by_cases hr : s.running = true
    · refine ⟨{ s with intervalSec := v }, [LoopEvent.stopped, LoopEvent.started], ?_, rfl, rfl,
        rfl, rfl, rfl, rfl, by simp [hv2, hr], fun e => absurd e hv2⟩
      simp [UpdateSettings, hv, hr, Stop, Start]
    · refine ⟨{ s with intervalSec := v }, [], by simp [UpdateSettings, hv, hr], rfl, rfl,
        rfl, rfl, rfl, rfl, by simp [hr], fun e => absurd e hv2⟩

/-- `UpdateSettings` completes and leaves the shards as they are. -/
theorem UpdateSettings_frame (v : Rat) (s : AutoProvStats) :
    ∃ s1 ev, UpdateSettings v s = some (s1, ev) ∧
      s1.shards = s.shards ∧ s1.numShards = s.numShards := by
  by_cases hv : s.intervalSec = v
  · exact ⟨s, [], by simp [UpdateSettings, hv], rfl, rfl⟩
  · by_cases hr : s.running = true
    · exact ⟨{ s with intervalSec := v }, [LoopEvent.stopped, LoopEvent.started],
        by simp [UpdateSettings, hv, hr, Stop, Start], rfl, rfl⟩
    · exact ⟨{ s with intervalSec := v }, [], by simp [UpdateSettings, hv, hr], rfl, rfl⟩

theorem Increment_some_index {G : AppZoneKeyPair → Nat → Nat} {s : AutoProvStats}
    {appKey : AppKey} {zoneKey : ZoneKey} {policy : AutoProvPolicy}
    {r : AutoProvStats × List AutoProvCountsMsg}
    (h : Increment G s appKey zoneKey policy = some r) :
    G ⟨appKey, zoneKey⟩ s.numShards < s.shards.length := by
  by_contra hlt
  have hnone : s.shards[G ⟨appKey, zoneKey⟩ s.numShards]? = none :=
    List.getElem?_eq_none (Nat.le_of_not_lt hlt)
  simp [Increment, hnone] at h

/-- The state `Increment` leaves. -/
theorem Increment_state (G : AppZoneKeyPair → Nat → Nat) (s s1 : AutoProvStats)
    (appKey : AppKey) (zoneKey : ZoneKey) (policy : AutoProvPolicy)
    (msgs : List AutoProvCountsMsg)
    (h : Increment G s appKey zoneKey policy = some (s1, msgs)) :
    ∃ shard, s.shards[G ⟨appKey, zoneKey⟩ s.numShards]? = some shard ∧
      s1 = { s with shards := (s.shards.set (G ⟨appKey, zoneKey⟩ s.numShards)
        (mapSet ⟨appKey, zoneKey⟩
          ⟨(((mapGet ⟨appKey, zoneKey⟩ shard).getD ⟨0, 0⟩).count + 1) % 2 ^ 64,
            ((mapGet ⟨appKey, zoneKey⟩ shard).getD ⟨0, 0⟩).lastCount⟩ shard)) } := by
  obtain ⟨shard, c1, msgs1, hs, hc1, _, hinc⟩ :=
    Increment_eq G s appKey zoneKey policy (Increment_some_index h)
  rw [hinc] at h
  simp only [Option.some.injEq, Prod.mk.injEq] at h
  exact ⟨shard, hs, by rw [← h.1, hc1]⟩

theorem countOf_Increment (G : AppZoneKeyPair → Nat → Nat) (s s1 : AutoProvStats)
    (appKey : AppKey) (zoneKey : ZoneKey) (policy : AutoProvPolicy)
    (msgs : List AutoProvCountsMsg) (key : AppZoneKeyPair)
    (h : Increment G s appKey zoneKey policy = some (s1, msgs)) :
    countOf G s1 key =
      if (⟨appKey, zoneKey⟩ : AppZoneKeyPair) = key then (countOf G s key + 1) % 2 ^ 64
      else countOf G s key := by
  have hidx := Increment_some_index h
  obtain ⟨shard, hs, rfl⟩ := Increment_state G s s1 appKey zoneKey policy msgs h
  unfold countOf
  rw [getCounts_eq_entryAt, getCounts_eq_entryAt]
  show (match entryAt _ (G key s.numShards) key with | none => 0 | some c => c.count) = _
  by_cases hk : (⟨appKey, zoneKey⟩ : AppZoneKeyPair) = key
  · subst hk
    rw [entryAt_set_self _ _ _ _ hidx, mapGet_mapSet_self, if_pos rfl]
    simp only [entryAt, hs, Option.some_bind]
    cases mapGet (⟨appKey, zoneKey⟩ : AppZoneKeyPair) shard <;> rfl
  · rw [if_neg hk]
    have hk2 : key ≠ ⟨appKey, zoneKey⟩ := fun e => hk e.symm
    by_cases hi : G ⟨appKey, zoneKey⟩ s.numShards = G key s.numShards
    · rw [← hi, entryAt_set_self _ _ _ _ hidx, mapGet_mapSet_ne _ _ hk2]
      simp only [entryAt, hs, Option.some_bind]
    · rw [entryAt_set_ne _ _ _ _ _ hi]

theorem countOf_exportPass (G : AppZoneKeyPair → Nat → Nat) (now : Nat) (s : AutoProvStats)
    (key : AppZoneKeyPair) : countOf G (exportPass now s).1 key = countOf G s key := by
  unfold countOf getCounts
  have hnum : (exportPass now s).1.numShards = s.numShards := rfl
  rw [hnum, exportPass_shards, List.getElem?_map]
  cases s.shards[G key s.numShards]? with
  | none => rfl
  | some sh =>
    simp only [Option.map_some', Option.some_bind]
    rw [mapGet_map_val key (fun e => (⟨e.2.count, e.2.count⟩ : AutoProvCounts)) sh]
    cases mapGet key sh <;> rfl

theorem countOf_congr (G : AppZoneKeyPair → Nat → Nat) (s s1 : AutoProvStats)
    (key : AppZoneKeyPair) (h1 : s1.shards = s.shards) (h2 : s1.numShards = s.numShards) :
    countOf G s1 key = countOf G s key := by
  unfold countOf getCounts
  rw [h1, h2]

/-- An operation other than `Clear` and `Prune` changes the count held for a
key only by the increment of that key. -/
theorem countOf_applyOp (G : AppZoneKeyPair → Nat → Nat) (M : AppKey → AppKey → Bool)
    (op : GenOp) (s s1 : AutoProvStats) (key : AppZoneKeyPair)
    (hkeep : op.keepsEntries = true) (h : applyOp G M op s = some s1) :
    countOf G s1 key = (countOf G s key + incrementsOf key [op]) % 2 ^ 64 ∨
    (incrementsOf key [op] = 0 ∧ countOf G s1 key = countOf G s key) := by
  cases op with
  | increment appKey zoneKey policy =>
    simp only [applyOp, Option.map_eq_some'] at h
    obtain ⟨⟨s2, msgs⟩, hinc, rfl⟩ := h
    have := countOf_Increment G s s2 appKey zoneKey policy msgs key hinc
    by_cases hk : (⟨appKey, zoneKey⟩ : AppZoneKeyPair) = key
    · left
      simp only [this, hk, if_true, incrementsOf, Nat.add_zero]
    · right
      simp only [this, hk, if_false, incrementsOf, Nat.add_zero, and_self]
  | exportPass now =>
    simp only [applyOp, Option.some.injEq] at h
    subst h
    exact Or.inr ⟨rfl, countOf_exportPass G now s key⟩
  | updateSettings v =>
    obtain ⟨s2, ev, hu, hsh, hn⟩ := UpdateSettings_frame v s
    simp only [applyOp, hu, Option.map_some', Option.some.injEq] at h
    subst h
    exact Or.inr ⟨rfl, countOf_congr G s s2 key hsh hn⟩
  | clear appKey policy => simp [GenOp.keepsEntries] at hkeep
  | prune apps => simp [GenOp.keepsEntries] at hkeep
  | start =>
    simp only [applyOp, Option.some.injEq] at h
    subst h
    refine Or.inr ⟨rfl, countOf_congr G s _ key ?_ ?_⟩ <;> simp only [Start] <;> split <;> rfl
  | stop =>
    simp only [applyOp, Stop, Option.map_eq_some'] at h
    obtain ⟨r, hr, rfl⟩ := h
    split at hr
    · simp only [Option.some.injEq] at hr
      subst hr
      exact Or.inr ⟨rfl, countOf_congr G s _ key rfl rfl⟩
    · cases hr

theorem incrementsOf_cons (key : AppZoneKeyPair) (op : GenOp) (rest : List GenOp) :
    incrementsOf key (op :: rest) = incrementsOf key [op] + incrementsOf key rest := by
  cases op <;> simp [incrementsOf]

theorem countOf_runOps (G : AppZoneKeyPair → Nat → Nat) (M : AppKey → AppKey → Bool)
    (key : AppZoneKeyPair) (ops : List GenOp) :
    ∀ s s1 : AutoProvStats, (∀ op ∈ ops, op.keepsEntries = true) →
      runOps G M ops s = some s1 → countOf G s key + incrementsOf key ops < 2 ^ 64 →
      countOf G s1 key = countOf G s key + incrementsOf key ops := by
  induction ops with
  | nil =>
    intro s s1 _ hrun _
    simp only [runOps, Option.some.injEq] at hrun
    subst hrun
    rfl
  | cons op rest ih =>
    intro s s1 hkeep hrun hno
    rw [incrementsOf_cons] at hno ⊢
    cases hop : applyOp G M op s with
    | none => simp [runOps, hop] at hrun
    | some s2 =>
      simp only [runOps, hop] at hrun
      have hstep := countOf_applyOp G M op s s2 key (hkeep op (List.mem_cons_self _ _)) hop
      have h2 : countOf G s2 key = countOf G s key + incrementsOf key [op] := by
        rcases hstep with h | ⟨h0, h⟩
        · rw [h, Nat.mod_eq_of_lt (by omega)]
        · rw [h, h0, Nat.add_zero]
      have := ih s2 s1 (fun o ho => hkeep o (List.mem_cons_of_mem _ ho)) hrun (by omega)
      omega

/-- C19 as stated fails: after two `Increment`s of a key its count is 2;
after a following `Clear` of the app and one more `Increment` it is 1. -/
theorem count_decreases_after_Clear :
    ∃ s1 s2,
      runOps (fun _ _ => 0) (fun m o => decide (m = o))
        [GenOp.increment ⟨"org", "app", "1.0"⟩ ⟨"op", "zone"⟩ ⟨3, 2⟩,
         GenOp.increment ⟨"org", "app", "1.0"⟩ ⟨"op", "zone"⟩ ⟨3, 2⟩]
        (InitAutoProvStats 300 0 1 "dme") = some s1 ∧
      runOps (fun _ _ => 0) (fun m o => decide (m = o))
        [GenOp.increment ⟨"org", "app", "1.0"⟩ ⟨"op", "zone"⟩ ⟨3, 2⟩,
         GenOp.increment ⟨"org", "app", "1.0"⟩ ⟨"op", "zone"⟩ ⟨3, 2⟩,
         GenOp.clear ⟨"org", "app", "1.0"⟩ "policy",
         GenOp.increment ⟨"org", "app", "1.0"⟩ ⟨"op", "zone"⟩ ⟨3, 2⟩]
        (InitAutoProvStats 300 0 1 "dme") = some s2 ∧
      countOf (fun _ _ => 0) s1 ⟨⟨"org", "app", "1.0"⟩, ⟨"op", "zone"⟩⟩ = 2 ∧
      countOf (fun _ _ => 0) s2 ⟨⟨"org", "app", "1.0"⟩, ⟨"op", "zone"⟩⟩ = 1 := by
  refine ⟨{ shards := [[(⟨⟨"org", "app", "1.0"⟩, ⟨"op", "zone"⟩⟩, ⟨2, 0⟩)]], numShards := 1,
            intervalSec := 300, offsetSec := 0, nodeName := "dme", running := false },
          { shards := [[(⟨⟨"org", "app", "1.0"⟩, ⟨"op", "zone"⟩⟩, ⟨1, 0⟩)]], numShards := 1,
            intervalSec := 300, offsetSec := 0, nodeName := "dme", running := false },
          ?_, ?_, ?_, ?_⟩
  · simp [runOps, applyOp, Increment, InitAutoProvStats, mapGet, mapSet, fastPathCond,
      toUint32, sub64]
  · simp [runOps, applyOp, Increment, Clear, InitAutoProvStats, mapGet, mapSet, fastPathCond,
      toUint32, sub64]
  · simp [countOf, getCounts, mapGet]
  · simp [countOf, getCounts, mapGet]

/-- C19, amended.  Over every sequence of operations other than `Clear` and
`Prune` (`Increment`s of any keys, export passes, `UpdateSettings`, `Start`,
`Stop`) that completes, and absent overflow of the 64-bit count, the count the
generator holds for a key is never smaller after the sequence than before it:
it has grown by the number of `Increment`s of that key. -/
theorem count_monotone_without_Clear (G : AppZoneKeyPair → Nat → Nat)
    (M : AppKey → AppKey → Bool) (key : AppZoneKeyPair) (ops : List GenOp)
    (s s1 : AutoProvStats) (hkeep : ∀ op ∈ ops, op.keepsEntries = true)
    (hrun : runOps G M ops s = some s1)
    (hno : countOf G s key + incrementsOf key ops < 2 ^ 64) :
    countOf G s key ≤ countOf G s1 key ∧
    countOf G s1 key = countOf G s key + incrementsOf key ops := by
  have h := countOf_runOps G M key ops s s1 hkeep hrun hno
  exact ⟨by omega, h⟩

theorem count_monotone_without_Clear_witness :
    countOf (fun _ _ => 0)
        { shards := [[(⟨⟨"org", "app", "1.0"⟩, ⟨"op", "zone"⟩⟩, ⟨7, 4⟩)]], numShards := 1,
          intervalSec := 300, offsetSec := 0, nodeName := "dme", running := true }
        ⟨⟨"org", "app", "1.0"⟩, ⟨"op", "zone"⟩⟩ ≤
      countOf (fun _ _ => 0)
        { shards := [[(⟨⟨"org", "app", "1.0"⟩, ⟨"op", "zone"⟩⟩, ⟨8, 8⟩)]], numShards := 1,
          intervalSec := 60, offsetSec := 0, nodeName := "dme", running := true }
        ⟨⟨"org", "app", "1.0"⟩, ⟨"op", "zone"⟩⟩ :=
  (count_monotone_without_Clear (fun _ _ => 0) (fun m o => decide (m = o))
    ⟨⟨"org", "app", "1.0"⟩, ⟨"op", "zone"⟩⟩
    [GenOp.increment ⟨"org", "app", "1.0"⟩ ⟨"op", "zone"⟩ ⟨3, 2⟩, GenOp.exportPass 12,
      GenOp.updateSettings 60]
    { shards := [[(⟨⟨"org", "app", "1.0"⟩, ⟨"op", "zone"⟩⟩, ⟨7, 4⟩)]], numShards := 1,
      intervalSec := 300, offsetSec := 0, nodeName := "dme", running := true }
    { shards := [[(⟨⟨"org", "app", "1.0"⟩, ⟨"op", "zone"⟩⟩, ⟨8, 8⟩)]], numShards := 1,
      intervalSec := 60, offsetSec := 0, nodeName := "dme", running := true }
    (by decide)
    (by simp [runOps, applyOp, Increment, exportPass, exportShards, exportShard, UpdateSettings,
      Stop, Start, mapGet, mapSet, fastPathCond, toUint32, sub64])
    (by decide)).1

/-! ## Sharding -/

theorem WF_iff (G : AppZoneKeyPair → Nat → Nat) (s : AutoProvStats) :
    WF G s ↔ s.shards.length = s.numShards ∧
      ∀ i sh, s.shards[i]? = some sh →
        (sh.map Prod.fst).Nodup ∧ ∀ e ∈ sh, G e.1 s.numShards = i := by
  unfold WF ShardWF
  constructor
  · rintro ⟨h1, h2⟩
    exact ⟨h1, fun i sh hi => h2 (i, sh) (List.mk_mem_enum_iff_getElem?.2 hi)⟩
  · rintro ⟨h1, h2⟩
    exact ⟨h1, fun p hp => h2 p.1 p.2 (List.mem_enum_iff_getElem?.1 hp)⟩

theorem mem_mapSet {κ ν : Type} [DecidableEq κ] {k : κ} {v : ν} {l : List (κ × ν)}
    {e : κ × ν} (h : e ∈ mapSet k v l) : e = (k, v) ∨ e ∈ l := by
  induction l with
  | nil => simpa [mapSet] using h
  | cons x rest ih =>
    obtain ⟨k', v'⟩ := x
    by_cases hk : k' = k
    · simp only [mapSet, hk, if_true, List.mem_cons] at h
      rcases h with h | h
      · exact Or.inl h
      · exact Or.inr (List.mem_cons_of_mem _ h)
    · simp only [mapSet, hk, if_false, List.mem_cons] at h
      rcases h with h | h
      · exact Or.inr (by rw [h]; exact List.mem_cons_self _ _)
      · rcases ih h with h | h
        · exact Or.inl h
        · exact Or.inr (List.mem_cons_of_mem _ h)

theorem mapSet_nodup {κ ν : Type} [DecidableEq κ] (k : κ) (v : ν) (l : List (κ × ν))
    (h : (l.map Prod.fst).Nodup) : ((mapSet k v l).map Prod.fst).Nodup := by
  induction l with
  | nil => simp [mapSet]
  | cons x rest ih =>
    obtain ⟨k', v'⟩ := x
    simp only [List.map_cons, List.nodup_cons] at h
    by_cases hk : k' = k
    · subst hk
      simp only [mapSet, if_true, List.map_cons, List.nodup_cons]
      exact h
    · simp only [mapSet, hk, if_false, List.map_cons, List.nodup_cons]
      refine ⟨?_, ih h.2⟩
      intro hmem
      obtain ⟨e, he, hfst⟩ := List.mem_map.1 hmem
      rcases mem_mapSet he with he | he
      · rw [he] at hfst
        exact hk hfst.symm
      · exact h.1 (List.mem_map.2 ⟨e, he, hfst⟩)

/-- Well-formedness is kept when every shard is replaced by one whose keys
are a sublist of its keys. -/
theorem WF_of_sublist_keys (G : AppZoneKeyPair → Nat → Nat) (s s1 : AutoProvStats)
    (f : AutoProvStatsShard → AutoProvStatsShard)
    (hf : ∀ sh, List.Sublist ((f sh).map Prod.fst) (sh.map Prod.fst))
    (hsh : s1.shards = s.shards.map f) (hn : s1.numShards = s.numShards) (hWF : WF G s) :
    WF G s1 := by
  rw [WF_iff] at hWF ⊢
  obtain ⟨h1, h2⟩ := hWF
  refine ⟨by rw [hsh, hn, List.length_map]; exact h1, ?_⟩
  intro i sh1 hi
  rw [hsh, List.getElem?_map] at hi
  cases hsi : s.shards[i]? with
  | none => simp [hsi] at hi
  | some sh =>
    simp only [hsi, Option.map_some', Option.some.injEq] at hi
    subst hi
    obtain ⟨hnd, hidx⟩ := h2 i sh hsi
    refine ⟨(hf sh).nodup hnd, ?_⟩
    intro e he
    have : e.1 ∈ sh.map Prod.fst := (hf sh).subset (List.mem_map.2 ⟨e, he, rfl⟩)
    obtain ⟨e0, he0, hfst⟩ := List.mem_map.1 this
    rw [hn, ← hfst]
    exact hidx e0 he0

theorem WF_congr (G : AppZoneKeyPair → Nat → Nat) (s s1 : AutoProvStats)
    (hsh : s1.shards = s.shards) (hn : s1.numShards = s.numShards) (hWF : WF G s) :
    WF G s1 := by
  unfold WF at hWF ⊢
  rw [hsh, hn]
  exact hWF

theorem WF_Increment (G : AppZoneKeyPair → Nat → Nat) (s s1 : AutoProvStats)
    (appKey : AppKey) (zoneKey : ZoneKey) (policy : AutoProvPolicy)
    (msgs : List AutoProvCountsMsg) (hWF : WF G s)
    (h : Increment G s appKey zoneKey policy = some (s1, msgs)) : WF G s1 := by
  obtain ⟨shard, hs, rfl⟩ := Increment_state G s s1 appKey zoneKey policy msgs h
  rw [WF_iff] at hWF ⊢
  obtain ⟨h1, h2⟩ := hWF
  refine ⟨by simpa using h1, ?_⟩
  intro i sh hi
  simp only [List.getElem?_set] at hi
  by_cases hidx : G ⟨appKey, zoneKey⟩ s.numShards = i
  · subst hidx
    have hlt := Increment_some_index h
    simp only [if_true, hlt] at hi
    simp only [Option.some.injEq] at hi
    subst hi
    obtain ⟨hnd, hplace⟩ := h2 _ shard hs
    refine ⟨mapSet_nodup _ _ _ hnd, ?_⟩
    intro e he
    rcases mem_mapSet he with he | he
    · rw [he]
    · exact hplace e he
  · simp only [hidx, if_false] at hi
    exact h2 i sh hi

theorem WF_applyOp (G : AppZoneKeyPair → Nat → Nat) (M : AppKey → AppKey → Bool)
    (op : GenOp) (s s1 : AutoProvStats) (hWF : WF G s) (h : applyOp G M op s = some s1) :
    WF G s1 ∧ s1.numShards = s.numShards := by
  cases op with
  | increment appKey zoneKey policy =>
    simp only [applyOp, Option.map_eq_some'] at h
    obtain ⟨⟨s2, msgs⟩, hinc, rfl⟩ := h
    refine ⟨WF_Increment G s s2 appKey zoneKey policy msgs hWF hinc, ?_⟩
    obtain ⟨shard, _, rfl⟩ := Increment_state G s s2 appKey zoneKey policy msgs hinc
    rfl
  | exportPass now =>
    simp only [applyOp, Option.some.injEq] at h
    subst h
    refine ⟨WF_of_sublist_keys G s _
      (fun sh => sh.map (fun e => (e.1, (⟨e.2.count, e.2.count⟩ : AutoProvCounts)))) ?_
      (exportPass_shards now s) rfl hWF, rfl⟩
    intro sh
    simp [List.map_map, Function.comp_def]
  | updateSettings v =>
    obtain ⟨s2, ev, hu, hsh, hn⟩ := UpdateSettings_frame v s
    simp only [applyOp, hu, Option.map_some', Option.some.injEq] at h
    subst h
    exact ⟨WF_congr G s s2 hsh hn hWF, hn⟩
  | clear appKey policy =>
    simp only [applyOp, Option.some.injEq] at h
    subst h
    exact ⟨WF_of_sublist_keys G s _ (fun sh => sh.filter (fun e => !(M e.1.appKey appKey)))
      (fun sh => (List.filter_sublist sh).map Prod.fst) rfl rfl hWF, rfl⟩
  | prune apps =>
    simp only [applyOp, Option.some.injEq] at h
    subst h
    exact ⟨WF_of_sublist_keys G s _ (fun sh => sh.filter (fun e => decide (e.1.appKey ∈ apps)))
      (fun sh => (List.filter_sublist sh).map Prod.fst) rfl rfl hWF, rfl⟩
  | start =>
    simp only [applyOp, Option.some.injEq] at h
    subst h
    have h1 : (Start s).1.shards = s.shards := by simp only [Start]; split <;> rfl
    have h2 : (Start s).1.numShards = s.numShards := by simp only [Start]; split <;> rfl
    exact ⟨WF_congr G s _ h1 h2 hWF, h2⟩
  | stop =>
    simp only [applyOp, Stop, Option.map_eq_some'] at h
    obtain ⟨r, hr, rfl⟩ := h
    split at hr
    · simp only [Option.some.injEq] at hr
      subst hr
      exact ⟨WF_congr G s _ rfl rfl hWF, rfl⟩
    · cases hr

theorem WF_runOps (G : AppZoneKeyPair → Nat → Nat) (M : AppKey → AppKey → Bool)
    (ops : List GenOp) :
    ∀ s s1 : AutoProvStats, WF G s → runOps G M ops s = some s1 →
      WF G s1 ∧ s1.numShards = s.numShards := by
  induction ops with
  | nil =>
    intro s s1 hWF hrun
    simp only [runOps, Option.some.injEq] at hrun
    subst hrun
    exact ⟨hWF, rfl⟩
  | cons op rest ih =>
    intro s s1 hWF hrun
    cases hop : applyOp G M op s with
    | none => simp [runOps, hop] at hrun
    | some s2 =>
      simp only [runOps, hop] at hrun
      obtain ⟨hWF2, hn2⟩ := WF_applyOp G M op s s2 hWF hop
      obtain ⟨hWF1, hn1⟩ := ih s2 s1 hWF2 hrun
      exact ⟨hWF1, hn1.trans hn2⟩

theorem WF_Init (G : AppZoneKeyPair → Nat → Nat) (intervalSec offsetSec : Rat) (N : Nat)
    (nodeName : String) : WF G (InitAutoProvStats intervalSec offsetSec N nodeName) := by
  rw [WF_iff]
  refine ⟨by simp [InitAutoProvStats], ?_⟩
  intro i sh hi
  have hmem : sh ∈ List.replicate N ([] : AutoProvStatsShard) :=
    List.mem_iff_getElem?.2 ⟨i, hi⟩
  have : sh = [] := (List.mem_replicate.1 hmem).2
  subst this
  simp

theorem entryAt_other_shard (G : AppZoneKeyPair → Nat → Nat) (s : AutoProvStats)
    (hWF : WF G s) (key : AppZoneKeyPair) (i : Nat) (hi : i ≠ G key s.numShards) :
    entryAt s i key = none := by
  rw [WF_iff] at hWF
  unfold entryAt
  cases hsi : s.shards[i]? with
  | none => rfl
  | some sh =>
    simp only [Option.some_bind]
    cases hg : mapGet key sh with
    | none => rfl
    | some c =>
      have := (hWF.2 i sh hsi).2 (key, c) (mapGet_some_mem hg)
      exact absurd this.symm hi

/-- C18. In every state a generator with `N > 0` shards reaches from
`InitAutoProvStats` by any sequence of operations, the number of shards is
still `N`; the shard index of a key is the same as at the start and below `N`;
no shard other than that one holds an entry for the key; and `Increment` of
the key completes, updates the key's counter in that shard (the count one
higher modulo `2 ^ 64`, the `lastCount` kept) and again leaves no entry for
the key in any other shard. -/
theorem key_lives_in_one_shard (hash : AppZoneKeyPair → Nat) (M : AppKey → AppKey → Bool)
    (N : Nat) (intervalSec offsetSec : Rat) (nodeName : String) (ops : List GenOp)
    (s : AutoProvStats) (key : AppZoneKeyPair) (policy : AutoProvPolicy) (hN : 0 < N)
    (hrun : runOps (GetShardIndex hash) M ops
      (InitAutoProvStats intervalSec offsetSec N nodeName) = some s) :
    s.numShards = N ∧ s.shards.length = N ∧
    GetShardIndex hash key s.numShards = GetShardIndex hash key N ∧
    GetShardIndex hash key N < N ∧
    (∀ i, i ≠ GetShardIndex hash key N → entryAt s i key = none) ∧
    (∃ s1 msgs, Increment (GetShardIndex hash) s key.appKey key.zoneKey policy =
        some (s1, msgs) ∧
      entryAt s1 (GetShardIndex hash key N) key =
        some ⟨(((entryAt s (GetShardIndex hash key N) key).getD ⟨0, 0⟩).count + 1) % 2 ^ 64,
          ((entryAt s (GetShardIndex hash key N) key).getD ⟨0, 0⟩).lastCount⟩ ∧
      ∀ i, i ≠ GetShardIndex hash key N → entryAt s1 i key = none) := by
  obtain ⟨hWF, hn⟩ := WF_runOps (GetShardIndex hash) M ops _ s
    (WF_Init (GetShardIndex hash) intervalSec offsetSec N nodeName) hrun
  have hn : s.numShards = N := hn
  subst hn
  obtain ⟨ak, zk⟩ := key
  have hlen : s.shards.length = s.numShards := ((WF_iff _ _).1 hWF).1
  have hlt : GetShardIndex hash ⟨ak, zk⟩ s.numShards < s.numShards := Nat.mod_lt _ hN
  have hidx : GetShardIndex hash ⟨ak, zk⟩ s.numShards < s.shards.length := by
    rw [hlen]; exact hlt
  refine ⟨rfl, hlen, rfl, hlt, ?_, ?_⟩
  · intro i hi
    exact entryAt_other_shard _ s hWF ⟨ak, zk⟩ i hi
  · obtain ⟨shard, c1, msgs, hs, hc1, _, hinc⟩ :=
      Increment_eq (GetShardIndex hash) s ak zk policy hidx
    have hWF1 := WF_Increment (GetShardIndex hash) s _ ak zk policy msgs hWF hinc
    refine ⟨_, msgs, hinc, ?_, ?_⟩
    · have hold : entryAt s (GetShardIndex hash ⟨ak, zk⟩ s.numShards) ⟨ak, zk⟩ =
          mapGet ⟨ak, zk⟩ shard := by
        simp [entryAt, hs]
      rw [hold, entryAt_set_self s _ _ _ hidx, mapGet_mapSet_self, hc1]
    · intro i hi
      exact entryAt_other_shard _ _ hWF1 ⟨ak, zk⟩ i hi

theorem key_lives_in_one_shard_witness :
    ∃ s, runOps (GetShardIndex (fun k => k.appKey.name.length)) (fun m o => decide (m = o))
        [GenOp.increment ⟨"org", "app", "1.0"⟩ ⟨"op", "zone"⟩ ⟨3, 2⟩, GenOp.exportPass 12]
        (InitAutoProvStats 300 0 2 "dme") = some s ∧
      s.numShards = 2 ∧
      GetShardIndex (fun k => k.appKey.name.length) ⟨⟨"org", "app", "1.0"⟩, ⟨"op", "zone"⟩⟩ 2
        < 2 ∧
      ∀ i, i ≠ GetShardIndex (fun k => k.appKey.name.length)
          ⟨⟨"org", "app", "1.0"⟩, ⟨"op", "zone"⟩⟩ 2 →
        entryAt s i ⟨⟨"org", "app", "1.0"⟩, ⟨"op", "zone"⟩⟩ = none := by
  have hrun : runOps (GetShardIndex (fun k => k.appKey.name.length))
      (fun m o => decide (m = o))
      [GenOp.increment ⟨"org", "app", "1.0"⟩ ⟨"op", "zone"⟩ ⟨3, 2⟩, GenOp.exportPass 12]
      (InitAutoProvStats 300 0 2 "dme") =
      some { shards := [[], [(⟨⟨"org", "app", "1.0"⟩, ⟨"op", "zone"⟩⟩, ⟨1, 1⟩)]], numShards := 2,
             intervalSec := 300, offsetSec := 0, nodeName := "dme", running := false } := by
    decide
  have h := key_lives_in_one_shard (fun k => k.appKey.name.length) (fun m o => decide (m = o))
    2 300 0 "dme" _ _ ⟨⟨"org", "app", "1.0"⟩, ⟨"op", "zone"⟩⟩ ⟨3, 2⟩ (by decide) hrun
  exact ⟨_, hrun, h.1, h.2.2.2.1, h.2.2.2.2.1⟩

/-! ## Start and Stop -/

/-- C21. `Start` on a generator whose export loop is already running starts
no loop and leaves the state unchanged; so `Start` after `Start` starts no
second loop and leaves the state the first `Start` produced. -/
theorem Start_idempotent (s : AutoProvStats) :
    (s.running = true → Start s = (s, [])) ∧
    (Start s).1.running = true ∧
    Start (Start s).1 = ((Start s).1, []) := by
  refine ⟨?_, ?_, ?_⟩
  · intro h
    simp [Start, h]
  · simp only [Start]
    split
    · assumption
    · rfl
  · simp only [Start]
    split <;> simp_all

/-- C22. At the failing input, a generator that was never started, `Stop`
does not complete (`close(s.stop)` on the nil channel fails at run time); and
after a `Start` and one `Stop`, a second `Stop` does not complete either. -/
theorem Stop_fails_when_not_running :
    Stop (InitAutoProvStats 300 0 10 "dme") = none ∧
    (Stop (Start (InitAutoProvStats 300 0 10 "dme")).1).bind (fun r => Stop r.1) = none ∧
    (∀ s : AutoProvStats, s.running = false → Stop s = none) := by
  refine ⟨by simp [Stop, InitAutoProvStats], by simp [Stop, Start, InitAutoProvStats], ?_⟩
  intro s h
  simp [Stop, h]

/-! ## Clear and Prune -/

theorem mapGet_filter_key {κ ν : Type} [DecidableEq κ] (k : κ) (p : κ → Bool)
    (l : List (κ × ν)) :
    mapGet k (l.filter (fun e => p e.1)) = if p k then mapGet k l else none := by
  induction l with
  | nil => simp [mapGet]
  | cons e rest ih =>
    obtain ⟨k', v'⟩ := e
    by_cases hp : p k' = true
    · rw [List.filter_cons_of_pos (by simpa using hp)]
      by_cases hk : k' = k
      · subst hk
        simp [mapGet, hp]
      · simp only [mapGet, hk, if_false]
        exact ih
    · rw [List.filter_cons_of_neg (by simpa using hp)]
      by_cases hk : k' = k
      · subst hk
        rw [ih]
        simp [hp]
      · simp only [mapGet, hk, if_false]
        exact ih

/-- C29. `Clear(appKey, policy)` leaves the number of shards as it is, and in
every shard the binding of every key afterwards is: none when the key's app
key matches `appKey` (so for every zone), the binding it had before
otherwise, `count` and `lastCount` included.  The result is the same for any
two policy arguments, and nothing but the shards changes. -/
theorem Clear_spec (M : AppKey → AppKey → Bool) (appKey : AppKey) (policy : String)
    (s : AutoProvStats) :
    (Clear M appKey policy s).shards.length = s.shards.length ∧
    (∀ i k, entryAt (Clear M appKey policy s) i k =
      if M k.appKey appKey then none else entryAt s i k) ∧
    (∀ e, e ∈ allEntries (Clear M appKey policy s) ↔
      e ∈ allEntries s ∧ M e.1.appKey appKey = false) ∧
    (∀ policy2 : String, Clear M appKey policy2 s = Clear M appKey policy s) ∧
    (Clear M appKey policy s).numShards = s.numShards ∧
    (Clear M appKey policy s).running = s.running ∧
    (Clear M appKey policy s).intervalSec = s.intervalSec := by
  refine ⟨by simp [Clear], ?_, ?_, fun _ => rfl, rfl, rfl, rfl⟩
  · intro i k
    simp only [entryAt, Clear, List.getElem?_map]
    cases s.shards[i]? with
    | none => simp
    | some sh =>
      simp only [Option.map_some', Option.some_bind]
      rw [mapGet_filter_key k (fun k => !(M k.appKey appKey)) sh]
      cases M k.appKey appKey <;> simp
  · intro e
    simp only [allEntries, Clear, List.mem_flatten, List.mem_map]
    constructor
    · rintro ⟨l, ⟨sh, hsh, rfl⟩, he⟩
      rw [List.mem_filter] at he
      exact ⟨⟨sh, hsh, he.1⟩, by simpa using he.2⟩
    · rintro ⟨⟨sh, hsh, he⟩, hm⟩
      exact ⟨_, ⟨sh, hsh, rfl⟩, List.mem_filter.2 ⟨he, by simpa using hm⟩⟩

/-- C30. `Prune(apps)` leaves the number of shards as it is, and in every
shard the binding of every key afterwards is: the binding it had before,
`count` and `lastCount` included, when the key's app key is a member of
`apps`, and none otherwise.  `Prune` with the same set a second time changes
nothing. -/
theorem Prune_spec (apps : List AppKey) (s : AutoProvStats) :
    (Prune apps s).shards.length = s.shards.length ∧
    (∀ i k, entryAt (Prune apps s) i k =
      if k.appKey ∈ apps then entryAt s i k else none) ∧
    (∀ e, e ∈ allEntries (Prune apps s) ↔ e ∈ allEntries s ∧ e.1.appKey ∈ apps) ∧
    Prune apps (Prune apps s) = Prune apps s := by
  refine ⟨by simp [Prune], ?_, ?_, ?_⟩
  · intro i k
    simp only [entryAt, Prune, List.getElem?_map]
    cases s.shards[i]? with
    | none => simp
    | some sh =>
      simp only [Option.map_some', Option.some_bind]
      rw [mapGet_filter_key k (fun k => decide (k.appKey ∈ apps)) sh]
      simp
  · intro e
    simp only [allEntries, Prune, List.mem_flatten, List.mem_map]
    constructor
    · rintro ⟨l, ⟨sh, hsh, rfl⟩, he⟩
      rw [List.mem_filter] at he
      exact ⟨⟨sh, hsh, he.1⟩, by simpa using he.2⟩
    · rintro ⟨⟨sh, hsh, he⟩, hm⟩
      exact ⟨_, ⟨sh, hsh, rfl⟩, List.mem_filter.2 ⟨he, by simpa using hm⟩⟩
  · simp [Prune, List.map_map, Function.comp_def, List.filter_filter]

/-! ## Deployment manifests and download timeouts -/

theorem starts_with_iff (p l : List Char) :
    p.isPrefixOf l = true ↔ ∃ t, l = p ++ t := by
  induction p generalizing l with
  | nil => simp [List.isPrefixOf]
  | cons c p ih =>
    cases l with
    | nil => simp [List.isPrefixOf]
    | cons c2 l =>
      simp only [List.isPrefixOf, Bool.and_eq_true, beq_iff_eq, ih, List.cons_append,
        List.cons.injEq]
      constructor
      · rintro ⟨rfl, t, rfl⟩
        exact ⟨t, rfl, rfl⟩
      · rintro ⟨t, rfl, rfl⟩
        exact ⟨rfl, t, rfl⟩

theorem HasPrefix_iff (s pre : String) :
    HasPrefix s pre = true ↔ ∃ rest : String, s = pre ++ rest := by
  unfold HasPrefix
  rw [starts_with_iff]
  constructor
  · rintro ⟨t, ht⟩
    exact ⟨⟨t⟩, String.ext (by simp [ht])⟩
  · rintro ⟨rest, rfl⟩
    exact ⟨rest.data, by simp⟩

/-- C25. For the deployment type "vm", `IsValidDeploymentManifest` returns an
error whenever the command is not empty; when the command is empty it returns
no error if and only if the manifest is "#cloud-config" followed by some
text. -/
theorem IsValidDeploymentManifest_vm {Ports Resources : Type}
    (kubernetesCheck : String → Ports → Resources → Option String)
    (command manifest : String) (ports : Ports) (kr : Resources) :
    (command ≠ "" →
      (IsValidDeploymentManifest kubernetesCheck "vm" command manifest ports kr).isSome
        = true) ∧
    (command = "" →
      (IsValidDeploymentManifest kubernetesCheck "vm" command manifest ports kr = none ↔
        ∃ rest : String, manifest = "#cloud-config" ++ rest)) := by
  constructor
  · intro h
    simp [IsValidDeploymentManifest, DeploymentTypeVM, h]
  · intro h
    rw [← HasPrefix_iff]
    cases hp : HasPrefix manifest "#cloud-config" <;>
      simp [IsValidDeploymentManifest, DeploymentTypeVM, h, hp]

theorem roundHalfEven_int (n : Int) : roundHalfEven (n : Rat) = n := by
  simp [roundHalfEven]

theorem roundHalfEven_err (x : Rat) : |(roundHalfEven x : Rat) - x| ≤ 1 / 2 := by
  have h1 := Int.floor_le x
  have h2 := Int.lt_floor_add_one x
  unfold roundHalfEven
  simp only
  split_ifs with ha hb hc
  · rw [abs_le]; constructor <;> linarith
  · rw [abs_le]; push_cast; constructor <;> linarith
  · rw [abs_le]; constructor <;> linarith
  · rw [abs_le]; push_cast; constructor <;> linarith

theorem roundHalfEven_nonpos (x : Rat) (h : x ≤ 0) : roundHalfEven x ≤ 0 := by
  have h1 := Int.floor_le x
  have hf : Int.floor x ≤ 0 := Int.floor_nonpos h
  unfold roundHalfEven
  simp only
  by_cases h0 : Int.floor x = 0
  · have hx : x = 0 := by
      rw [h0] at h1
      push_cast at h1
      linarith
    subst hx
    simp
  · have : Int.floor x + 1 ≤ 0 := by omega
    split_ifs <;> omega

/-- The exponent of a positive rational. -/
theorem log2_eq (x : Rat) (e : Int) (h1 : (2 : Rat) ^ e ≤ x) (h2 : x < (2 : Rat) ^ (e + 1)) :
    Int.log 2 x = e := by
  have hpos : 0 < x := lt_of_lt_of_le (zpow_pos (by norm_num) e) h1
  have ha : e ≤ Int.log 2 x := (Int.zpow_le_iff_le_log (by norm_num) hpos).1 (by exact_mod_cast h1)
  have hb : Int.log 2 x < e + 1 := (Int.lt_zpow_iff_log_lt (by norm_num) hpos).1 (by exact_mod_cast h2)
  omega

theorem roundF64_zero : roundF64 0 = 0 := by simp [roundF64]

theorem roundF64_nonpos (x : Rat) (h : x ≤ 0) : roundF64 x ≤ 0 := by
  unfold roundF64
  split_ifs with h0
  · exact le_refl _
  · simp only
    have hq : (0 : Rat) < (2 : Rat) ^ (Int.log 2 |x| - 52) := zpow_pos (by norm_num) _
    have hx : x / (2 : Rat) ^ (Int.log 2 |x| - 52) ≤ 0 := div_nonpos_of_nonpos_of_nonneg h hq.le
    have := roundHalfEven_nonpos _ hx
    have h2 : ((roundHalfEven (x / (2 : Rat) ^ (Int.log 2 |x| - 52)) : Int) : Rat) ≤ 0 := by
      exact_mod_cast this
    exact mul_nonpos_of_nonpos_of_nonneg h2 hq.le

/-- The rounding error is at most half a unit in the last place. -/
theorem roundF64_err (x : Rat) (h0 : x ≠ 0) :
    |roundF64 x - x| ≤ (2 : Rat) ^ (Int.log 2 |x| - 53) := by
  unfold roundF64
  rw [if_neg h0]
  simp only
  have hq : (0 : Rat) < (2 : Rat) ^ (Int.log 2 |x| - 52) := zpow_pos (by norm_num) _
  have herr := roundHalfEven_err (x / (2 : Rat) ^ (Int.log 2 |x| - 52))
  have h53 : (2 : Rat) ^ (Int.log 2 |x| - 53) = 1 / 2 * (2 : Rat) ^ (Int.log 2 |x| - 52) := by
    have : Int.log 2 |x| - 52 = (Int.log 2 |x| - 53) + 1 := by ring
    rw [this, zpow_add_one₀ (by norm_num)]
    ring
  have key : (roundHalfEven (x / (2 : Rat) ^ (Int.log 2 |x| - 52)) : Rat) *
      (2 : Rat) ^ (Int.log 2 |x| - 52) - x =
      ((roundHalfEven (x / (2 : Rat) ^ (Int.log 2 |x| - 52)) : Rat) -
        x / (2 : Rat) ^ (Int.log 2 |x| - 52)) * (2 : Rat) ^ (Int.log 2 |x| - 52) := by
    field_simp
  rw [h53, key, abs_mul, abs_of_pos hq]
  exact mul_le_mul_of_nonneg_right herr hq.le

/-- A rational with at most 53 significant bits is a `float64`: rounding
leaves it as it is. -/
theorem roundF64_exact (m k : Int) (hm : |m| < 2 ^ 53) :
    roundF64 ((m : Rat) * (2 : Rat) ^ k) = (m : Rat) * (2 : Rat) ^ k := by
  by_cases hm0 : m = 0
  · subst hm0
    simp [roundF64]
  have h2k : (0 : Rat) < (2 : Rat) ^ k := zpow_pos (by norm_num) _
  have hx0 : (m : Rat) * (2 : Rat) ^ k ≠ 0 :=
    mul_ne_zero (by exact_mod_cast hm0) h2k.ne'
  unfold roundF64
  rw [if_neg hx0]
  simp only
  set e := Int.log 2 |(m : Rat) * (2 : Rat) ^ k| with he
  have habs : |(m : Rat) * (2 : Rat) ^ k| = (|m| : Int) * (2 : Rat) ^ k := by
    rw [abs_mul, abs_of_pos h2k]
    push_cast
    rfl
  have hpos : 0 < |(m : Rat) * (2 : Rat) ^ k| := abs_pos.2 hx0
  have hle : (2 : Rat) ^ e ≤ |(m : Rat) * (2 : Rat) ^ k| := by
    have := @Int.zpow_log_le_self Rat _ _ 2 _ (by norm_num) hpos
    exact_mod_cast this
  have hlt : |(m : Rat) * (2 : Rat) ^ k| < (2 : Rat) ^ (53 + k) := by
    rw [habs, zpow_add₀ (by norm_num)]
    have : ((|m| : Int) : Rat) < (2 : Rat) ^ (53 : Int) := by
      have h : ((|m| : Int) : Rat) < ((2 ^ 53 : Int) : Rat) := by exact_mod_cast hm
      norm_num at h ⊢
      exact h
    exact mul_lt_mul_of_pos_right this h2k
  have hek : e < 53 + k := by
    have := lt_of_le_of_lt hle hlt
    exact (zpow_lt_zpow_iff_right₀ (by norm_num : (1 : Rat) < 2)).1 this
  obtain ⟨j, hj⟩ : ∃ j : Nat, k - (e - 52) = j := ⟨(k - (e - 52)).toNat, by omega⟩
  have hdiv : (m : Rat) * (2 : Rat) ^ k / (2 : Rat) ^ (e - 52) = ((m * 2 ^ j : Int) : Rat) := by
    rw [mul_div_assoc, ← zpow_sub₀ (by norm_num), hj, zpow_natCast]
    push_cast
    rfl
  rw [hdiv, roundHalfEven_int]
  push_cast
  rw [mul_assoc, ← zpow_natCast, ← zpow_add₀ (by norm_num)]
  congr 2
  omega


theorem wrap64_small (x : Int) (h1 : -2 ^ 63 ≤ x) (h2 : x < 2 ^ 63) : wrap64 x = x := by
  unfold wrap64
  norm_num at h1 h2 ⊢
  omega

/-- An integer of less than 54 bits, divided by `2 ^ 30`, is a `float64`. -/
theorem roundF64_int (n : Int) (hn : |n| < 2 ^ 53) : roundF64 (n : Rat) = n := by
  have := roundF64_exact n 0 hn
  simpa using this

theorem roundF64_int_div (n : Int) (hn : |n| < 2 ^ 53) :
    roundF64 ((n : Rat) / (1024 * 1024 * 1024)) = (n : Rat) / (1024 * 1024 * 1024) := by
  have h : (n : Rat) / (1024 * 1024 * 1024) = (n : Rat) * (2 : Rat) ^ (-30 : Int) := by
    rw [div_eq_mul_inv]
    norm_num
  rw [h]
  exact roundF64_exact n (-30) hn

/-- `fileSizeInGB` for a content length below `2 ^ 53`. -/
theorem fileSizeInGB_exact (cLen : Int) (h0 : 0 ≤ cLen) (h1 : cLen < 2 ^ 53) :
    roundF64 (roundF64 (cLen : Rat) / (1024 * 1024 * 1024)) =
      (cLen : Rat) / (1024 * 1024 * 1024) := by
  have habs : |cLen| < 2 ^ 53 := by rw [abs_of_nonneg h0]; exact h1
  rw [roundF64_int cLen habs, roundF64_int_div cLen habs]

/-- The default timeout for every content length of at most 5 GiB. -/
theorem GetTimeout_default (cLen : Int) (h : cLen ≤ 5368709120) :
    GetTimeout cLen = 15 * Minute := by
  have hnot : ¬ (roundF64 (roundF64 (cLen : Rat) / (1024 * 1024 * 1024)) > 5) := by
    by_cases h0 : 0 ≤ cLen
    · rw [fileSizeInGB_exact cLen h0 (by omega), gt_iff_lt, not_lt,
        div_le_iff₀ (by norm_num)]
      have hc : (cLen : Rat) ≤ 5368709120 := by exact_mod_cast h
      linarith
    · have hc : (cLen : Rat) ≤ 0 := by exact_mod_cast (by omega : cLen ≤ 0)
      have h1 := roundF64_nonpos _ hc
      have h2 : roundF64 (cLen : Rat) / (1024 * 1024 * 1024) ≤ 0 :=
        div_nonpos_of_nonpos_of_nonneg h1 (by norm_num)
      have h3 := roundF64_nonpos _ h2
      rw [gt_iff_lt, not_lt]
      linarith
  simp only [GetTimeout, hnot, if_false]

/-- The rounded quotient by 5 has the ceiling of the exact quotient, for a
content length below `2 ^ 53`. -/
theorem ceil_units (cLen : Int) (h0 : 5368709120 < cLen) (h1 : cLen < 2 ^ 53) :
    Int.ceil (roundF64 ((cLen : Rat) / (1024 * 1024 * 1024) / 5)) =
      Int.ceil ((cLen : Rat) / 5368709120) := by
  have hq : (cLen : Rat) / (1024 * 1024 * 1024) / 5 = (cLen : Rat) / 5368709120 := by
    rw [div_div]
    norm_num
  rw [hq]
  set q : Rat := (cLen : Rat) / 5368709120 with hqdef
  set n : Int := Int.ceil q with hn
  have hc0 : (5368709120 : Rat) < cLen := by exact_mod_cast h0
  have hc1 : (cLen : Rat) < 9007199254740992 := by exact_mod_cast h1
  have hqpos : 0 < q := by rw [hqdef]; positivity
  have hq1 : (1 : Rat) < q := by rw [hqdef, lt_div_iff₀ (by norm_num)]; linarith
  have hq2 : q < (2 : Rat) ^ (21 : Int) := by
    rw [hqdef, div_lt_iff₀ (by norm_num)]
    norm_num
    linarith
  have hle : q ≤ n := Int.le_ceil q
  have hlt : (n : Rat) - 1 < q := by
    have := Int.ceil_lt_add_one q
    linarith
  by_cases hint : q = n
  · -- the quotient is an integer: it is a float64
    have hnpos : 0 < n := by
      have : (0 : Rat) < n := by rw [← hint]; exact hqpos
      exact_mod_cast this
    have hnlt : n < 2 ^ 53 := by
      have : (n : Rat) < (2 : Rat) ^ (21 : Int) := by rw [← hint]; exact hq2
      have h2 : (n : Rat) < 2097152 := by norm_num at this; exact this
      have h3 : n < 2097152 := by exact_mod_cast h2
      omega
    rw [hint, roundF64_int n (by rw [abs_of_pos hnpos]; exact hnlt), Int.ceil_intCast]
  · -- otherwise it is at least 1 / (5 * 2 ^ 30) away from the integers
    have hltn : q < n := lt_of_le_of_ne hle hint
    have hD : (0 : Rat) < 5368709120 := by norm_num
    have hup : q + 1 / 5368709120 ≤ n := by
      have h1 : (cLen : Rat) < n * 5368709120 := by
        rw [hqdef, div_lt_iff₀ hD] at hltn
        exact hltn
      have h2 : cLen < n * 5368709120 := by exact_mod_cast h1
      have h3 : cLen + 1 ≤ n * 5368709120 := by omega
      have h4 : (cLen : Rat) + 1 ≤ n * 5368709120 := by exact_mod_cast h3
      rw [hqdef, div_add_div_same, div_le_iff₀ hD]
      exact h4
    have hdown : (n : Rat) - 1 + 1 / 5368709120 ≤ q := by
      have h1 : ((n : Rat) - 1) * 5368709120 < cLen := by
        rw [hqdef, lt_div_iff₀ hD] at hlt
        exact hlt
      have h2 : (n - 1) * 5368709120 < cLen := by exact_mod_cast h1
      have h3 : (n - 1) * 5368709120 + 1 ≤ cLen := by omega
      have h4 : ((n : Rat) - 1) * 5368709120 + 1 ≤ cLen := by exact_mod_cast h3
      rw [hqdef, le_div_iff₀ hD]
      linarith
    have hlog : Int.log 2 |q| ≤ 20 := by
      rw [abs_of_pos hqpos]
      have := (Int.lt_zpow_iff_log_lt (by norm_num : 1 < 2) hqpos).1
        (by exact_mod_cast hq2 : q < ((2 : Nat) : Rat) ^ (21 : Int))
      omega
    have herr := roundF64_err q hqpos.ne'
    have hbound : (2 : Rat) ^ (Int.log 2 |q| - 53) ≤ (2 : Rat) ^ (-33 : Int) :=
      zpow_le_zpow_right₀ (by norm_num) (by omega)
    have hsmall : (2 : Rat) ^ (-33 : Int) < 1 / 5368709120 := by norm_num
    have hE : (2 : Rat) ^ (Int.log 2 |q| - 53) < 1 / 5368709120 := lt_of_le_of_lt hbound hsmall
    rw [abs_le] at herr
    obtain ⟨he1, he2⟩ := herr
    generalize (2 : Rat) ^ (Int.log 2 |q| - 53) = E at hE he1 he2
    generalize roundF64 q = r at he1 he2
    rw [Int.ceil_eq_iff]
    constructor
    · have : (n : Rat) - 1 < q - E := by linarith
      linarith
    · have : q + E < n := by linarith
      linarith

/-- Above 5 GiB and below `2 ^ 53` bytes the timeout is ten minutes for every
5 GiB of file size, rounded up. -/
theorem GetTimeout_units (cLen : Int) (h0 : 5368709120 < cLen) (h1 : cLen < 2 ^ 53) :
    GetTimeout cLen = Int.ceil ((cLen : Rat) / 5368709120) * 10 * Minute := by
  have hsize := fileSizeInGB_exact cLen (by omega) h1
  have hc0 : (5368709120 : Rat) < cLen := by exact_mod_cast h0
  have hc1 : (cLen : Rat) < 9007199254740992 := by exact_mod_cast h1
  have hgt : roundF64 (roundF64 (cLen : Rat) / (1024 * 1024 * 1024)) > 5 := by
    rw [hsize, gt_iff_lt, lt_div_iff₀ (by norm_num)]
    linarith
  have hceil1 : 1 ≤ Int.ceil ((cLen : Rat) / 5368709120) := by
    rw [Int.one_le_ceil_iff]
    positivity
  have hceil2 : Int.ceil ((cLen : Rat) / 5368709120) ≤ 1677722 := by
    rw [Int.ceil_le, div_le_iff₀ (by norm_num)]
    norm_num
    linarith
  simp only [GetTimeout, hgt, if_true]
  rw [hsize, ceil_units cLen h0 h1]
  rw [wrap64_small (Int.ceil ((cLen : Rat) / 5368709120) * 10) (by norm_num; omega)
    (by norm_num; omega)]
  rw [wrap64_small _ (by unfold Minute; norm_num; omega) (by unfold Minute; norm_num; omega)]

theorem roundHalfEven_tie :
    roundHalfEven ((11258999068426241 : Rat) / 2) = 5629499534213120 := by
  have hf : Int.floor ((11258999068426241 : Rat) / 2) = 5629499534213120 := by
    rw [Int.floor_eq_iff]
    norm_num
  unfold roundHalfEven
  simp only [hf]
  norm_num

theorem roundF64_tie : roundF64 (11258999068426241 : Rat) = 11258999068426240 := by
  have hlog : Int.log 2 |(11258999068426241 : Rat)| = 53 := by
    rw [abs_of_pos (by norm_num)]
    exact log2_eq _ 53 (by norm_num) (by norm_num)
  unfold roundF64
  rw [if_neg (by norm_num)]
  simp only [hlog]
  have h1 : (2 : Rat) ^ ((53 : Int) - 52) = 2 := by norm_num
  rw [h1, roundHalfEven_tie]
  norm_num

/-- C26 as stated fails.  At exactly 5 GiB, one unit of 5 GiB, `GetTimeout`
returns the default 15 minutes and not ten minutes times one: the test is
`fileSizeInGB > 5`.  And at `5 * 2 ^ 51 + 1` bytes `float64(cLen)` rounds the
length to `5 * 2 ^ 51`, so the result is 2097152 units of ten minutes, where
the file size in units of 5 GiB, rounded up, is 2097153. -/
theorem GetTimeout_not_units :
    GetTimeout 5368709120 = 15 * Minute ∧
    GetTimeout 5368709120 ≠ Int.ceil ((5368709120 : Rat) / 5368709120) * 10 * Minute ∧
    GetTimeout 11258999068426241 = 2097152 * 10 * Minute ∧
    GetTimeout 11258999068426241 ≠
      Int.ceil ((11258999068426241 : Rat) / 5368709120) * 10 * Minute := by
  have h5 := GetTimeout_default 5368709120 (le_refl _)
  have hbig : GetTimeout 11258999068426241 = 2097152 * 10 * Minute := by
    have hF : roundF64 ((11258999068426241 : Int) : Rat) = ((11258999068426240 : Int) : Rat) := by
      have := roundF64_tie
      exact_mod_cast this
    have hsize : roundF64 (((11258999068426240 : Int) : Rat) / (1024 * 1024 * 1024)) =
        ((11258999068426240 : Int) : Rat) / (1024 * 1024 * 1024) := by
      have h := roundF64_exact 5 21 (by norm_num)
      have e : ((11258999068426240 : Int) : Rat) / (1024 * 1024 * 1024) =
          ((5 : Int) : Rat) * (2 : Rat) ^ (21 : Int) := by norm_num
      rw [e]
      exact h
    have hq : roundF64 (((11258999068426240 : Int) : Rat) / (1024 * 1024 * 1024) / 5) =
        (2097152 : Rat) := by
      have h := roundF64_exact 1 21 (by norm_num)
      have e : ((11258999068426240 : Int) : Rat) / (1024 * 1024 * 1024) / 5 =
          ((1 : Int) : Rat) * (2 : Rat) ^ (21 : Int) := by norm_num
      rw [e, h]
      norm_num
    have hgt : ((11258999068426240 : Int) : Rat) / (1024 * 1024 * 1024) > 5 := by norm_num
    simp only [GetTimeout, hF, hsize, hq, hgt, if_true]
    have hc : Int.ceil (2097152 : Rat) = 2097152 := by
      exact_mod_cast Int.ceil_intCast (2097152 : Int)
    rw [hc]
    decide
  refine ⟨h5, ?_, hbig, ?_⟩
  · rw [h5]
    have hc : Int.ceil ((5368709120 : Rat) / 5368709120) = 1 := by norm_num
    rw [hc]
    decide
  · rw [hbig]
    have hc : Int.ceil ((11258999068426241 : Rat) / 5368709120) = 2097153 := by
      rw [Int.ceil_eq_iff]
      norm_num
    rw [hc]
    decide

/-- C26, amended.  `GetTimeout` returns the default timeout of 15 minutes for
every content length of at most 5 GiB, exactly 5 GiB included; for every
larger content length below `2 ^ 53` bytes the timeout is ten minutes times
the file size in units of 5 GiB, rounded up, which is at least 20 minutes. -/
theorem GetTimeout_default_or_units :
    (∀ cLen : Int, cLen ≤ 5368709120 → GetTimeout cLen = 15 * Minute) ∧
    (∀ cLen : Int, 5368709120 < cLen → cLen < 2 ^ 53 →
      GetTimeout cLen = Int.ceil ((cLen : Rat) / 5368709120) * 10 * Minute ∧
      20 * Minute ≤ GetTimeout cLen) := by
  refine ⟨GetTimeout_default, fun cLen h0 h1 => ?_⟩
  have h := GetTimeout_units cLen h0 h1
  refine ⟨h, ?_⟩
  have hc : 2 ≤ Int.ceil ((cLen : Rat) / 5368709120) := by
    have hlt : (1 : Rat) < (cLen : Rat) / 5368709120 := by
      rw [lt_div_iff₀ (by norm_num)]
      have : (5368709120 : Rat) < cLen := by exact_mod_cast h0
      linarith
    have : (1 : Int) < Int.ceil ((cLen : Rat) / 5368709120) := Int.lt_ceil.2 (by exact_mod_cast hlt)
    omega
  rw [h]
  unfold Minute
  omega

theorem GetTimeout_default_or_units_witness :
    GetTimeout 1073741824 = 15 * Minute ∧
    GetTimeout 12884901888 =
      Int.ceil (((12884901888 : Int) : Rat) / 5368709120) * 10 * Minute :=
  ⟨GetTimeout_default_or_units.1 1073741824 (by decide),
    (GetTimeout_default_or_units.2 12884901888 (by decide) (by decide)).1⟩

/-! ## Access key verification -/

/-- What a success of the access key branch tells. -/
theorem accessKeyAuth_ok_iff (d : AccessKeyDeps) (cloudlet : Cloudlet) (key : CloudletKey)
    (data0 sigb64 method : String) (v : AccessKeyVerified) :
    accessKeyAuth d cloudlet key data0 sigb64 method = Except.ok v ↔
    ∃ sig, d.base64Decode sigb64 = some sig ∧
      ¬ (cloudlet.CrmAccessPublicKey = "" ∧ cloudlet.SecondaryCrmAccessPublicKey = "") ∧
      v.Key = key ∧
      ((verifyPublicKey d cloudlet.CrmAccessPublicKey data0 sig = true ∧
          v.UpgradeRequired = cloudlet.CrmAccessKeyUpgradeRequired) ∨
       (verifyPublicKey d cloudlet.CrmAccessPublicKey data0 sig = false ∧
          cloudlet.SecondaryCrmAccessPublicKey ≠ "" ∧
          verifyPublicKey d cloudlet.SecondaryCrmAccessPublicKey data0 sig = true ∧
          v.UpgradeRequired = cloudlet.SecondaryCrmAccessKeyUpgradeRequired)) ∧
      (v.UpgradeRequired = true → method = UpgradeAccessKeyMethod) := by
  unfold accessKeyAuth
  cases hdec : d.base64Decode sigb64 with
  | none => simp
  | some sig =>
    simp only [Option.some.injEq, exists_eq_left']
    by_cases hk : cloudlet.CrmAccessPublicKey = "" ∧ cloudlet.SecondaryCrmAccessPublicKey = ""
    · rw [if_pos hk]
      simp [hk]
    · rw [if_neg hk]
      generalize verifyPublicKey d cloudlet.CrmAccessPublicKey data0 sig = ok1
      generalize verifyPublicKey d cloudlet.SecondaryCrmAccessPublicKey data0 sig = ok2
      obtain ⟨eb, pk, spk, u1, u2⟩ := cloudlet
      obtain ⟨vk, vu⟩ := v
      simp only at hk
      by_cases hm : method = UpgradeAccessKeyMethod <;> by_cases hs : spk = "" <;>
        cases u1 <;> cases u2 <;> cases ok1 <;> cases ok2 <;> cases vu <;>
        simp_all <;> (try constructor) <;> (try intro h) <;> simp_all [eq_comm]

/-- The access key branch rejects a key that requires upgrade for every
method but `UpgradeAccessKeyMethod`. -/
theorem accessKeyAuth_rejects (d : AccessKeyDeps) (cloudlet : Cloudlet) (key : CloudletKey)
    (data0 sigb64 method : String) (sig : List Nat)
    (hdec : d.base64Decode sigb64 = some sig)
    (hreq : (verifyPublicKey d cloudlet.CrmAccessPublicKey data0 sig = true ∧
          cloudlet.CrmAccessKeyUpgradeRequired = true) ∨
       (verifyPublicKey d cloudlet.CrmAccessPublicKey data0 sig = false ∧
          cloudlet.SecondaryCrmAccessPublicKey ≠ "" ∧
          verifyPublicKey d cloudlet.SecondaryCrmAccessPublicKey data0 sig = true ∧
          cloudlet.SecondaryCrmAccessKeyUpgradeRequired = true))
    (hm : method ≠ UpgradeAccessKeyMethod) :
    accessKeyAuth d cloudlet key data0 sigb64 method = Except.error VerifyError.upgradeRequired ∨
    accessKeyAuth d cloudlet key data0 sigb64 method = Except.error VerifyError.noPublicKey := by
  unfold accessKeyAuth
  simp only [hdec]
  by_cases hk : cloudlet.CrmAccessPublicKey = "" ∧ cloudlet.SecondaryCrmAccessPublicKey = ""
  · rw [if_pos hk]
    exact Or.inr rfl
  · rw [if_neg hk]
    left
    revert hreq
    generalize verifyPublicKey d cloudlet.CrmAccessPublicKey data0 sig = ok1
    generalize verifyPublicKey d cloudlet.SecondaryCrmAccessPublicKey data0 sig = ok2
    obtain ⟨eb, pk, spk, u1, u2⟩ := cloudlet
    intro hreq
    rcases hreq with ⟨h1, h2⟩ | ⟨h1, h2, h3, h4⟩
    · simp only at h2
      subst h1 h2
      simp [hm]
    · simp only at h2 h4
      subst h1 h3 h4
      simp [hm, h2]

theorem vaultAuth_ok (d : AccessKeyDeps) (key : CloudletKey) (vaultSig method : String)
    (v : AccessKeyVerified) (h : vaultAuth d key vaultSig method = Except.ok v) :
    method = UpgradeAccessKeyMethod ∧ v.UpgradeRequired = true := by
  unfold vaultAuth at h
  by_cases hm : method = UpgradeAccessKeyMethod
  · refine ⟨hm, ?_⟩
    rw [if_neg (not_not.2 hm)] at h
    split at h
    · split at h
      · simp only [Except.ok.injEq] at h
        rw [← h]
      · cases h
    · cases h
  · rw [if_pos hm] at h
    cases h

/-- C24. Whenever `VerifyAccessKeySig` succeeds: if the result reports
`UpgradeRequired = true` then the method is `UpgradeAccessKeyMethod`; if the
metadata carries no access key signature, so that the success is an
authentication by a Vault signature, then the method is
`UpgradeAccessKeyMethod` and the result reports `UpgradeRequired = true`; and
if the method is another one, the success is by an access key signature, the
result reports `UpgradeRequired = false`, and the key of the cloudlet that
verified the signature (the primary key, or the secondary key after the
primary failed) does not require upgrade.  And the other way round: when the
key that verifies the signature requires upgrade and the method is not
`UpgradeAccessKeyMethod`, the call is rejected, with the error "access key
requires upgrade" unless one of the two earlier checks (Edgebox cloudlet, no
public key registered) has rejected it already. -/
theorem upgradeRequired_only_for_upgrade (d : AccessKeyDeps)
    (md : Option (List (String × List String))) (method : String) :
    (∀ v, VerifyAccessKeySig d md method = Except.ok v →
      (v.UpgradeRequired = true → method = UpgradeAccessKeyMethod) ∧
      ((∀ m, md = some m → mdLookup m d.AccessKeySig = none) →
        method = UpgradeAccessKeyMethod ∧ v.UpgradeRequired = true) ∧
      (method ≠ UpgradeAccessKeyMethod →
        v.UpgradeRequired = false ∧
        ∃ m data0 rest key cloudlet sigb64 rest2 sig,
          md = some m ∧ mdLookup m d.AccessKeyData = some (data0, rest) ∧
          d.unmarshalKey data0 = some key ∧ d.cloudletGet key = some cloudlet ∧
          mdLookup m d.AccessKeySig = some (sigb64, rest2) ∧
          d.base64Decode sigb64 = some sig ∧
          ((verifyPublicKey d cloudlet.CrmAccessPublicKey data0 sig = true ∧
              cloudlet.CrmAccessKeyUpgradeRequired = false) ∨
           (verifyPublicKey d cloudlet.CrmAccessPublicKey data0 sig = false ∧
              cloudlet.SecondaryCrmAccessPublicKey ≠ "" ∧
              verifyPublicKey d cloudlet.SecondaryCrmAccessPublicKey data0 sig = true ∧
              cloudlet.SecondaryCrmAccessKeyUpgradeRequired = false)))) ∧
    (∀ m data0 rest key cloudlet sigb64 rest2 sig,
      md = some m → mdLookup m d.AccessKeyData = some (data0, rest) →
      d.unmarshalKey data0 = some key → d.cloudletGet key = some cloudlet →
      mdLookup m d.AccessKeySig = some (sigb64, rest2) →
      d.base64Decode sigb64 = some sig →
      ((verifyPublicKey d cloudlet.CrmAccessPublicKey data0 sig = true ∧
          cloudlet.CrmAccessKeyUpgradeRequired = true) ∨
       (verifyPublicKey d cloudlet.CrmAccessPublicKey data0 sig = false ∧
          cloudlet.SecondaryCrmAccessPublicKey ≠ "" ∧
          verifyPublicKey d cloudlet.SecondaryCrmAccessPublicKey data0 sig = true ∧
          cloudlet.SecondaryCrmAccessKeyUpgradeRequired = true)) →
      method ≠ UpgradeAccessKeyMethod →
      VerifyAccessKeySig d md method = Except.error VerifyError.upgradeRequired ∨
      VerifyAccessKeySig d md method = Except.error VerifyError.noPublicKey ∨
      VerifyAccessKeySig d md method = Except.error VerifyError.edgeboxNotAllowed) := by
  constructor
  · intro v h
    unfold VerifyAccessKeySig at h
    split at h
    · cases h
    · rename_i m
      split at h
      · cases h
      · rename_i data0 rest hdata
        split at h
        · cases h
        · rename_i key hkey
          split at h
          · cases h
          · rename_i cloudlet hcl
            split at h
            · cases h
            · split at h
              · rename_i sigb64 rest2 hsig
                have hiff := (accessKeyAuth_ok_iff d cloudlet key data0 sigb64 method v).1 h
                obtain ⟨sig, hdec, _, _, hver, hup⟩ := hiff
                refine ⟨hup, fun hno => ?_, fun hm => ?_⟩
                · rw [hno m rfl] at hsig
                  cases hsig
                · have hv : v.UpgradeRequired = false := by
                    cases hu : v.UpgradeRequired
                    · rfl
                    · exact absurd (hup hu) hm
                  refine ⟨hv, m, data0, rest, key, cloudlet, sigb64, rest2, sig, rfl, hdata, hkey,
                    hcl, hsig, hdec, ?_⟩
                  rcases hver with ⟨h1, h2⟩ | ⟨h1, h2, h3, h4⟩
                  · exact Or.inl ⟨h1, by rw [← h2, hv]⟩
                  · exact Or.inr ⟨h1, h2, h3, by rw [← h4, hv]⟩
              · split at h
                · have := vaultAuth_ok d _ _ method v h
                  exact ⟨fun _ => this.1, fun _ => this, fun hm => absurd this.1 hm⟩
                · cases h
  · intro m data0 rest key cloudlet sigb64 rest2 sig hmd hdata hkey hcl hsig hdec hreq hm
    subst hmd
    simp only [VerifyAccessKeySig, hdata, hkey, hcl, hsig]
    split
    · exact Or.inr (Or.inr rfl)
    · rcases accessKeyAuth_rejects d cloudlet key data0 sigb64 method sig hdec hreq hm with h | h
      · exact Or.inl h
      · exact Or.inr (Or.inl h)

theorem upgradeRequired_only_for_upgrade_witness :
    VerifyAccessKeySig
        { AccessKeyData := "access-key-data", AccessKeySig := "access-key-sig",
          VaultKeySig := "vault-key-sig",
          unmarshalKey := fun _ => some ⟨"org", "cloudlet"⟩,
          cloudletGet := fun _ => some ⟨false, "pubkey", "", true, false⟩,
          base64Decode := fun _ => some [1, 2, 3],
          LoadPubPEM := fun _ => some [4, 5, 6],
          ed25519Verify := fun _ _ _ => true,
          vaultLogin := fun _ _ => false }
        (some [("access-key-data", ["key"]), ("access-key-sig", ["c2ln"])])
        "/edgeproto.CloudletAccessApi/IssueCert" =
      Except.error VerifyError.upgradeRequired ∨
    VerifyAccessKeySig
        { AccessKeyData := "access-key-data", AccessKeySig := "access-key-sig",
          VaultKeySig := "vault-key-sig",
          unmarshalKey := fun _ => some ⟨"org", "cloudlet"⟩,
          cloudletGet := fun _ => some ⟨false, "pubkey", "", true, false⟩,
          base64Decode := fun _ => some [1, 2, 3],
          LoadPubPEM := fun _ => some [4, 5, 6],
          ed25519Verify := fun _ _ _ => true,
          vaultLogin := fun _ _ => false }
        (some [("access-key-data", ["key"]), ("access-key-sig", ["c2ln"])])
        "/edgeproto.CloudletAccessApi/IssueCert" =
      Except.error VerifyError.noPublicKey ∨
    VerifyAccessKeySig
        { AccessKeyData := "access-key-data", AccessKeySig := "access-key-sig",
          VaultKeySig := "vault-key-sig",
          unmarshalKey := fun _ => some ⟨"org", "cloudlet"⟩,
          cloudletGet := fun _ => some ⟨false, "pubkey", "", true, false⟩,
          base64Decode := fun _ => some [1, 2, 3],
          LoadPubPEM := fun _ => some [4, 5, 6],
          ed25519Verify := fun _ _ _ => true,
          vaultLogin := fun _ _ => false }
        (some [("access-key-data", ["key"]), ("access-key-sig", ["c2ln"])])
        "/edgeproto.CloudletAccessApi/IssueCert" =
      Except.error VerifyError.edgeboxNotAllowed :=
  (upgradeRequired_only_for_upgrade
    { AccessKeyData := "access-key-data", AccessKeySig := "access-key-sig",
      VaultKeySig := "vault-key-sig",
      unmarshalKey := fun _ => some ⟨"org", "cloudlet"⟩,
      cloudletGet := fun _ => some ⟨false, "pubkey", "", true, false⟩,
      base64Decode := fun _ => some [1, 2, 3],
      LoadPubPEM := fun _ => some [4, 5, 6],
      ed25519Verify := fun _ _ _ => true,
      vaultLogin := fun _ _ => false }
    (some [("access-key-data", ["key"]), ("access-key-sig", ["c2ln"])])
    "/edgeproto.CloudletAccessApi/IssueCert").2
    [("access-key-data", ["key"]), ("access-key-sig", ["c2ln"])] "key" [] ⟨"org", "cloudlet"⟩
    ⟨false, "pubkey", "", true, false⟩ "c2ln" [] [1, 2, 3]
    rfl (by decide) rfl rfl (by decide) rfl (Or.inl ⟨by decide, rfl⟩) (by decide)

/-! ## The lock discipline of the export pass -/

theorem exportShardsTrace_state (i : Nat) (acc : List AutoProvCount)
    (shards : List AutoProvStatsShard) :
    (exportShardsTrace i acc shards).1 = (exportShards acc shards).1 ∧
    (exportShardsTrace i acc shards).2.1 = (exportShards acc shards).2 := by
  induction shards generalizing i acc with
  | nil => exact ⟨rfl, rfl⟩
  | cons sh rest ih =>
    obtain ⟨h1, h2⟩ := ih (i + 1) (exportShard acc sh).2
    exact ⟨by simp [exportShardsTrace, exportShards, h1],
      by simp [exportShardsTrace, exportShards, h2]⟩

theorem heldFrom_append (held : List Nat) (xs ys : List PassEvent) :
    heldFrom held (xs ++ ys) = heldFrom (heldFrom held xs) ys := by
  induction xs generalizing held with
  | nil => rfl
  | cons e rest ih => cases e <;> simp [heldFrom, ih]

theorem heldFrom_sends (held : List Nat) (evs : List PassEvent)
    (h : ∀ e ∈ evs, ∃ m, e = PassEvent.send m) : heldFrom held evs = held := by
  induction evs with
  | nil => rfl
  | cons e rest ih =>
    obtain ⟨m, rfl⟩ := h e (List.mem_cons_self _ _)
    simp only [heldFrom]
    exact ih (fun e he => h e (List.mem_cons_of_mem _ he))

/-- The events of the loop over the shards: all locks are released at the
end, there is no `send` among them, at most one lock is held after any number
of events, and a lock is taken only when none is held. -/
theorem shardEvents_discipline (i : Nat) (acc : List AutoProvCount)
    (shards : List AutoProvStatsShard) :
    heldFrom [] (exportShardsTrace i acc shards).2.2 = [] ∧
    (∀ e ∈ (exportShardsTrace i acc shards).2.2, ∀ m, e ≠ PassEvent.send m) ∧
    ∀ n, (heldFrom [] ((exportShardsTrace i acc shards).2.2.take n)).length ≤ 1 ∧
      (∀ j, (exportShardsTrace i acc shards).2.2[n]? = some (PassEvent.lock j) →
        heldFrom [] ((exportShardsTrace i acc shards).2.2.take n) = []) := by
  induction shards generalizing i acc with
  | nil =>
    refine ⟨rfl, by simp [exportShardsTrace], fun n => ?_⟩
    simp [exportShardsTrace, heldFrom]
  | cons sh rest ih =>
    obtain ⟨h1, h2, h3⟩ := ih (i + 1) (exportShard acc sh).2
    have hev : (exportShardsTrace i acc (sh :: rest)).2.2 =
        PassEvent.lock i :: PassEvent.unlock i ::
          (exportShardsTrace (i + 1) (exportShard acc sh).2 rest).2.2 := rfl
    rw [hev]
    refine ⟨by simpa [heldFrom] using h1, ?_, ?_⟩
    · intro e he m
      simp only [List.mem_cons] at he
      rcases he with rfl | rfl | he
      · simp
      · simp
      · exact h2 e he m
    · intro n
      match n with
      | 0 => simp [heldFrom]
      | 1 => simp [heldFrom]
      | n + 2 =>
        have := h3 n
        simpa [heldFrom] using this

/-- C23. One periodic export pass, with its lock and `send` events written
out, leaves the state the pass leaves and hands to `send` what the pass
hands.  After any number of its events the export task holds at most one
shard lock; it takes a shard lock only when it holds none (the lock of the
shard before has been released); and when it calls `send` it holds none. -/
theorem exportPass_lock_discipline (now : Nat) (s : AutoProvStats) :
    (exportPassTrace now s).1 = (exportPass now s).1 ∧
    (exportPassTrace now s).2.filterMap
        (fun e => match e with
          | PassEvent.send m => some m
          | _ => none) = (exportPass now s).2.2 ∧
    (∀ n, (heldFrom [] ((exportPassTrace now s).2.take n)).length ≤ 1) ∧
    (∀ n j, (exportPassTrace now s).2[n]? = some (PassEvent.lock j) →
      heldFrom [] ((exportPassTrace now s).2.take n) = []) ∧
    (∀ n msg, (exportPassTrace now s).2[n]? = some (PassEvent.send msg) →
      heldFrom [] ((exportPassTrace now s).2.take n) = []) := by
  obtain ⟨hs1, hs2⟩ := exportShardsTrace_state 0 [] s.shards
  obtain ⟨hd1, hd2, hd3⟩ := shardEvents_discipline 0 [] s.shards
  have hnone : (exportShardsTrace 0 [] s.shards).2.2.filterMap
      (fun e => match e with
        | PassEvent.send m => some m
        | _ => none) = [] := by
    rw [List.filterMap_eq_nil_iff]
    intro e he
    cases e with
    | lock i => rfl
    | unlock i => rfl
    | send m => exact absurd rfl (hd2 _ he m)
  -- the events after position `n` of the loop's events
  have htake : ∀ (S : List PassEvent) (n : Nat),
      (∀ e ∈ S, ∃ m, e = PassEvent.send m) →
      (exportShardsTrace 0 [] s.shards).2.2.length ≤ n →
      heldFrom [] (((exportShardsTrace 0 [] s.shards).2.2 ++ S).take n) = [] := by
    intro S n hS hn
    rw [List.take_append_eq_append_take, List.take_of_length_le hn, heldFrom_append, hd1]
    exact heldFrom_sends [] _ (fun e he => hS e (List.mem_of_mem_take he))
  have hS : ∀ e ∈ (if 0 < (exportShardsTrace 0 [] s.shards).2.1.length then
      [PassEvent.send { dmeNodeName := s.nodeName, timestamp := some now,
                        counts := (exportShardsTrace 0 [] s.shards).2.1 }] else []),
      ∃ m, e = PassEvent.send m := by
    intro e he
    split at he
    · exact ⟨_, List.mem_singleton.1 he⟩
    · simp at he
  refine ⟨?_, ?_, ?_, ?_, ?_⟩
  · simp [exportPassTrace, exportPass, hs1]
  · simp only [exportPassTrace, exportPass, List.filterMap_append, hnone, List.nil_append, hs2]
    split <;> rfl
  · intro n
    simp only [exportPassTrace]
    by_cases hn : n ≤ (exportShardsTrace 0 [] s.shards).2.2.length
    · rw [List.take_append_of_le_length hn]
      exact (hd3 n).1
    · rw [htake _ n hS (by omega)]
      simp
  · intro n j hj
    simp only [exportPassTrace] at hj ⊢
    by_cases hn : n < (exportShardsTrace 0 [] s.shards).2.2.length
    · rw [List.getElem?_append_left hn] at hj
      rw [List.take_append_of_le_length (le_of_lt hn)]
      exact (hd3 n).2 j hj
    · exact htake _ n hS (by omega)
  · intro n msg hmsg
    simp only [exportPassTrace] at hmsg ⊢
    by_cases hn : n < (exportShardsTrace 0 [] s.shards).2.2.length
    · rw [List.getElem?_append_left hn] at hmsg
      exact absurd rfl (hd2 _ (List.mem_iff_getElem?.2 ⟨n, hmsg⟩) msg)
    · exact htake _ n hS (by omega)

/-! ## The order of `lastCount` and `count` -/

theorem sub64_of_le (a b : Nat) (h : b ≤ a) (ha : a < 2 ^ 64) : sub64 a b = a - b := by
  unfold sub64
  norm_num at ha ⊢
  omega

theorem sub64_succ (a b : Nat) : sub64 ((a + 1) % 2 ^ 64) b = (sub64 a b + 1) % 2 ^ 64 := by
  unfold sub64
  norm_num
  omega

theorem countOf_of_shard (G : AppZoneKeyPair → Nat → Nat) (s : AutoProvStats)
    (key : AppZoneKeyPair) (shard : AutoProvStatsShard)
    (hs : s.shards[G key s.numShards]? = some shard) :
    countOf G s key = ((mapGet key shard).getD ⟨0, 0⟩).count := by
  unfold countOf getCounts
  rw [hs]
  simp only [Option.some_bind]
  cases mapGet key shard <;> rfl

theorem ordered_Increment (G : AppZoneKeyPair → Nat → Nat) (s s1 : AutoProvStats)
    (appKey : AppKey) (zoneKey : ZoneKey) (policy : AutoProvPolicy)
    (msgs : List AutoProvCountsMsg)
    (hinv : ∀ e ∈ allEntries s, e.2.lastCount ≤ e.2.count ∧ e.2.count < 2 ^ 64)
    (h : Increment G s appKey zoneKey policy = some (s1, msgs))
    (hno : countOf G s ⟨appKey, zoneKey⟩ + 1 < 2 ^ 64) :
    ∀ e ∈ allEntries s1, e.2.lastCount ≤ e.2.count ∧ e.2.count < 2 ^ 64 := by
  obtain ⟨shard, hs, rfl⟩ := Increment_state G s s1 appKey zoneKey policy msgs h
  rw [countOf_of_shard G s _ shard hs] at hno
  have hshard : shard ∈ s.shards := List.mem_iff_getElem?.2 ⟨_, hs⟩
  intro e he
  simp only [allEntries, List.mem_flatten] at he hinv
  obtain ⟨sh, hsh, hesh⟩ := he
  rcases List.mem_or_eq_of_mem_set hsh with hmem | heq
  · exact hinv e ⟨sh, hmem, hesh⟩
  · rw [heq] at hesh
    rcases mem_mapSet hesh with he1 | he1
    · rw [he1]
      simp only
      cases hg : mapGet (⟨appKey, zoneKey⟩ : AppZoneKeyPair) shard with
      | none =>
        simp only [Option.getD_none]
        norm_num
      | some c =>
        rw [hg] at hno
        simp only [Option.getD_some] at hno ⊢
        have := (hinv (_, c) ⟨shard, hshard, mapGet_some_mem hg⟩).1
        simp only at this
        rw [Nat.mod_eq_of_lt hno]
        exact ⟨by omega, hno⟩
    · exact hinv e ⟨shard, hshard, he1⟩

theorem ordered_of_sublists (s s1 : AutoProvStats)
    (f : AutoProvStatsShard → AutoProvStatsShard) (hf : ∀ sh, List.Sublist (f sh) sh)
    (hsh : s1.shards = s.shards.map f)
    (hinv : ∀ e ∈ allEntries s, e.2.lastCount ≤ e.2.count ∧ e.2.count < 2 ^ 64) :
    ∀ e ∈ allEntries s1, e.2.lastCount ≤ e.2.count ∧ e.2.count < 2 ^ 64 := by
  intro e he
  simp only [allEntries, hsh, List.mem_flatten, List.mem_map] at he hinv
  obtain ⟨l, ⟨sh, hmem, rfl⟩, hel⟩ := he
  exact hinv e ⟨sh, hmem, (hf sh).subset hel⟩

theorem ordered_applyOp (G : AppZoneKeyPair → Nat → Nat) (M : AppKey → AppKey → Bool)
    (op : GenOp) (s s1 : AutoProvStats)
    (hinv : ∀ e ∈ allEntries s, e.2.lastCount ≤ e.2.count ∧ e.2.count < 2 ^ 64)
    (h : applyOp G M op s = some s1)
    (hno : noOverflowRun G M [op] s = true) :
    ∀ e ∈ allEntries s1, e.2.lastCount ≤ e.2.count ∧ e.2.count < 2 ^ 64 := by
  cases op with
  | increment appKey zoneKey policy =>
    simp only [noOverflowRun, Bool.and_eq_true, decide_eq_true_eq] at hno
    simp only [applyOp, Option.map_eq_some'] at h
    obtain ⟨⟨s2, msgs⟩, hinc, rfl⟩ := h
    exact ordered_Increment G s s2 appKey zoneKey policy msgs hinv hinc hno.1
  | exportPass now =>
    simp only [applyOp, Option.some.injEq] at h
    subst h
    intro e he
    simp only [allEntries, exportPass_shards, List.mem_flatten, List.mem_map] at he hinv
    obtain ⟨l, ⟨sh, hmem, rfl⟩, hel⟩ := he
    obtain ⟨e0, he0, rfl⟩ := List.mem_map.1 hel
    exact ⟨Nat.le_refl _, (hinv e0 ⟨sh, hmem, he0⟩).2⟩
  | updateSettings v =>
    obtain ⟨s2, ev, hu, hsh, _⟩ := UpdateSettings_frame v s
    simp only [applyOp, hu, Option.map_some', Option.some.injEq] at h
    subst h
    simpa [allEntries, hsh] using hinv
  | clear appKey policy =>
    simp only [applyOp, Option.some.injEq] at h
    subst h
    exact ordered_of_sublists s _ (fun sh => sh.filter (fun e => !(M e.1.appKey appKey)))
      (fun sh => List.filter_sublist sh) rfl hinv
  | prune apps =>
    simp only [applyOp, Option.some.injEq] at h
    subst h
    exact ordered_of_sublists s _ (fun sh => sh.filter (fun e => decide (e.1.appKey ∈ apps)))
      (fun sh => List.filter_sublist sh) rfl hinv
  | start =>
    simp only [applyOp, Option.some.injEq] at h
    subst h
    have h1 : (Start s).1.shards = s.shards := by simp only [Start]; split <;> rfl
    simpa [allEntries, h1] using hinv
  | stop =>
    simp only [applyOp, Stop, Option.map_eq_some'] at h
    obtain ⟨r, hr, rfl⟩ := h
    split at hr
    · simp only [Option.some.injEq] at hr
      subst hr
      exact hinv
    · cases hr

theorem ordered_runOps (G : AppZoneKeyPair → Nat → Nat) (M : AppKey → AppKey → Bool)
    (ops : List GenOp) :
    ∀ s s1 : AutoProvStats,
      (∀ e ∈ allEntries s, e.2.lastCount ≤ e.2.count ∧ e.2.count < 2 ^ 64) →
      runOps G M ops s = some s1 → noOverflowRun G M ops s = true →
      ∀ e ∈ allEntries s1, e.2.lastCount ≤ e.2.count ∧ e.2.count < 2 ^ 64 := by
  induction ops with
  | nil =>
    intro s s1 hinv hrun _
    simp only [runOps, Option.some.injEq] at hrun
    subst hrun
    exact hinv
  | cons op rest ih =>
    intro s s1 hinv hrun hno
    cases hop : applyOp G M op s with
    | none => simp [runOps, hop] at hrun
    | some s2 =>
      simp only [runOps, hop] at hrun
      simp only [noOverflowRun, hop, Bool.and_eq_true] at hno
      have hno1 : noOverflowRun G M [op] s = true := by
        simp only [noOverflowRun, hop, Bool.and_eq_true, and_true]
        exact hno.1
      exact ih s2 s1 (ordered_applyOp G M op s s2 hinv hop hno1) hrun hno.2

/-- C27. In every state a generator reaches from `InitAutoProvStats` by a
sequence of operations (`Increment`, export pass, `Clear`, `Prune`, and also
`UpdateSettings`, `Start`, `Stop`) in which no `Increment` overflows the
64-bit count, every entry of every shard has `lastCount <= count`; so the
64-bit difference `count - lastCount` is the true difference, also the one
`Increment` computes after raising the count by one. -/
theorem lastCount_le_count (G : AppZoneKeyPair → Nat → Nat) (M : AppKey → AppKey → Bool)
    (intervalSec offsetSec : Rat) (N : Nat) (nodeName : String) (ops : List GenOp)
    (s : AutoProvStats)
    (hrun : runOps G M ops (InitAutoProvStats intervalSec offsetSec N nodeName) = some s)
    (hno : noOverflowRun G M ops (InitAutoProvStats intervalSec offsetSec N nodeName) = true) :
    ∀ e ∈ allEntries s, e.2.lastCount ≤ e.2.count ∧
      sub64 e.2.count e.2.lastCount = e.2.count - e.2.lastCount ∧
      (e.2.count + 1 < 2 ^ 64 →
        sub64 ((e.2.count + 1) % 2 ^ 64) e.2.lastCount = e.2.count + 1 - e.2.lastCount) := by
  have hinit : ∀ e ∈ allEntries (InitAutoProvStats intervalSec offsetSec N nodeName),
      e.2.lastCount ≤ e.2.count ∧ e.2.count < 2 ^ 64 := by
    intro e he
    simp only [allEntries, InitAutoProvStats, List.mem_flatten] at he
    obtain ⟨sh, hsh, hesh⟩ := he
    rw [(List.mem_replicate.1 hsh).2] at hesh
    simp at hesh
  intro e he
  obtain ⟨h1, h2⟩ := ordered_runOps G M ops _ s hinit hrun hno e he
  refine ⟨h1, sub64_of_le _ _ h1 h2, fun h3 => ?_⟩
  rw [Nat.mod_eq_of_lt h3]
  exact sub64_of_le _ _ (by omega) h3

theorem lastCount_le_count_witness :
    (⟨2, 1⟩ : AutoProvCounts).lastCount ≤ (⟨2, 1⟩ : AutoProvCounts).count ∧
      sub64 (⟨2, 1⟩ : AutoProvCounts).count (⟨2, 1⟩ : AutoProvCounts).lastCount = 2 - 1 ∧
      sub64 (((⟨2, 1⟩ : AutoProvCounts).count + 1) % 2 ^ 64)
        (⟨2, 1⟩ : AutoProvCounts).lastCount = 2 + 1 - 1 :=
  have h := lastCount_le_count (fun _ _ => 0) (fun m o => decide (m = o)) 300 0 1 "dme"
    [GenOp.increment ⟨"org", "app", "1.0"⟩ ⟨"op", "zone"⟩ ⟨3, 2⟩, GenOp.exportPass 12,
      GenOp.increment ⟨"org", "app", "1.0"⟩ ⟨"op", "zone"⟩ ⟨3, 2⟩]
    { shards := [[(⟨⟨"org", "app", "1.0"⟩, ⟨"op", "zone"⟩⟩, ⟨2, 1⟩)]], numShards := 1,
      intervalSec := 300, offsetSec := 0, nodeName := "dme", running := false }
    (by decide) (by decide) (⟨⟨"org", "app", "1.0"⟩, ⟨"op", "zone"⟩⟩, ⟨2, 1⟩) (by decide)
  ⟨h.1, h.2.1, h.2.2 (by decide)⟩

/-! ## The fast path between two export passes -/

theorem toUint32_small (x : Nat) (h : x < 2 ^ 32) : toUint32 x = x := by
  unfold toUint32
  exact Nat.mod_eq_of_lt h

theorem toUint32_le (x : Nat) : toUint32 x ≤ x := by
  unfold toUint32
  exact Nat.mod_le _ _

theorem getCounts_congr (G : AppZoneKeyPair → Nat → Nat) (s s1 : AutoProvStats)
    (key : AppZoneKeyPair) (h1 : s1.shards = s.shards) (h2 : s1.numShards = s.numShards) :
    getCounts G s1 key = getCounts G s key := by
  unfold getCounts
  rw [h1, h2]

/-- The counters `Increment` leaves for its key, and the messages it sends. -/
theorem Increment_sends (G : AppZoneKeyPair → Nat → Nat) (s s1 : AutoProvStats)
    (appKey : AppKey) (zoneKey : ZoneKey) (policy : AutoProvPolicy)
    (msgs : List AutoProvCountsMsg)
    (h : Increment G s appKey zoneKey policy = some (s1, msgs)) :
    ∃ c, getCounts G s1 ⟨appKey, zoneKey⟩ = some c ∧
      (msgs ≠ [] → fastPathCond c policy = true) := by
  have hidx := Increment_some_index h
  obtain ⟨shard, c1, msgs1, hs, _, hmsgs, hinc⟩ := Increment_eq G s appKey zoneKey policy hidx
  rw [hinc] at h
  simp only [Option.some.injEq, Prod.mk.injEq] at h
  obtain ⟨h1, h2⟩ := h
  subst h1
  refine ⟨c1, ?_, ?_⟩
  · rw [getCounts_eq_entryAt]
    show entryAt _ (G ⟨appKey, zoneKey⟩ s.numShards) _ = _
    rw [entryAt_set_self _ _ _ _ hidx, mapGet_mapSet_self]
  · intro hne
    by_contra hf
    apply hne
    rw [← h2, hmsgs, if_neg hf]

/-- An `Increment` of another key leaves the counters of `key` as they are. -/
theorem getCounts_Increment_ne (G : AppZoneKeyPair → Nat → Nat) (s s1 : AutoProvStats)
    (appKey : AppKey) (zoneKey : ZoneKey) (policy : AutoProvPolicy)
    (msgs : List AutoProvCountsMsg) (key : AppZoneKeyPair)
    (hk : (⟨appKey, zoneKey⟩ : AppZoneKeyPair) ≠ key)
    (h : Increment G s appKey zoneKey policy = some (s1, msgs)) :
    getCounts G s1 key = getCounts G s key := by
  have hidx := Increment_some_index h
  obtain ⟨shard, hs, rfl⟩ := Increment_state G s s1 appKey zoneKey policy msgs h
  rw [getCounts_eq_entryAt, getCounts_eq_entryAt]
  show entryAt _ (G key s.numShards) key = _
  have hk2 : key ≠ ⟨appKey, zoneKey⟩ := fun e => hk e.symm
  by_cases hi : G ⟨appKey, zoneKey⟩ s.numShards = G key s.numShards
  · rw [← hi, entryAt_set_self _ _ _ _ hidx, mapGet_mapSet_ne _ _ hk2]
    simp only [entryAt, hs, Option.some_bind]
  · rw [entryAt_set_ne _ _ _ _ _ hi]

/-- The `Increment` of a key whose counters are `c`, when the fast path test
holds for the raised count. -/
theorem Increment_of_getCounts (G : AppZoneKeyPair → Nat → Nat) (s : AutoProvStats)
    (appKey : AppKey) (zoneKey : ZoneKey) (policy : AutoProvPolicy) (c : AutoProvCounts)
    (h : getCounts G s ⟨appKey, zoneKey⟩ = some c)
    (hf : fastPathCond ⟨(c.count + 1) % 2 ^ 64, c.lastCount⟩ policy = true) :
    ∃ s1, Increment G s appKey zoneKey policy =
      some (s1, [{ dmeNodeName := s.nodeName, timestamp := none
                   counts := [{ appKey := appKey, zoneKey := zoneKey
                                count := (c.count + 1) % 2 ^ 64, processNow := true }] }]) ∧
      getCounts G s1 ⟨appKey, zoneKey⟩ = some ⟨(c.count + 1) % 2 ^ 64, c.lastCount⟩ := by
  unfold getCounts at h
  cases hs : s.shards[G ⟨appKey, zoneKey⟩ s.numShards]? with
  | none =>
    rw [hs] at h
    cases h
  | some shard =>
    rw [hs] at h
    simp only [Option.some_bind] at h
    have hidx : G ⟨appKey, zoneKey⟩ s.numShards < s.shards.length := by
      by_contra hlt
      rw [List.getElem?_eq_none (Nat.le_of_not_lt hlt)] at hs
      cases hs
    have hinc : Increment G s appKey zoneKey policy =
        some ({ s with shards := (s.shards.set (G ⟨appKey, zoneKey⟩ s.numShards)
                  (mapSet ⟨appKey, zoneKey⟩ ⟨(c.count + 1) % 2 ^ 64, c.lastCount⟩ shard)) },
              [{ dmeNodeName := s.nodeName, timestamp := none
                 counts := [{ appKey := appKey, zoneKey := zoneKey
                              count := (c.count + 1) % 2 ^ 64, processNow := true }] }]) := by
      unfold Increment
      simp only [hs, h, Option.getD_some, hf, if_true]
    refine ⟨_, hinc, ?_⟩
    rw [getCounts_eq_entryAt]
    show entryAt _ (G ⟨appKey, zoneKey⟩ s.numShards) _ = _
    rw [entryAt_set_self _ _ _ _ hidx, mapGet_mapSet_self]

theorem getCounts_applyOp_leaves (G : AppZoneKeyPair → Nat → Nat) (M : AppKey → AppKey → Bool)
    (op : GenOp) (s s1 : AutoProvStats) (key : AppZoneKeyPair)
    (hleave : op.leavesKey M key = true) (h : applyOp G M op s = some s1) :
    getCounts G s1 key = getCounts G s key := by
  cases op with
  | increment appKey zoneKey policy =>
    simp only [GenOp.leavesKey, decide_eq_true_eq] at hleave
    simp only [applyOp, Option.map_eq_some'] at h
    obtain ⟨⟨s2, msgs⟩, hinc, rfl⟩ := h
    exact getCounts_Increment_ne G s s2 appKey zoneKey policy msgs key hleave hinc
  | exportPass now => simp [GenOp.leavesKey] at hleave
  | updateSettings v =>
    obtain ⟨s2, ev, hu, hsh, hn⟩ := UpdateSettings_frame v s
    simp only [applyOp, hu, Option.map_some', Option.some.injEq] at h
    subst h
    exact getCounts_congr G s s2 key hsh hn
  | clear appKey policy =>
    simp only [applyOp, Option.some.injEq] at h
    subst h
    simp only [GenOp.leavesKey] at hleave
    simp only [getCounts, Clear, List.getElem?_map]
    cases s.shards[G key s.numShards]? with
    | none => rfl
    | some sh =>
      simp only [Option.map_some', Option.some_bind]
      rw [mapGet_filter_key key (fun k => !(M k.appKey appKey)) sh]
      exact if_pos hleave
  | prune apps =>
    simp only [applyOp, Option.some.injEq] at h
    subst h
    simp only [GenOp.leavesKey] at hleave
    simp only [getCounts, Prune, List.getElem?_map]
    cases s.shards[G key s.numShards]? with
    | none => rfl
    | some sh =>
      simp only [Option.map_some', Option.some_bind]
      rw [mapGet_filter_key key (fun k => decide (k.appKey ∈ apps)) sh]
      exact if_pos hleave
  | start =>
    simp only [applyOp, Option.some.injEq] at h
    subst h
    refine getCounts_congr G s _ key ?_ ?_ <;> simp only [Start] <;> split <;> rfl
  | stop =>
    simp only [applyOp, Stop, Option.map_eq_some'] at h
    obtain ⟨r, hr, rfl⟩ := h
    split at hr
    · simp only [Option.some.injEq] at hr
      subst hr
      exact getCounts_congr G s _ key rfl rfl
    · cases hr

theorem getCounts_runOps_leaves (G : AppZoneKeyPair → Nat → Nat) (M : AppKey → AppKey → Bool)
    (key : AppZoneKeyPair) (ops : List GenOp) :
    ∀ s s1 : AutoProvStats, (∀ op ∈ ops, op.leavesKey M key = true) →
      runOps G M ops s = some s1 → getCounts G s1 key = getCounts G s key := by
  induction ops with
  | nil =>
    intro s s1 _ hrun
    simp only [runOps, Option.some.injEq] at hrun
    rw [hrun]
  | cons op rest ih =>
    intro s s1 hleave hrun
    cases hop : applyOp G M op s with
    | none => simp [runOps, hop] at hrun
    | some s2 =>
      simp only [runOps, hop] at hrun
      rw [ih s2 s1 (fun o ho => hleave o (List.mem_cons_of_mem _ ho)) hrun]
      exact getCounts_applyOp_leaves G M op s s2 key (hleave op (List.mem_cons_self _ _)) hop

/-- C28 as stated fails: with no export pass in between, the second
`Increment` of a key sends a process-now message (policy with deploy client
count 2 and interval count 1), a `Clear` of the app follows, and the next
`Increment` of the same key under the same policy sends nothing, although
`count - lastCount` is 1 then, below `2 ^ 32`. -/
theorem fastPath_silent_after_Clear :
    ∃ s s1 s2 s3 msg c,
      runOps (fun _ _ => 0) (fun m o => decide (m = o))
        [GenOp.increment ⟨"org", "app", "1.0"⟩ ⟨"op", "zone"⟩ ⟨2, 1⟩]
        (InitAutoProvStats 300 0 1 "dme") = some s ∧
      Increment (fun _ _ => 0) s ⟨"org", "app", "1.0"⟩ ⟨"op", "zone"⟩ ⟨2, 1⟩ =
        some (s1, [msg]) ∧
      runOps (fun _ _ => 0) (fun m o => decide (m = o))
        [GenOp.clear ⟨"org", "app", "1.0"⟩ "policy"] s1 = some s2 ∧
      Increment (fun _ _ => 0) s2 ⟨"org", "app", "1.0"⟩ ⟨"op", "zone"⟩ ⟨2, 1⟩ =
        some (s3, []) ∧
      getCounts (fun _ _ => 0) s3 ⟨⟨"org", "app", "1.0"⟩, ⟨"op", "zone"⟩⟩ = some c ∧
      sub64 c.count c.lastCount < 2 ^ 32 := by
  refine ⟨{ shards := [[(⟨⟨"org", "app", "1.0"⟩, ⟨"op", "zone"⟩⟩, ⟨1, 0⟩)]], numShards := 1,
            intervalSec := 300, offsetSec := 0, nodeName := "dme", running := false },
          { shards := [[(⟨⟨"org", "app", "1.0"⟩, ⟨"op", "zone"⟩⟩, ⟨2, 0⟩)]], numShards := 1,
            intervalSec := 300, offsetSec := 0, nodeName := "dme", running := false },
          { shards := [[]], numShards := 1,
            intervalSec := 300, offsetSec := 0, nodeName := "dme", running := false },
          { shards := [[(⟨⟨"org", "app", "1.0"⟩, ⟨"op", "zone"⟩⟩, ⟨1, 0⟩)]], numShards := 1,
            intervalSec := 300, offsetSec := 0, nodeName := "dme", running := false },
          { dmeNodeName := "dme", timestamp := none
            counts := [{ appKey := ⟨"org", "app", "1.0"⟩, zoneKey := ⟨"op", "zone"⟩
                         count := 2, processNow := true }] },
          ⟨1, 0⟩, ?_, ?_, ?_, ?_, ?_, ?_⟩
  · decide
  · decide
  · decide
  · decide
  · decide
  · decide

/-- C28, amended.  If an `Increment` of a key sent a process-now message (so
the policy's interval count is at most 1), and the operations that follow it
up to the next `Increment` of the same key leave the key's counters alone (no
export pass, no `Clear` that the key's app matches, no `Prune` whose set
lacks the key's app; `Increment`s of other keys, `UpdateSettings`, `Start`
and `Stop` are allowed) and complete, and `count - lastCount` raised by one is
still below `2 ^ 32`, then that next `Increment` under the same policy
completes and sends exactly one process-now message for the key, carrying the
count raised by one, and leaves `lastCount` as it was. -/
theorem fastPath_fires_until_export (G : AppZoneKeyPair → Nat → Nat)
    (M : AppKey → AppKey → Bool) (s s1 s2 : AutoProvStats)
    (appKey : AppKey) (zoneKey : ZoneKey) (policy : AutoProvPolicy)
    (msgs1 : List AutoProvCountsMsg) (ops : List GenOp) (c1 : AutoProvCounts)
    (h1 : Increment G s appKey zoneKey policy = some (s1, msgs1))
    (hsent : msgs1 ≠ [])
    (hc1 : getCounts G s1 ⟨appKey, zoneKey⟩ = some c1)
    (hops : ∀ op ∈ ops, op.leavesKey M ⟨appKey, zoneKey⟩ = true)
    (hrun : runOps G M ops s1 = some s2)
    (hlt : sub64 c1.count c1.lastCount + 1 < 2 ^ 32) :
    policy.IntervalCount ≤ 1 ∧
    ∃ s3, Increment G s2 appKey zoneKey policy =
        some (s3, [{ dmeNodeName := s2.nodeName, timestamp := none
                     counts := [{ appKey := appKey, zoneKey := zoneKey
                                  count := (c1.count + 1) % 2 ^ 64, processNow := true }] }]) ∧
      getCounts G s3 ⟨appKey, zoneKey⟩ = some ⟨(c1.count + 1) % 2 ^ 64, c1.lastCount⟩ := by
  obtain ⟨c, hc, hfast⟩ := Increment_sends G s s1 appKey zoneKey policy msgs1 h1
  rw [hc1] at hc
  simp only [Option.some.injEq] at hc
  subst hc
  have hf := hfast hsent
  simp only [fastPathCond, Bool.and_eq_true, decide_eq_true_eq] at hf
  have hg : getCounts G s2 ⟨appKey, zoneKey⟩ = some c1 := by
    rw [getCounts_runOps_leaves G M ⟨appKey, zoneKey⟩ ops s1 s2 hops hrun]
    exact hc1
  have hlt64 : sub64 c1.count c1.lastCount + 1 < 2 ^ 64 := lt_trans hlt (by norm_num)
  have hf2 : fastPathCond ⟨(c1.count + 1) % 2 ^ 64, c1.lastCount⟩ policy = true := by
    simp only [fastPathCond, Bool.and_eq_true, decide_eq_true_eq]
    refine ⟨?_, hf.2⟩
    rw [sub64_succ, Nat.mod_eq_of_lt hlt64, toUint32_small _ hlt]
    have := toUint32_le (sub64 c1.count c1.lastCount)
    omega
  exact ⟨hf.2, Increment_of_getCounts G s2 appKey zoneKey policy c1 hg hf2⟩

theorem fastPath_fires_until_export_witness :
    (⟨2, 1⟩ : AutoProvPolicy).IntervalCount ≤ 1 ∧
    ∃ s3, Increment (fun _ _ => 0)
        { shards := [[(⟨⟨"org", "app", "1.0"⟩, ⟨"op", "zone"⟩⟩, ⟨2, 0⟩),
                      (⟨⟨"org", "other", "1.0"⟩, ⟨"op", "zone"⟩⟩, ⟨1, 0⟩)]], numShards := 1,
          intervalSec := 300, offsetSec := 0, nodeName := "dme", running := true }
        ⟨"org", "app", "1.0"⟩ ⟨"op", "zone"⟩ ⟨2, 1⟩ =
        some (s3, [{ dmeNodeName := "dme", timestamp := none
                     counts := [{ appKey := ⟨"org", "app", "1.0"⟩, zoneKey := ⟨"op", "zone"⟩
                                  count := (2 + 1) % 2 ^ 64, processNow := true }] }]) ∧
      getCounts (fun _ _ => 0) s3 ⟨⟨"org", "app", "1.0"⟩, ⟨"op", "zone"⟩⟩ =
        some ⟨(2 + 1) % 2 ^ 64, 0⟩ :=
  fastPath_fires_until_export (fun _ _ => 0) (fun m o => decide (m = o))
    { shards := [[(⟨⟨"org", "app", "1.0"⟩, ⟨"op", "zone"⟩⟩, ⟨1, 0⟩)]], numShards := 1,
      intervalSec := 300, offsetSec := 0, nodeName := "dme", running := false }
    { shards := [[(⟨⟨"org", "app", "1.0"⟩, ⟨"op", "zone"⟩⟩, ⟨2, 0⟩)]], numShards := 1,
      intervalSec := 300, offsetSec := 0, nodeName := "dme", running := false }
    { shards := [[(⟨⟨"org", "app", "1.0"⟩, ⟨"op", "zone"⟩⟩, ⟨2, 0⟩),
                  (⟨⟨"org", "other", "1.0"⟩, ⟨"op", "zone"⟩⟩, ⟨1, 0⟩)]], numShards := 1,
      intervalSec := 300, offsetSec := 0, nodeName := "dme", running := true }
    ⟨"org", "app", "1.0"⟩ ⟨"op", "zone"⟩ ⟨2, 1⟩
    [{ dmeNodeName := "dme", timestamp := none
       counts := [{ appKey := ⟨"org", "app", "1.0"⟩, zoneKey := ⟨"op", "zone"⟩
                    count := 2, processNow := true }] }]
    [GenOp.increment ⟨"org", "other", "1.0"⟩ ⟨"op", "zone"⟩ ⟨2, 1⟩, GenOp.start,
      GenOp.clear ⟨"org", "third", "1.0"⟩ "policy"]
    ⟨2, 0⟩ (by decide) (by decide) (by decide) (by decide) (by decide) (by decide)

/-! ## The existence of an app's state -/

/-- What the reconciliation of a list of apps with distinct keys leaves for
the key `k`: the result of the app update for the app of that key, and the
state as it was when no app of the list has that key. -/
theorem reconcileApps_spec (cache : List edgeproto.AutoProvPolicy) (k : AppKey)
    (apps : List edgeproto.App) :
    ∀ a : AutoProvAggr, (apps.map (fun app => app.key)).Nodup →
      (∀ app ∈ apps, app.key = k →
        ((mapGet k (reconcileApps cache apps a).allStats).isSome = true ↔
          trackable cache app) ∧
        (∀ st, mapGet k (reconcileApps cache apps a).allStats = some st →
          ∀ n, (mapGet n st.policies).isSome = true ↔ n ∈ app.AutoProvPolicies)) ∧
      ((∀ app ∈ apps, app.key ≠ k) →
        mapGet k (reconcileApps cache apps a).allStats = mapGet k a.allStats) := by
  induction apps with
  | nil =>
    intro a _
    exact ⟨fun app h => absurd h (List.not_mem_nil _), fun _ => rfl⟩
  | cons app0 rest ih =>
    intro a hnd
    simp only [List.map_cons, List.nodup_cons, List.mem_map, not_exists, not_and] at hnd
    obtain ⟨hnotin, hndrest⟩ := hnd
    obtain ⟨ih1, ih2⟩ := ih (updateApp cache app0 a) hndrest
    have hstep : reconcileApps cache (app0 :: rest) a =
        reconcileApps cache rest (updateApp cache app0 a) := rfl
    obtain ⟨hu1, hu2, _, hu4⟩ := updateApp_state_iff cache app0 a
    constructor
    · intro app happ hk
      rw [hstep]
      rcases List.mem_cons.1 happ with h | h
      · subst h
        subst hk
        have hrest : ∀ app' ∈ rest, app'.key ≠ app.key := fun app' h' e => hnotin app' h' e
        rw [ih2 hrest]
        exact ⟨hu1, fun st hst => (hu2 st hst).2.1⟩
      · exact ih1 app h hk
    · intro hne
      rw [hstep, ih2 (fun app h => hne app (List.mem_cons_of_mem _ h))]
      exact hu4 k (fun e => hne app0 (List.mem_cons_self _ _) e.symm)

theorem mapGet_key_of_mem {s : AggrSys} (h2 : ∀ e ∈ s.apps, e.2.key = e.1) {k : AppKey}
    {app : edgeproto.App} (h : mapGet k s.apps = some app) : app.key = k :=
  h2 (k, app) (mapGet_some_mem h)

/-- After the apps of the cache are reconciled against a policy cache, state
exists exactly for the apps that can have it, provided no state existed
before for a key outside the app cache. -/
theorem SysInv_reconcile (s : AggrSys) (cache : List edgeproto.AutoProvPolicy)
    (a : AutoProvAggr) (h1 : (s.apps.map Prod.fst).Nodup) (h2 : ∀ e ∈ s.apps, e.2.key = e.1)
    (hout : ∀ k, mapGet k s.apps = none → mapGet k a.allStats = none) :
    SysInv { s with policies := cache
                    aggr := reconcileApps cache (s.apps.map Prod.snd) a } := by
  have hkeys : (s.apps.map Prod.snd).map (fun app => app.key) = s.apps.map Prod.fst := by
    rw [List.map_map]
    exact List.map_congr_left (fun e he => h2 e he)
  have hnd : ((s.apps.map Prod.snd).map (fun app => app.key)).Nodup := by
    rw [hkeys]; exact h1
  refine ⟨h1, h2, ?_, ?_⟩
  · intro k
    obtain ⟨r1, r2⟩ := reconcileApps_spec cache k (s.apps.map Prod.snd) a hnd
    simp only
    cases hk : mapGet k s.apps with
    | none =>
      have hne : ∀ app ∈ s.apps.map Prod.snd, app.key ≠ k := by
        intro app happ e
        obtain ⟨e0, he0, rfl⟩ := List.mem_map.1 happ
        have hk0 : e0.1 = k := (h2 e0 he0).symm.trans e
        have hget : mapGet e0.1 s.apps = some e0.2 := mapGet_of_mem_nodup h1 he0
        rw [hk0, hk] at hget
        cases hget
      rw [r2 hne, hout k hk]
      simp
    | some app =>
      have hmem : app ∈ s.apps.map Prod.snd :=
        List.mem_map.2 ⟨(k, app), mapGet_some_mem hk, rfl⟩
      rw [(r1 app hmem (mapGet_key_of_mem h2 hk)).1]
      simp
  · intro k st app hst hk
    simp only at hst hk
    obtain ⟨r1, _⟩ := reconcileApps_spec cache k (s.apps.map Prod.snd) a hnd
    have hmem : app ∈ s.apps.map Prod.snd :=
      List.mem_map.2 ⟨(k, app), mapGet_some_mem hk, rfl⟩
    exact (r1 app hmem (mapGet_key_of_mem h2 hk)).2 st hst

theorem mapErase_nodup {κ ν : Type} [DecidableEq κ] (k : κ) (l : List (κ × ν))
    (h : (l.map Prod.fst).Nodup) : ((mapErase k l).map Prod.fst).Nodup :=
  (List.Sublist.map Prod.fst (List.filter_sublist l)).nodup h

theorem SysInv_applyEvent (ev : CacheEvent) (s : AggrSys) (h : SysInv s) :
    SysInv (applyEvent ev s) := by
  obtain ⟨h1, h2, h3, h4⟩ := h
  cases ev with
  | appUpdated app =>
    obtain ⟨hu1, hu2, _, hu4⟩ := updateApp_state_iff s.policies app s.aggr
    refine ⟨mapSet_nodup _ _ _ h1, ?_, ?_, ?_⟩
    · intro e he
      rcases mem_mapSet he with h | h
      · rw [h]
      · exact h2 e h
    · intro k
      simp only [applyEvent]
      by_cases hk : k = app.key
      · subst hk
        rw [hu1, mapGet_mapSet_self]
        simp [trackable]
      · rw [hu4 k hk, mapGet_mapSet_ne _ _ hk]
        exact h3 k
    · intro k st app1 hst hk1
      simp only [applyEvent] at hst hk1
      by_cases hk : k = app.key
      · subst hk
        rw [mapGet_mapSet_self] at hk1
        simp only [Option.some.injEq] at hk1
        subst hk1
        exact (hu2 st hst).2.1
      · rw [hu4 k hk] at hst
        rw [mapGet_mapSet_ne _ _ hk] at hk1
        exact h4 k st app1 hst hk1
  | appDeleted key =>
    refine ⟨mapErase_nodup _ _ h1, ?_, ?_, ?_⟩
    · intro e he
      exact h2 e (List.mem_of_mem_filter he)
    · intro k
      simp only [applyEvent]
      by_cases hk : k = key
      · subst hk
        rw [mapGet_mapErase_self, mapGet_mapErase_self]
        simp
      · rw [mapGet_mapErase_ne _ hk, mapGet_mapErase_ne _ hk]
        exact h3 k
    · intro k st app1 hst hk1
      simp only [applyEvent] at hst hk1
      by_cases hk : k = key
      · subst hk
        rw [mapGet_mapErase_self] at hst
        cases hst
      · rw [mapGet_mapErase_ne _ hk] at hst hk1
        exact h4 k st app1 hst hk1
  | policyUpdated p =>
    refine SysInv_reconcile s _ (updatePolicy p s.aggr) h1 h2 ?_
    intro k hk
    have hnone : mapGet k s.aggr.allStats = none := by
      cases hg : mapGet k s.aggr.allStats with
      | none => rfl
      | some st =>
        have := (h3 k).1 (by simp [hg])
        obtain ⟨app, happ, _⟩ := this
        rw [hk] at happ
        cases happ
    simp only [updatePolicy]
    rw [mapGet_map_val k (fun e => ({ e.2 with policies := e.2.policies.map (fun q =>
          (q.1, if q.1 = p.name then refreshTracker p q.2 else q.2)) } : apAppStats))
        s.aggr.allStats, hnone]
    rfl
  | policyDeleted name =>
    refine SysInv_reconcile s _ s.aggr h1 h2 ?_
    intro k hk
    cases hg : mapGet k s.aggr.allStats with
    | none => rfl
    | some st =>
      have := (h3 k).1 (by simp [hg])
      obtain ⟨app, happ, _⟩ := this
      rw [hk] at happ
      cases happ
  | iteration init env =>
    refine ⟨h1, h2, ?_, ?_⟩
    · intro k
      simp only [applyEvent]
      rw [mapGet_runIter, Option.isSome_map']
      exact h3 k
    · intro k st app1 hst hk1
      simp only [applyEvent] at hst hk1
      rw [mapGet_runIter] at hst
      cases hg : mapGet k s.aggr.allStats with
      | none => simp [hg] at hst
      | some st0 =>
        rw [hg] at hst
        simp only [Option.map_some', Option.some.injEq] at hst
        subst hst
        intro n
        rw [← h4 k st0 app1 hg hk1 n]
        cases init
        · simp only [runIterApp, Bool.false_eq_true, if_false]
          rw [mapGet_map_val n (fun p => evalPolicy _ p.2) st0.policies, Option.isSome_map']
        · simp [runIterApp]

theorem SysInv_runEvents (events : List CacheEvent) :
    ∀ s, SysInv s → SysInv (runEvents events s) := by
  induction events with
  | nil => intro s h; exact h
  | cons ev rest ih => intro s h; exact ih _ (SysInv_applyEvent ev s h)

theorem SysInv_init : SysInv initSys := by
  refine ⟨by simp [initSys], by simp [initSys], ?_, ?_⟩
  · intro k
    simp [initSys, mapGet]
  · intro k st app hst
    simp [initSys, mapGet] at hst

/-- C16. In every state the aggregator reaches from its start by Cache Mirror
callbacks (app updated or deleted, policy updated or deleted) and iterations,
state (an `allStats` entry) exists for an app key if and only if the app cache
holds an app of that key that names at least one policy and every policy it
names exists in the policy cache; the `PolicyTracker` entries of an app's
state are those of exactly the policies the app names; and an update of an
app to the empty policy list leaves no state for the app. -/
theorem state_iff_policies (events : List CacheEvent) :
    (∀ k, (mapGet k (runEvents events initSys).aggr.allStats).isSome = true ↔
      ∃ app, mapGet k (runEvents events initSys).apps = some app ∧
        app.AutoProvPolicies ≠ [] ∧
        ∀ n ∈ app.AutoProvPolicies,
          (findPolicy (runEvents events initSys).policies n).isSome = true) ∧
    (∀ k st app, mapGet k (runEvents events initSys).aggr.allStats = some st →
      mapGet k (runEvents events initSys).apps = some app →
      ∀ n, (mapGet n st.policies).isSome = true ↔ n ∈ app.AutoProvPolicies) ∧
    (∀ app : edgeproto.App, app.AutoProvPolicies = [] →
      mapGet app.key
        (applyEvent (CacheEvent.appUpdated app) (runEvents events initSys)).aggr.allStats =
        none) := by
  obtain ⟨_, _, h3, h4⟩ := SysInv_runEvents events initSys SysInv_init
  refine ⟨h3, h4, ?_⟩
  intro app hempty
  exact (updateApp_state_iff _ app _).2.2.1 hempty

end AutoProv
